import Mathlib

/-!
# Cached functional simulator: memory models and execution unit

A shallow embedding of `Memory.h` (backing store, `CachedMem`, `UncachedMem`),
`Executor.h` (`Executor::Execute`, `Executor::processAlu`), `Cpu.h` (`Cpu::Clock`) and the
loop of `main.cpp`, followed by the properties established about them.

Conventions.
* A `Word` is a 32-bit unsigned machine word, carried as a natural number; every
  operation that can wrap reduces modulo `2 ^ 32` explicitly.
* `std::map<Word, V>` is an association list with pairwise distinct keys (`AList`);
  only `find`, `size`, `erase` and `operator[]` are used by the source, none of which
  depends on the iteration order.
* `std::deque<Word>` is a list, front first; where the storage of the deque decides what
  the program does (the iterator used after `push_back`), its layout is carried along.
* Objects mutated through a pointer or reference are passed and returned explicitly.
* Where C++ leaves an operation undefined and the compiled program has a definite result
  (shift by a negative count, `int` overflow), the embedding has that result.
-/

namespace RiscvSim

/-! ## Base types -/

/-- Modelled from the spec: `Word` (declared in the absent `BaseTypes.h`) is the 32-bit
unsigned machine word. -/
abbrev Word := Nat

/-- Number of values of a `Word`. -/
def wordMod : Nat := 2 ^ 32

/-- Modelled from the spec: `sizeof(Word)` is four bytes. -/
def sizeofWord : Nat := 4

/-- Modelled from the spec: the conversion `SignedWord(x)` of a word to the 32-bit
two-complement signed integer with the same bits. -/
def SignedWord (x : Word) : Int :=
  if x % wordMod < 2 ^ 31 then ((x % wordMod : Nat) : Int) else ((x % wordMod : Nat) : Int) - 2 ^ 32

/-- Conversion of a signed integer back to a `Word` (reduction modulo `2 ^ 32`). -/
def toWord (z : Int) : Word := (z % 2 ^ 32).toNat

/-- Modelled from the spec: operation kinds of an instruction record (`IType` of the absent
`Instruction.h`), one per case label used in `Executor.h`. -/
inductive IType
  | Csrr | Csrw | Alu | Ld | St | J | Jr | Br | Auipc
  deriving DecidableEq, Repr

/-- Modelled from the spec: ALU function selectors (`AluFunc` of the absent `Instruction.h`). -/
inductive AluFunc
  | Add | Sub | And | Or | Xor | Slt | Sltu | Sll | Srl | Sra
  deriving DecidableEq, Repr

/-- Modelled from the spec: branch-condition selectors (`BrFunc` of the absent
`Instruction.h`). -/
inductive BrFunc
  | Eq | Neq | Lt | Ltu | Ge | Geu | AT | NT
  deriving DecidableEq, Repr

/-- Modelled from the spec: the fields of the instruction record (`Instruction` of the absent
`Instruction.h`) that `Memory.h` and `Executor.h` read or write. -/
structure Instruction where
  _type : IType
  _aluFunc : AluFunc
  _brFunc : BrFunc
  _imm : Option Word
  _src1Val : Word
  _src2Val : Word
  _csrVal : Word
  _data : Word
  _addr : Word
  _nextIp : Word
  deriving DecidableEq, Repr

/-! ## Memory.h: constants and address helpers -/

def memSize : Nat := 1024 * 1024

def lineSizeBytes : Nat := 32

def lineSizeWords : Nat := lineSizeBytes / sizeofWord

def cacheRequestCycles : Nat := 3

def defaultWordSize : Nat := 4

/-- `ToWordAddr(addr) = addr >> 2u`. -/
def ToWordAddr (addr : Word) : Word := addr >>> 2

/-- `ToLineAddr(addr) = addr & ~(lineSizeBytes - 1)`: the mask is a 64-bit `size_t`, the
result is converted back to a `Word`. -/
def ToLineAddr (addr : Word) : Word :=
  (addr &&& (2 ^ 64 - 1 - (lineSizeBytes - 1))) % wordMod

/-- `ToLineOffset(addr) = ToWordAddr(addr) & (lineSizeWords - 1)`. -/
def ToLineOffset (addr : Word) : Word := ToWordAddr addr &&& (lineSizeWords - 1)

/-! ## MemoryStorage -/

/-- The backing store `std::vector<Word> _mem` of `memSize` words, as a map from word index
to word.  The source indexes the vector unchecked, so an index at or beyond `memSize` is
undefined there; `InRange` names the addresses for which the embedding is exact. -/
structure MemoryStorage where
  _mem : Nat → Word

/-- An address whose word index lies inside the backing store. -/
def InRange (addr : Word) : Prop := ToWordAddr addr < memSize

instance (addr : Word) : Decidable (InRange addr) := by
  unfold InRange; infer_instance

/-- `MemoryStorage::Read`. -/
def MemoryStorage.Read (m : MemoryStorage) (ip : Word) : Word :=
  m._mem (ToWordAddr ip)

/-- `MemoryStorage::Write`. -/
def MemoryStorage.Write (m : MemoryStorage) (ip : Word) (data : Word) : MemoryStorage :=
  { _mem := Function.update m._mem (ToWordAddr ip) data }

/-! ## std::map and operator[] -/

/-- One cache line, `std::map<Word, Word>`: offset to word. -/
abbrev CacheLine := AList (fun _ : Word => Word)

/-- A cache, `std::map<Word, std::map<Word, Word>>`: line tag to line. -/
abbrev CacheMap := AList (fun _ : Word => CacheLine)

/-- `cache.size()`. -/
def CacheMap.size (c : CacheMap) : Nat := c.keys.length

/-- The line `cache[tag]` denotes: the stored line, or the empty line that `operator[]`
default-constructs when the tag is absent. -/
def CacheMap.line (c : CacheMap) (tag : Word) : CacheLine :=
  (c.lookup tag).getD ∅

/-- The value of the expression `cache[tag][off]`: the stored word, or the zero that
`operator[]` default-constructs when the line or the word is absent. -/
def CacheMap.word (c : CacheMap) (tag off : Word) : Word :=
  ((c.line tag).lookup off).getD 0

/-- The cache after evaluating `cache[tag][off]` as a read: unchanged when the word is
stored, otherwise the default-constructed line and word have been inserted. -/
def CacheMap.touch (c : CacheMap) (tag off : Word) : CacheMap :=
  match c.lookup tag with
  | some line =>
    match line.lookup off with
    | some _ => c
    | none => c.insert tag (line.insert off 0)
  | none => c.insert tag (AList.singleton off 0)

/-- The cache after the assignment `cache[tag][off] = v`. -/
def CacheMap.assign (c : CacheMap) (tag off v : Word) : CacheMap :=
  c.insert tag ((c.line tag).insert off v)

/-! ## CachedMem -/

/-- `CachedMem::cacheType`. -/
inductive cacheType
  | instruction | calculation
  deriving DecidableEq, Repr

/-- State of a `CachedMem` together with the `MemoryStorage` it references.  The members
`_currentCache` and `_currentCommonlyUsed` are never read or written and are left out. -/
structure CachedMem where
  _requestedIp : Word
  _waitCycles : Nat
  _mem : MemoryStorage
  _cacheInstructions : CacheMap
  _cacheCalculations : CacheMap
  _commonlyUsedInstructions : List Word
  _commonlyUsedCalculations : List Word

/-- `CachedMem::latency`. -/
def CachedMem.latency : Nat := 128

/-- A freshly constructed `CachedMem` over a backing store. -/
def CachedMem.init (amem : MemoryStorage) : CachedMem :=
  { _requestedIp := 0, _waitCycles := 0, _mem := amem,
    _cacheInstructions := ∅, _cacheCalculations := ∅,
    _commonlyUsedInstructions := [], _commonlyUsedCalculations := [] }

/-- The map the reference `cache` of `cacheController` is bound to. -/
def CachedMem.cache (s : CachedMem) : cacheType → CacheMap
  | .instruction => s._cacheInstructions
  | .calculation => s._cacheCalculations

/-- The deque the reference `commonlyUsed` of `cacheController` is bound to. -/
def CachedMem.commonlyUsed (s : CachedMem) : cacheType → List Word
  | .instruction => s._commonlyUsedInstructions
  | .calculation => s._commonlyUsedCalculations

/-- Assignment through the reference `cache`. -/
def CachedMem.setCache (s : CachedMem) (type : cacheType) (c : CacheMap) : CachedMem :=
  match type with
  | .instruction => { s with _cacheInstructions := c }
  | .calculation => { s with _cacheCalculations := c }

/-- Assignment through the reference `commonlyUsed`. -/
def CachedMem.setCommonlyUsed (s : CachedMem) (type : cacheType) (q : List Word) : CachedMem :=
  match type with
  | .instruction => { s with _commonlyUsedInstructions := q }
  | .calculation => { s with _commonlyUsedCalculations := q }

/-- The local `cacheSize` of `cacheController`, in lines. -/
def cacheSize : cacheType → Nat
  | .instruction => 1024 / (lineSizeWords * sizeofWord)
  | .calculation => 2048 / (lineSizeWords * sizeofWord)

/-- One iteration of the write-back loop of the eviction:
`_mem.Write(lineToWrite + defaultWordSize * i, cache[lineToWrite][i])`. -/
def writeBackWord (cache : CacheMap) (lineToWrite : Word) (m : MemoryStorage) (i : Nat) :
    MemoryStorage :=
  m.Write ((lineToWrite + defaultWordSize * i) % wordMod) (cache.word lineToWrite i)

/-- The write-back loop of the eviction, `i` from `0` to `lineSizeWords - 1`. -/
def writeBack (cache : CacheMap) (lineToWrite : Word) (mem : MemoryStorage) : MemoryStorage :=
  (List.range lineSizeWords).foldl (writeBackWord cache lineToWrite) mem

/-- One iteration of the fill loop of a miss: with `offset = lineTag + defaultWordSize * i`,
`cache[lineTag][ToLineOffset(offset)] = _mem.Read(offset)`. -/
def fillWord (mem : MemoryStorage) (lineTag : Word) (c : CacheMap) (i : Nat) : CacheMap :=
  let offset := (lineTag + defaultWordSize * i) % wordMod
  c.assign lineTag (ToLineOffset offset) (mem.Read offset)

/-- The fill loop of a miss, `i` from `0` to `lineSizeWords - 1`. -/
def fillLine (mem : MemoryStorage) (lineTag : Word) (cache : CacheMap) : CacheMap :=
  (List.range lineSizeWords).foldl (fillWord mem lineTag) cache

/-- The search loop of the hit branch: `lineToDelete` starts at `begin()` and is moved to
every position holding `lineTag`. `i` is the position of the head of the remaining deque. -/
def findLineToDelete (lineTag : Word) : List Word → Nat → Nat → Nat
  | [], _, lineToDelete => lineToDelete
  | x :: rest, i, lineToDelete =>
    findLineToDelete lineTag rest (i + 1) (if x = lineTag then i else lineToDelete)

/-- `CachedMem::cacheController`: the state the call leaves when it returns.

Two places of the source are undefined in C++. `front()` and `pop_front()` on an empty deque:
the eviction then only sets the countdown here (no reached state has an eviction with an
empty deque). `erase` through the iterator taken before `push_back` in the hit branch: in the
compiled program the iterator still designates its element unless the `push_back` has
reallocated the map of the deque, and the element at the position found is erased, which is
what stands here; when the map has been reallocated the program crashes and the call leaves
no state. Whether it returns is in `CachedMem.Laid.cacheController`, which carries the storage
layout of the deques. -/
def CachedMem.cacheController (s : CachedMem) (type : cacheType) : CachedMem :=
  let cache := s.cache type
  let commonlyUsed := s.commonlyUsed type
  let lineTag := ToLineAddr s._requestedIp
  match cache.lookup lineTag with
  | none =>
    -- miss
    let s1 :=
      if cacheSize type < cache.size then
        let s0 := { s with _waitCycles := CachedMem.latency }
        match commonlyUsed with
        | [] => s0
        | lineToWrite :: rest =>
          ((({ s0 with _mem := writeBack cache lineToWrite s0._mem }).setCommonlyUsed type rest).setCache
            type (cache.erase lineToWrite))
      else s
    let s2 := s1.setCommonlyUsed type (s1.commonlyUsed type ++ [lineTag])
    s2.setCache type (fillLine s2._mem lineTag (s2.cache type))
  | some _ =>
    -- hit
    let s1 := { s with _waitCycles := cacheRequestCycles }
    let lineToDelete := findLineToDelete lineTag commonlyUsed 0 0
    s1.setCommonlyUsed type ((commonlyUsed ++ [lineTag]).eraseIdx lineToDelete)

/-- `CachedMem::Request(Word ip)`. -/
def CachedMem.Request (s : CachedMem) (ip : Word) : CachedMem :=
  ({ s with _requestedIp := ip }).cacheController .instruction

/-- `CachedMem::Request(InstructionPtr&)`. -/
def CachedMem.RequestInstr (s : CachedMem) (instr : Instruction) : CachedMem :=
  if instr._type ≠ .Ld ∧ instr._type ≠ .St then s
  else ({ s with _requestedIp := instr._addr }).cacheController .calculation

/-- `CachedMem::Response()`: the optional word, and the state after the call (reading
through `operator[]` may insert). -/
def CachedMem.Response (s : CachedMem) : Option Word × CachedMem :=
  if s._waitCycles > 0 then (none, s)
  else
    let lineTag := ToLineAddr s._requestedIp
    let lineOffset := ToLineOffset s._requestedIp
    (some (s._cacheInstructions.word lineTag lineOffset),
      { s with _cacheInstructions := s._cacheInstructions.touch lineTag lineOffset })

/-- `CachedMem::Response(InstructionPtr&)`: the returned flag, the record and the state
after the call. -/
def CachedMem.ResponseInstr (s : CachedMem) (instr : Instruction) :
    Bool × Instruction × CachedMem :=
  if instr._type ≠ .Ld ∧ instr._type ≠ .St then (true, instr, s)
  else if s._waitCycles ≠ 0 then (false, instr, s)
  else
    let lineTag := ToLineAddr s._requestedIp
    let lineOffset := ToLineOffset s._requestedIp
    if instr._type = .Ld then
      (true, { instr with _data := s._cacheCalculations.word lineTag lineOffset },
        { s with _cacheCalculations := s._cacheCalculations.touch lineTag lineOffset })
    else if instr._type = .St then
      (true, instr,
        { s with _cacheCalculations := s._cacheCalculations.assign lineTag lineOffset instr._data })
    else (true, instr, s)

/-- `CachedMem::Clock`. -/
def CachedMem.Clock (s : CachedMem) : CachedMem :=
  if s._waitCycles > 0 then { s with _waitCycles := s._waitCycles - 1 } else s

/-! ## UncachedMem -/

/-- State of an `UncachedMem` together with the `MemoryStorage` it references. -/
structure UncachedMem where
  _requestedIp : Word
  _waitCycles : Nat
  _mem : MemoryStorage

/-- `UncachedMem::latency`. -/
def UncachedMem.latency : Nat := 128

/-- A freshly constructed `UncachedMem` over a backing store. -/
def UncachedMem.init (amem : MemoryStorage) : UncachedMem :=
  { _requestedIp := 0, _waitCycles := 0, _mem := amem }

/-- `UncachedMem::Request(Word ip)`. -/
def UncachedMem.Request (s : UncachedMem) (ip : Word) : UncachedMem :=
  { s with _requestedIp := ip, _waitCycles := UncachedMem.latency }

/-- `UncachedMem::Response()`. -/
def UncachedMem.Response (s : UncachedMem) : Option Word :=
  if s._waitCycles > 0 then none else some (s._mem.Read s._requestedIp)

/-- `UncachedMem::Request(InstructionPtr&)`. -/
def UncachedMem.RequestInstr (s : UncachedMem) (instr : Instruction) : UncachedMem :=
  if instr._type ≠ .Ld ∧ instr._type ≠ .St then s
  else s.Request instr._addr

/-- `UncachedMem::Response(InstructionPtr&)`. -/
def UncachedMem.ResponseInstr (s : UncachedMem) (instr : Instruction) :
    Bool × Instruction × UncachedMem :=
  if instr._type ≠ .Ld ∧ instr._type ≠ .St then (true, instr, s)
  else if s._waitCycles ≠ 0 then (false, instr, s)
  else if instr._type = .Ld then
    (true, { instr with _data := s._mem.Read instr._addr }, s)
  else if instr._type = .St then
    (true, instr, { s with _mem := s._mem.Write instr._addr instr._data })
  else (true, instr, s)

/-- `UncachedMem::Clock`. -/
def UncachedMem.Clock (s : UncachedMem) : UncachedMem :=
  if s._waitCycles > 0 then { s with _waitCycles := s._waitCycles - 1 } else s

/-! ## Accesses polled to completion -/

/-- One access through the memory interface: a fetch of an address, or the operand access of
an instruction record. -/
inductive Access
  | fetch (ip : Word)
  | operand (instr : Instruction)

/-- A fetch polled to completion on a `CachedMem`: `Request(ip)`, then `Clock()` until the
countdown has run out, then the poll `Response()` that is ready. -/
def CachedMem.fetch (s : CachedMem) (ip : Word) : Option Word × CachedMem :=
  let s1 := s.Request ip
  (CachedMem.Clock^[s1._waitCycles] s1).Response

/-- An operand access polled to completion on a `CachedMem`: `Request(instr)`, then `Clock()`
until the countdown has run out, then the poll `Response(instr)` that is ready. -/
def CachedMem.operand (s : CachedMem) (instr : Instruction) : Bool × Instruction × CachedMem :=
  let s1 := s.RequestInstr instr
  (CachedMem.Clock^[s1._waitCycles] s1).ResponseInstr instr

/-- The state after one access polled to completion. -/
def CachedMem.access (s : CachedMem) : Access → CachedMem
  | .fetch ip => (s.fetch ip).2
  | .operand instr => (s.operand instr).2.2

/-- The state after a sequence of accesses, each polled to completion before the next. -/
def CachedMem.run (s : CachedMem) (as : List Access) : CachedMem :=
  as.foldl CachedMem.access s

/-- A fetch polled to completion on an `UncachedMem`. -/
def UncachedMem.fetch (s : UncachedMem) (ip : Word) : Option Word × UncachedMem :=
  let s1 := s.Request ip
  ((UncachedMem.Clock^[s1._waitCycles] s1).Response, UncachedMem.Clock^[s1._waitCycles] s1)

/-- An operand access polled to completion on an `UncachedMem`. -/
def UncachedMem.operand (s : UncachedMem) (instr : Instruction) :
    Bool × Instruction × UncachedMem :=
  let s1 := s.RequestInstr instr
  (UncachedMem.Clock^[s1._waitCycles] s1).ResponseInstr instr

/-- The state of an `UncachedMem` after one access polled to completion. -/
def UncachedMem.access (s : UncachedMem) : Access → UncachedMem
  | .fetch ip => (s.fetch ip).2
  | .operand instr => (s.operand instr).2.2

/-- The state of an `UncachedMem` after a sequence of accesses, each polled to completion. -/
def UncachedMem.run (s : UncachedMem) (as : List Access) : UncachedMem :=
  as.foldl UncachedMem.access s

/-- A load record for address `addr`, as `Execute` leaves it for the memory model. -/
def loadAt (addr : Word) : Instruction :=
  { _type := .Ld, _aluFunc := .Add, _brFunc := .NT, _imm := none, _src1Val := 0, _src2Val := 0,
    _csrVal := 0, _data := 0, _addr := addr, _nextIp := 0 }

/-- A store record writing `data` to address `addr`. -/
def storeAt (addr data : Word) : Instruction :=
  { _type := .St, _aluFunc := .Add, _brFunc := .NT, _imm := none, _src1Val := 0, _src2Val := data,
    _csrVal := 0, _data := data, _addr := addr, _nextIp := 0 }

/-! ## Executor.h -/

/-- How a call of `Executor::Execute` ends. -/
inductive ExecOutcome
  /-- The call returned; the record as it left it. -/
  | returned (instr : Instruction)
  /-- `_imm.value()` was evaluated on an empty optional and threw `std::bad_optional_access`;
  the record as mutated up to the throw. -/
  | badOptionalAccess (instr : Instruction)
  deriving DecidableEq, Repr

/-- The number of places the shifts of `processAlu` shift by. The count
`secondValue % 0b100000` is a signed remainder (truncated towards zero), negative for a
negative `secondValue` that is no multiple of `32`. C++ leaves a shift by a negative count
undefined; the compiled code shifts by the low five bits of the count, as the shift
instructions of the processor do. -/
def Executor.shiftCount (secondValue : Int) : Nat :=
  ((secondValue.tmod 0b100000) % 0b100000).toNat

/-- `Executor::processAlu(instr, SignedWord secondValue)`. -/
def Executor.processAlu (instr : Instruction) (secondValue : Int) : Word :=
  match instr._aluFunc with
  | .Add => (instr._src1Val + toWord secondValue) % wordMod
  | .Or => instr._src1Val ||| toWord secondValue
  | .And => instr._src1Val &&& toWord secondValue
  | .Sub => toWord ((instr._src1Val : Int) - (toWord secondValue : Int))
  | .Xor => instr._src1Val ^^^ toWord secondValue
  | .Slt => if SignedWord instr._src1Val < secondValue then 1 else 0
  | .Sltu => if instr._src1Val < toWord secondValue then 1 else 0
  | .Sll => (instr._src1Val <<< Executor.shiftCount secondValue) % wordMod
  | .Srl => instr._src1Val >>> Executor.shiftCount secondValue
  | .Sra => toWord (SignedWord instr._src1Val >>> Executor.shiftCount secondValue)

/-- The local `secondValue` of `Execute`: the immediate if present, else `_src2Val`. -/
def Executor.secondValue (instr : Instruction) : Word :=
  match instr._imm with
  | some v => v
  | none => instr._src2Val

/-- The local `condition` of `Execute`. -/
def Executor.condition (instr : Instruction) : Bool :=
  match instr._brFunc with
  | .Eq => instr._src1Val = instr._src2Val
  | .Neq => instr._src1Val ≠ instr._src2Val
  | .Lt => SignedWord instr._src1Val < SignedWord instr._src2Val
  | .Ltu => instr._src1Val < instr._src2Val
  | .Ge => SignedWord instr._src1Val ≥ SignedWord instr._src2Val
  | .Geu => instr._src1Val ≥ instr._src2Val
  | .AT => true
  | .NT => false

/-- The first `switch` of `Execute`, on the operation kind. -/
def Executor.dispatch (instr : Instruction) (ip : Word) : ExecOutcome :=
  match instr._type with
  | .Ld =>
    .returned
      { instr with _addr := Executor.processAlu instr (SignedWord (Executor.secondValue instr)) }
  | .St =>
    .returned
      { instr with _addr := Executor.processAlu instr (SignedWord (Executor.secondValue instr)),
                   _data := instr._src2Val }
  | .Csrr => .returned { instr with _data := instr._csrVal }
  | .Csrw => .returned { instr with _data := instr._src1Val }
  | .J => .returned { instr with _data := (ip + 0b100) % wordMod }
  | .Jr => .returned { instr with _data := (ip + 0b100) % wordMod }
  | .Auipc =>
    match instr._imm with
    | some v => .returned { instr with _data := (ip + v) % wordMod }
    | none => .badOptionalAccess instr
  | .Alu =>
    .returned
      { instr with _data := Executor.processAlu instr (SignedWord (Executor.secondValue instr)) }
  | .Br => .returned instr

/-- The last `if` of `Execute`, which sets `_nextIp`. -/
def Executor.setNextIp (instr : Instruction) (ip : Word) : ExecOutcome :=
  if Executor.condition instr then
    match instr._type with
    | .Br =>
      match instr._imm with
      | some v => .returned { instr with _nextIp := (ip + v) % wordMod }
      | none => .badOptionalAccess instr
    | .J =>
      match instr._imm with
      | some v => .returned { instr with _nextIp := (ip + v) % wordMod }
      | none => .badOptionalAccess instr
    | .Jr =>
      match instr._imm with
      | some v => .returned { instr with _nextIp := (instr._src1Val + v) % wordMod }
      | none => .badOptionalAccess instr
    | _ => .returned { instr with _nextIp := (ip + 0b100) % wordMod }
  else .returned { instr with _nextIp := (ip + 0b100) % wordMod }

/-- `Executor::Execute(instr, ip)`. -/
def Executor.Execute (instr : Instruction) (ip : Word) : ExecOutcome :=
  match Executor.dispatch instr ip with
  | .returned instr1 => Executor.setNextIp instr1 ip
  | other => other

/-- The condition under which `Execute` runs to its end: an immediate present wherever
`_imm.value()` is evaluated. -/
def Executor.Returns (instr : Instruction) : Prop :=
  (instr._type = .Auipc → instr._imm.isSome) ∧
  (Executor.condition instr = true →
      (instr._type = .Br ∨ instr._type = .J ∨ instr._type = .Jr) → instr._imm.isSome)

instance (instr : Instruction) : Decidable (Executor.Returns instr) := by
  unfold Executor.Returns; infer_instance

/-- A branch-equal record with sources `a`, `b` and immediate `imm`. -/
def branchEq (a b imm : Word) : Instruction :=
  { _type := .Br, _aluFunc := .Add, _brFunc := .Eq, _imm := some imm, _src1Val := a, _src2Val := b,
    _csrVal := 0, _data := 0, _addr := 0, _nextIp := 0 }

/-- The backing store holding zero everywhere. -/
def zeroMem : MemoryStorage := { _mem := fun _ => 0 }

/-- The backing store holding at every word index that index. -/
def indexMem : MemoryStorage := { _mem := fun i => i }

/-- The accesses after the store of the write-then-read scenario: a fetch in the line of
address `0`, loads in 65 further lines, and fetches in 33 further lines. -/
def staleScenario : List Access :=
  [Access.fetch 0]
    ++ (List.range 65).map (fun k => Access.operand (loadAt (32 * (k + 1))))
    ++ (List.range 33).map (fun k => Access.fetch (32 * (k + 1)))

/-- Fetches in the first `n` lines of memory, one per line. -/
def fetchLines (n : Nat) : List Access :=
  (List.range n).map (fun k => Access.fetch (32 * k))

/-- Loads in the first `n` lines of memory, one per line. -/
def loadLines (n : Nat) : List Access :=
  (List.range n).map (fun k => Access.operand (loadAt (32 * k)))

/-- Well-formedness of one cache with its recency queue: the queue lists the keys of the
cache, each once; every tag is a line address; every line holds exactly the words at offsets
`0` to `lineSizeWords - 1`. -/
structure CacheWF (cache : CacheMap) (q : List Word) : Prop where
  /-- The queue holds no tag twice. -/
  nodup : q.Nodup
  /-- The queue lists exactly the keys of the cache. -/
  mem_iff : ∀ t, t ∈ q ↔ t ∈ cache
  /-- Every tag is a multiple of the line size and fits a `Word`. -/
  aligned : ∀ t, t ∈ q → t % 32 = 0 ∧ t < 2 ^ 32
  /-- Every line is full. -/
  full : ∀ t line, cache.lookup t = some line → ∀ i, i ∈ line ↔ i < lineSizeWords

/-- Well-formedness of both caches of a `CachedMem`. -/
def CachedMem.WF (s : CachedMem) : Prop :=
  ∀ type, CacheWF (s.cache type) (s.commonlyUsed type)

/-- The line tag an access requests from the cache of the given type, if any: a fetch
requests from the fetch-path cache, a load or store from the operand-path cache. -/
def Access.tag? (type : cacheType) : Access → Option Word
  | .fetch ip => if type = .instruction then some (ToLineAddr ip) else none
  | .operand instr =>
    if type = .calculation ∧ (instr._type = .Ld ∨ instr._type = .St) then
      some (ToLineAddr instr._addr)
    else none

/-- The line tags requested from the cache of the given type by a sequence of accesses, in
the order of the requests. -/
def touches (type : cacheType) (as : List Access) : List Word :=
  as.filterMap (Access.tag? type)

/-- Scan of a request history: `i` is the position of the head, `r` the position of the
latest request of `t` seen so far. -/
def lastRequestAux (t : Word) : List Word → Nat → Nat → Nat
  | [], _, r => r
  | x :: rest, i, r => lastRequestAux t rest (i + 1) (if x = t then i else r)

/-- Position (counted from `1`) of the most recent request of tag `t` in a request history,
`0` if the tag was never requested. -/
def lastRequest (t : Word) (history : List Word) : Nat :=
  lastRequestAux t history 1 0

/-- The request that starts an access. -/
def CachedMem.request (s : CachedMem) : Access → CachedMem
  | .fetch ip => s.Request ip
  | .operand instr => s.RequestInstr instr

/-- The queue is ordered by the most recent request of its tags, oldest first, and every tag
in it has been requested. -/
def RecencyOrdered (history q : List Word) : Prop :=
  q.Pairwise (fun a b => lastRequest a history < lastRequest b history) ∧
    ∀ t, t ∈ q → 0 < lastRequest t history

/-- An ALU record with function `f`, first source value `a`, second source value `b` and no
immediate (a register-register operation). -/
def aluRR (f : AluFunc) (a b : Word) : Instruction :=
  { _type := .Alu, _aluFunc := f, _brFunc := .NT, _imm := none, _src1Val := a, _src2Val := b,
    _csrVal := 0, _data := 0, _addr := 0, _nextIp := 0 }

/-- One step of a request sequence on a `CachedMem`: a request alone, or an access polled to
completion. -/
inductive Step
  | issue (a : Access)
  | complete (a : Access)

/-- The state after one step. -/
def CachedMem.step (s : CachedMem) : Step → CachedMem
  | .issue a => s.request a
  | .complete a => s.access a

/-- The state after a sequence of steps. -/
def CachedMem.steps (s : CachedMem) (l : List Step) : CachedMem :=
  l.foldl CachedMem.step s

/-- The outcomes (flag and record) of a sequence of operand accesses on a `CachedMem`, each
polled to completion before the next is requested. -/
def CachedMem.operands (s : CachedMem) : List Instruction → List (Bool × Instruction)
  | [] => []
  | i :: rest => ((s.operand i).1, (s.operand i).2.1) :: CachedMem.operands (s.operand i).2.2 rest

/-- The outcomes (flag and record) of a sequence of operand accesses on an `UncachedMem`, each
polled to completion before the next is requested. -/
def UncachedMem.operands (s : UncachedMem) : List Instruction → List (Bool × Instruction)
  | [] => []
  | i :: rest =>
    ((s.operand i).1, (s.operand i).2.1) :: UncachedMem.operands (s.operand i).2.2 rest

/-- The word the operand path of a `CachedMem` holds for a word index: the word of the
operand-path cache if the line of the index is resident there, else the word of the backing
store. -/
def CachedMem.dataView (s : CachedMem) (idx : Nat) : Word :=
  match s._cacheCalculations.lookup (idx / 8 * 32) with
  | some line => (line.lookup (idx % 8)).getD 0
  | none => s._mem._mem idx

/-! ## Cpu.h -/

/-- The interface `IMem`: the five virtual operations of a memory model, over the type `M` of
its states. Operations that mutate the model return the new state. -/
structure IMem (M : Type) where
  /-- `Request(Word ip)`. -/
  Request : M → Word → M
  /-- `Response()`. -/
  Response : M → Option Word × M
  /-- `Request(InstructionPtr&)`. -/
  RequestInstr : M → Instruction → M
  /-- `Response(InstructionPtr&)`. -/
  ResponseInstr : M → Instruction → Bool × Instruction × M
  /-- `Clock()`. -/
  Clock : M → M

/-- `CachedMem` as an `IMem`. -/
def CachedMem.asIMem : IMem CachedMem :=
  { Request := CachedMem.Request, Response := CachedMem.Response,
    RequestInstr := CachedMem.RequestInstr, ResponseInstr := CachedMem.ResponseInstr,
    Clock := CachedMem.Clock }

/-- `UncachedMem` as an `IMem`. -/
def UncachedMem.asIMem : IMem UncachedMem :=
  { Request := UncachedMem.Request, Response := fun u => (u.Response, u),
    RequestInstr := UncachedMem.RequestInstr, ResponseInstr := UncachedMem.ResponseInstr,
    Clock := UncachedMem.Clock }

/-- Modelled from the spec: the collaborators of the `Cpu` whose sources are absent
(`Decoder.h`, `RegisterFile.h`, `CsrFile.h`), over the types `R` and `C` of the states of the
register file and of the CSR file. The decoder maps a fetched word to a record; the read calls
fill source values into a record; the write calls commit a record. -/
structure Collaborators (R C : Type) where
  /-- `Decoder::Decode`. -/
  Decode : Word → Instruction
  /-- `RegisterFile::Read`. -/
  rfRead : R → Instruction → Instruction
  /-- `RegisterFile::Write`. -/
  rfWrite : R → Instruction → R
  /-- `CsrFile::Clock`. -/
  csrfClock : C → C
  /-- `CsrFile::Read`. -/
  csrfRead : C → Instruction → Instruction
  /-- `CsrFile::Write`. -/
  csrfWrite : C → Instruction → C
  /-- `CsrFile::InstructionExecuted`. -/
  csrfInstructionExecuted : C → C

/-- The largest value of the C++ `int` of the counters of the `Cpu`, an `int` of 32 bits. -/
def intMax : Int := 2147483647

/-- The least value of the C++ `int` of the counters. -/
def intMin : Int := -2147483648

/-- The value an `int` holds after arithmetic whose exact result is `x`: the representative of
`x` modulo `2 ^ 32` between `intMin` and `intMax`. C++ leaves signed overflow undefined; the
compiled code wraps around, so `intMax + 1` is `intMin`. -/
def wrapInt (x : Int) : Int := (x + 2147483648) % 4294967296 - 2147483648

/-- State of a `Cpu` together with the memory model it references. The counters are C++ `int`,
incremented by `+= 1`, which wraps from `intMax` to `intMin`. `currentInstruction` is a
pointer, null (`none`) until the first fetch completes. -/
structure Cpu (M R C : Type) where
  executedInstructions : Int
  processedClocks : Int
  _ip : Word
  _rf : R
  _csrf : C
  _mem : M
  currentInstruction : Option Instruction
  isBusy : Bool
  isReading : Bool

/-- A freshly constructed `Cpu` after `Reset(ip)`. -/
def Cpu.init {M R C : Type} (ip : Word) (rf : R) (csrf : C) (mem : M) : Cpu M R C :=
  { executedInstructions := 0, processedClocks := 0, _ip := ip, _rf := rf, _csrf := csrf,
    _mem := mem, currentInstruction := none, isBusy := false, isReading := false }

/-- A `Cpu` as constructed and reset, with the two counters at given values. -/
def Cpu.atCounts {M R C : Type} (executed processed : Int) (ip : Word) (rf : R) (csrf : C)
    (mem : M) : Cpu M R C :=
  { executedInstructions := executed, processedClocks := processed, _ip := ip, _rf := rf,
    _csrf := csrf, _mem := mem, currentInstruction := none, isBusy := false, isReading := false }

/-- A call the `Cpu` makes on the memory model during a tick; the requests carry the state of
the memory model at the moment of the call, the polls carry what they returned. -/
inductive MemCall (M : Type)
  | requestIp (ip : Word) (before : M)
  | pollFetch (result : Option Word)
  | requestInstr (instr : Instruction) (before : M)
  | pollOperand (ready : Bool)

/-- The kinds of calls on the memory model. -/
inductive MemCallKind
  | requestIp | pollFetch | requestInstr | pollOperand
  deriving DecidableEq, Repr

/-- The kind of a call. -/
def MemCall.kind {M : Type} : MemCall M → MemCallKind
  | .requestIp _ _ => .requestIp
  | .pollFetch _ => .pollFetch
  | .requestInstr _ _ => .requestInstr
  | .pollOperand _ => .pollOperand

/-- The block `if (!this->isBusy)` of `Cpu::Clock`: the state after it and the call made. -/
def Cpu.issueFetch {M R C : Type} (mem : IMem M) (c : Cpu M R C) :
    Cpu M R C × List (MemCall M) :=
  if c.isBusy = false then
    ({ c with _mem := mem.Request c._mem c._ip, isBusy := true, isReading := true },
      [.requestIp c._ip c._mem])
  else (c, [])

/-- The branch `if (isReading)` of `Cpu::Clock`. `none` when `Execute` does not return. -/
def Cpu.waitFetch {M R C : Type} (env : Collaborators R C) (mem : IMem M) (c : Cpu M R C) :
    Option (Cpu M R C × List (MemCall M)) :=
  let c1 := { c with _mem := (mem.Response c._mem).2 }
  match (mem.Response c._mem).1 with
  | none => some (c1, [.pollFetch none])
  | some w =>
    match Executor.Execute (env.csrfRead c1._csrf (env.rfRead c1._rf (env.Decode w))) c1._ip with
    | .returned instr =>
      some ({ c1 with currentInstruction := some instr,
                      executedInstructions := wrapInt (c1.executedInstructions + 1),
                      _mem := mem.RequestInstr c1._mem instr,
                      isReading := false },
        [.pollFetch (some w), .requestInstr instr c1._mem])
    | _ => none

/-- The branch `else` of `Cpu::Clock`. `none` when `currentInstruction` is null. -/
def Cpu.waitOperand {M R C : Type} (env : Collaborators R C) (mem : IMem M) (c : Cpu M R C) :
    Option (Cpu M R C × List (MemCall M)) :=
  match c.currentInstruction with
  | none => none
  | some instr =>
    let c1 := { c with _mem := (mem.ResponseInstr c._mem instr).2.2,
                       currentInstruction := some (mem.ResponseInstr c._mem instr).2.1 }
    if (mem.ResponseInstr c._mem instr).1 = true ∧ c1.isReading = false then
      some ({ c1 with _rf := env.rfWrite c1._rf (mem.ResponseInstr c._mem instr).2.1,
                      _csrf := env.csrfInstructionExecuted
                        (env.csrfWrite c1._csrf (mem.ResponseInstr c._mem instr).2.1),
                      _ip := (mem.ResponseInstr c._mem instr).2.1._nextIp,
                      isBusy := false, isReading := false },
        [.pollOperand (mem.ResponseInstr c._mem instr).1])
    else some (c1, [.pollOperand (mem.ResponseInstr c._mem instr).1])

/-- The first two statements of `Cpu::Clock`: `_csrf.Clock(); processedClocks+=1;`. -/
def Cpu.countClock {M R C : Type} (env : Collaborators R C) (c : Cpu M R C) : Cpu M R C :=
  { c with _csrf := env.csrfClock c._csrf, processedClocks := wrapInt (c.processedClocks + 1) }

/-- `Cpu::Clock`, with the calls it makes on the memory model, in order. `none` when the call
does not return: `Execute` threw, or the null record was dereferenced. -/
def Cpu.ClockLog {M R C : Type} (env : Collaborators R C) (mem : IMem M) (c : Cpu M R C) :
    Option (Cpu M R C × List (MemCall M)) :=
  let r := (c.countClock env).issueFetch mem
  (if r.1.isReading = true then r.1.waitFetch env mem else r.1.waitOperand env mem).map
    (fun x => (x.1, r.2 ++ x.2))

/-- `Cpu::Clock`. -/
def Cpu.Clock {M R C : Type} (env : Collaborators R C) (mem : IMem M) (c : Cpu M R C) :
    Option (Cpu M R C) :=
  (Cpu.ClockLog env mem c).map Prod.fst

/-- One iteration of the loop of `main`: `cpu.Clock()`, then `Clock()` of the memory model.
The exit on a message of the CSR file is not modelled: a run of `main` is a prefix of the
iterations. -/
def mainStep {M R C : Type} (env : Collaborators R C) (mem : IMem M) (c : Cpu M R C) :
    Option (Cpu M R C × List (MemCall M)) :=
  (Cpu.ClockLog env mem c).map (fun x => ({ x.1 with _mem := mem.Clock x.1._mem }, x.2))

/-- The state after `n` iterations of the loop of `main`, if they all return. -/
def mainLoop {M R C : Type} (env : Collaborators R C) (mem : IMem M) (c : Cpu M R C) :
    Nat → Option (Cpu M R C)
  | 0 => some c
  | n + 1 => (mainLoop env mem c n).bind (fun x => (mainStep env mem x).map Prod.fst)

/-- What the `Cpu` relies on in a memory model with countdown `wait`: a poll is ready only
when the countdown of a load, store or fetch has run out, polls leave the countdown as it is,
a request for a record that is neither load nor store leaves it as it is, a poll keeps the
kind of the record, and `Clock` leaves a countdown that has run out as it is. -/
structure IMem.Countdown {M : Type} (mem : IMem M) (wait : M → Nat) : Prop where
  response_ready : ∀ m w, (mem.Response m).1 = some w → wait m = 0
  response_wait : ∀ m, wait (mem.Response m).2 = wait m
  requestInstr_other : ∀ m (i : Instruction), (i._type ≠ .Ld ∧ i._type ≠ .St) →
    wait (mem.RequestInstr m i) = wait m
  responseInstr_ready : ∀ m (i : Instruction), (i._type = .Ld ∨ i._type = .St) →
    (mem.ResponseInstr m i).1 = true → wait m = 0
  responseInstr_wait : ∀ m i, wait (mem.ResponseInstr m i).2.2 = wait m
  responseInstr_type : ∀ m (i : Instruction), (mem.ResponseInstr m i).2.1._type = i._type
  clock_zero : ∀ m, wait m = 0 → wait (mem.Clock m) = 0

/-- What holds of the `Cpu` between ticks: when idle, no countdown is running; when waiting
for the operand poll, the record is there, and if it is neither load nor store no countdown is
running. -/
def Cpu.Settled {M R C : Type} (wait : M → Nat) (c : Cpu M R C) : Prop :=
  (c.isBusy = false → wait c._mem = 0) ∧
  (c.isBusy = true → c.isReading = false →
    ∃ i, c.currentInstruction = some i ∧ ((i._type ≠ .Ld ∧ i._type ≠ .St) → wait c._mem = 0))

/-- The state of the memory model when `Cpu::Clock` polls the fetch: after the request of an
idle tick, or as the tick found it. -/
def Cpu.fetchMem {M R C : Type} (mem : IMem M) (c : Cpu M R C) : M :=
  if c.isBusy = false then mem.Request c._mem c._ip else c._mem

/-- The calls of `Cpu::Clock` before it polls the fetch: the request of an idle tick. -/
def Cpu.fetchCalls {M R C : Type} (_ : IMem M) (c : Cpu M R C) : List (MemCall M) :=
  if c.isBusy = false then [.requestIp c._ip c._mem] else []

/-- Collaborators for evaluation: every word decodes to a register-register addition, there
is no register or CSR state. -/
def plainEnv : Collaborators Unit Unit :=
  { Decode := fun _ => aluRR .Add 0 0, rfRead := fun _ i => i, rfWrite := fun _ _ => (),
    csrfClock := fun _ => (), csrfRead := fun _ i => i, csrfWrite := fun _ _ => (),
    csrfInstructionExecuted := fun _ => () }

/-- The state after `n` calls of `Cpu::Clock`, if they all return a defined state. Between
the calls the memory model may change in any way: `adv k` is applied to it after call `k`
(in `main` the `Clock()` of the memory model). -/
def Cpu.ticks {M R C : Type} (env : Collaborators R C) (mem : IMem M) (adv : Nat → M → M)
    (c : Cpu M R C) : Nat → Option (Cpu M R C)
  | 0 => some c
  | n + 1 => (Cpu.ticks env mem adv c n).bind
      (fun x => (Cpu.Clock env mem x).map (fun y => { y with _mem := adv n y._mem }))

/-- What holds of the record between ticks: while the operand is awaited, the record is
there. -/
def Cpu.Loaded {M R C : Type} (c : Cpu M R C) : Prop :=
  c.isBusy = true → c.isReading = false → ∃ i, c.currentInstruction = some i

/-- What holds of the counters after `n` ticks from the initial state, while they have not
wrapped: `processedClocks` is `n` as an `int`; while the operand of an instruction is awaited
the instruction has had its first tick only, otherwise every counted instruction has had two
ticks. -/
def Cpu.Paced {M R C : Type} (n : Nat) (c : Cpu M R C) : Prop :=
  c.processedClocks = wrapInt n ∧ 0 ≤ c.executedInstructions ∧
  ((c.isBusy = true ∧ c.isReading = false) → 2 * c.executedInstructions ≤ (n : Int) + 1) ∧
  ((c.isBusy = false ∨ c.isReading = true) → 2 * c.executedInstructions ≤ (n : Int))

/-! ## The storage of the recency deques -/

/-- The number of words in a node of a `std::deque<Word>`: nodes are 512 bytes
(`__deque_buf_size` of the C++ library the program is compiled with, libstdc++). -/
def dequeNodeWords : Nat := 512 / sizeofWord

/-- Where the elements of a `std::deque<Word>` lie. The elements fill consecutive slots of
nodes of `dequeNodeWords` words, and the nodes are listed in a map of node pointers; slots are
counted from the first slot of the node of the first entry of the map, so that the element at
position `i` lies in slot `start + i`, in the node of map entry `(start + i) / dequeNodeWords`.
An iterator holds a pointer to the entry of the map. -/
structure DequeLayout where
  /-- The slot of the first element. -/
  start : Nat
  /-- The number of entries of the map. -/
  mapSize : Nat
  deriving DecidableEq, Repr

/-- The layout of a freshly constructed deque (`_M_initialize_map(0)`): a map of
`_S_initial_map_size = 8` entries, the first node at entry `(8 - 1) / 2 = 3`. -/
def DequeLayout.init : DequeLayout := { start := 3 * dequeNodeWords, mapSize := 8 }

/-- Whether `push_back` on a deque of `size` elements reallocates the map: the past-the-end
slot is the last of its node (`_M_push_back_aux`) and that node is at the last entry of the
map (`_M_reserve_map_at_back` calls `_M_reallocate_map`). Every iterator into the deque then
points to an entry of the map that no longer is the entry of its node. -/
def DequeLayout.reallocates (l : DequeLayout) (size : Nat) : Bool :=
  (l.start + size) % dequeNodeWords = dequeNodeWords - 1 ∧
    l.mapSize < (l.start + size) / dequeNodeWords + 2

/-- The layout after `push_back` on a deque of `size` elements. `_M_reallocate_map(1, false)`
moves the nodes to the middle of the map when the map has more than twice the entries needed,
and to the middle of a larger map otherwise. -/
def DequeLayout.push_back (l : DequeLayout) (size : Nat) : DequeLayout :=
  if l.reallocates size then
    let newNumNodes := (l.start + size) / dequeNodeWords - l.start / dequeNodeWords + 1 + 1
    let newMapSize :=
      if l.mapSize > 2 * newNumNodes then l.mapSize else l.mapSize + max l.mapSize 1 + 2
    { start := (newMapSize - newNumNodes) / 2 * dequeNodeWords + l.start % dequeNodeWords,
      mapSize := newMapSize }
  else l

/-- The layout after `pop_front`. -/
def DequeLayout.pop_front (l : DequeLayout) : DequeLayout :=
  { l with start := l.start + 1 }

/-- The layout after `erase` at position `index` of a deque of `size` elements (`_M_erase`):
in the front half the elements before the position move up and the front is popped, else the
elements after it move down and the back is popped. -/
def DequeLayout.erase (l : DequeLayout) (size index : Nat) : DequeLayout :=
  if index < size / 2 then l.pop_front else l

/-- A `CachedMem` together with the layout of its two recency deques. -/
structure CachedMem.Laid where
  state : CachedMem
  layoutInstructions : DequeLayout
  layoutCalculations : DequeLayout

/-- A freshly constructed `CachedMem` with its deques. -/
def CachedMem.Laid.init (amem : MemoryStorage) : CachedMem.Laid :=
  { state := CachedMem.init amem, layoutInstructions := DequeLayout.init,
    layoutCalculations := DequeLayout.init }

/-- The layout of the deque the reference `commonlyUsed` of `cacheController` is bound to. -/
def CachedMem.Laid.layout (t : CachedMem.Laid) : cacheType → DequeLayout
  | .instruction => t.layoutInstructions
  | .calculation => t.layoutCalculations

/-- The object after a call that left the state `s` and the layout `l` of the deque of the
given cache. -/
def CachedMem.Laid.update (t : CachedMem.Laid) (s : CachedMem) (type : cacheType)
    (l : DequeLayout) : CachedMem.Laid :=
  match type with
  | .instruction => { t with state := s, layoutInstructions := l }
  | .calculation => { t with state := s, layoutCalculations := l }

/-- `CachedMem::cacheController` as the compiled program runs it. The state it leaves is that
of `CachedMem.cacheController`. In the hit branch `lineToDelete` is taken before
`commonlyUsed.push_back(lineTag)` and used after it in `commonlyUsed.erase(lineToDelete)`:
when the `push_back` does not reallocate the map of the deque the iterator still designates
its element and the erase is the one of `CachedMem.cacheController`; when it does, the erase
walks through a stale entry of the map and the program crashes, which is `none`. -/
def CachedMem.Laid.cacheController (t : CachedMem.Laid) (type : cacheType) :
    Option CachedMem.Laid :=
  let commonlyUsed := t.state.commonlyUsed type
  let lineTag := ToLineAddr t.state._requestedIp
  match (t.state.cache type).lookup lineTag with
  | none =>
    -- miss: `pop_front()` when evicting, then `push_back(lineTag)`
    if cacheSize type < (t.state.cache type).size then
      match commonlyUsed with
      | [] => some (t.update (t.state.cacheController type) type (t.layout type))
      | _ :: rest =>
        some (t.update (t.state.cacheController type) type
          ((t.layout type).pop_front.push_back rest.length))
    else
      some (t.update (t.state.cacheController type) type
        ((t.layout type).push_back commonlyUsed.length))
  | some _ =>
    -- hit: `push_back(lineTag)`, then `erase(lineToDelete)`
    if (t.layout type).reallocates commonlyUsed.length then none
    else
      some (t.update (t.state.cacheController type) type
        ((t.layout type).erase (commonlyUsed.length + 1)
          (findLineToDelete lineTag commonlyUsed 0 0)))

/-- `CachedMem::Request(Word ip)` as the compiled program runs it. -/
def CachedMem.Laid.Request (t : CachedMem.Laid) (ip : Word) : Option CachedMem.Laid :=
  CachedMem.Laid.cacheController { t with state := { t.state with _requestedIp := ip } }
    .instruction

/-- `CachedMem::Request(InstructionPtr&)` as the compiled program runs it. -/
def CachedMem.Laid.RequestInstr (t : CachedMem.Laid) (instr : Instruction) :
    Option CachedMem.Laid :=
  if instr._type ≠ .Ld ∧ instr._type ≠ .St then some t
  else
    CachedMem.Laid.cacheController { t with state := { t.state with _requestedIp := instr._addr } }
      .calculation

/-- The request that starts an access, as the compiled program runs it. -/
def CachedMem.Laid.request (t : CachedMem.Laid) : Access → Option CachedMem.Laid
  | .fetch ip => t.Request ip
  | .operand instr => t.RequestInstr instr

/-- The rest of an access polled to completion, after its request: `Clock()` until the
countdown has run out, then the poll. -/
def CachedMem.poll (s : CachedMem) : Access → CachedMem
  | .fetch _ => (CachedMem.Clock^[s._waitCycles] s).Response.2
  | .operand instr => ((CachedMem.Clock^[s._waitCycles] s).ResponseInstr instr).2.2

/-- One access polled to completion, as the compiled program runs it: the request, and if it
returns the calls of `Clock()` and the poll, which do not touch the deques. -/
def CachedMem.Laid.access (t : CachedMem.Laid) (a : Access) : Option CachedMem.Laid :=
  match t.request a with
  | none => none
  | some t1 => some { t1 with state := t1.state.poll a }

/-- A sequence of accesses, each polled to completion before the next, as the compiled program
runs it: `none` when one of the requests crashes. -/
def CachedMem.Laid.run (t : CachedMem.Laid) : List Access → Option CachedMem.Laid
  | [] => some t
  | a :: rest =>
    match t.access a with
    | none => none
    | some t1 => CachedMem.Laid.run t1 rest

/-- The slot past the last element of the deque of the given cache. -/
def CachedMem.Laid.finish (t : CachedMem.Laid) (type : cacheType) : Nat :=
  (t.layout type).start + (t.state.commonlyUsed type).length

/-! # Properties -/

/-! ## Execution unit -/

theorem Executor.dispatch_fields (instr r : Instruction) (ip : Word)
    (h : Executor.dispatch instr ip = .returned r) :
    r._type = instr._type ∧ r._brFunc = instr._brFunc ∧ r._imm = instr._imm ∧
      r._src1Val = instr._src1Val ∧ r._src2Val = instr._src2Val := by
  unfold Executor.dispatch at h
  split at h
  all_goals first
    | (split at h <;> first
        | (injection h with h; subst h; simp)
        | exact ExecOutcome.noConfusion h)
    | (injection h with h; subst h; simp)

theorem Executor.condition_congr (a b : Instruction) (h1 : a._brFunc = b._brFunc)
    (h2 : a._src1Val = b._src1Val) (h3 : a._src2Val = b._src2Val) :
    Executor.condition a = Executor.condition b := by
  unfold Executor.condition
  rw [h1, h2, h3]

theorem Executor.setNextIp_nextIp (instr r : Instruction) (ip : Word)
    (h : Executor.setNextIp instr ip = .returned r) :
    (Executor.condition instr = true → (instr._type = .Br ∨ instr._type = .J) →
        ∃ imm, instr._imm = some imm ∧ r._nextIp = (ip + imm) % 2 ^ 32) ∧
    (Executor.condition instr = true → instr._type = .Jr →
        ∃ imm, instr._imm = some imm ∧ r._nextIp = (instr._src1Val + imm) % 2 ^ 32) ∧
    ((Executor.condition instr = false ∨
        (instr._type ≠ .Br ∧ instr._type ≠ .J ∧ instr._type ≠ .Jr)) →
        r._nextIp = (ip + 4) % 2 ^ 32) := by
  unfold Executor.setNextIp at h
  cases hc : Executor.condition instr <;> simp only [hc] at h
  · simp at h; subst h; simp [wordMod]
  · cases ht : instr._type <;> cases hi : instr._imm <;> simp [ht, hi] at h <;>
      subst h <;> simp [wordMod]

theorem Executor.setNextIp_fields (instr r : Instruction) (ip : Word)
    (h : Executor.setNextIp instr ip = .returned r) :
    r._data = instr._data ∧ r._addr = instr._addr := by
  unfold Executor.setNextIp at h
  cases hc : Executor.condition instr <;> simp only [hc] at h
  · simp at h; subst h; simp
  · cases ht : instr._type <;> cases hi : instr._imm <;> simp [ht, hi] at h <;>
      subst h <;> simp

theorem Executor.Execute_returned (instr r : Instruction) (ip : Word)
    (h : Executor.Execute instr ip = .returned r) :
    ∃ r1, Executor.dispatch instr ip = .returned r1 ∧ Executor.setNextIp r1 ip = .returned r := by
  unfold Executor.Execute at h
  cases hd : Executor.dispatch instr ip with
  | returned r1 => rw [hd] at h; exact ⟨r1, rfl, h⟩
  | badOptionalAccess i => rw [hd] at h; exact ExecOutcome.noConfusion h

theorem Executor.Execute_returns (instr : Instruction) (ip : Word) (h : Executor.Returns instr) :
    ∃ r, Executor.Execute instr ip = .returned r := by
  obtain ⟨hAui, hBr⟩ := h
  have hd : ∃ r1, Executor.dispatch instr ip = .returned r1 := by
    unfold Executor.dispatch
    cases ht : instr._type
    case Auipc =>
      have := hAui ht
      cases hi : instr._imm
      · rw [hi] at this; simp at this
      · exact ⟨_, rfl⟩
    all_goals exact ⟨_, rfl⟩
  obtain ⟨r1, hr1⟩ := hd
  obtain ⟨hty, hbf, him, hs1, hs2⟩ := Executor.dispatch_fields instr r1 ip hr1
  have hcond : Executor.condition r1 = Executor.condition instr :=
    Executor.condition_congr r1 instr hbf hs1 hs2
  unfold Executor.Execute
  rw [hr1]
  show ∃ r, Executor.setNextIp r1 ip = .returned r
  unfold Executor.setNextIp
  cases hc : Executor.condition r1
  · exact ⟨_, rfl⟩
  · rw [hcond] at hc
    cases ht : r1._type <;> simp only [if_true]
    case Br =>
      have := hBr hc (Or.inl (hty ▸ ht))
      rw [← him] at this
      cases hi : r1._imm
      · rw [hi] at this; simp at this
      · exact ⟨_, rfl⟩
    case J =>
      have := hBr hc (Or.inr (Or.inl (hty ▸ ht)))
      rw [← him] at this
      cases hi : r1._imm
      · rw [hi] at this; simp at this
      · exact ⟨_, rfl⟩
    case Jr =>
      have := hBr hc (Or.inr (Or.inr (hty ▸ ht)))
      rw [← him] at this
      cases hi : r1._imm
      · rw [hi] at this; simp at this
      · exact ⟨_, rfl⟩
    all_goals exact ⟨_, rfl⟩

/-- C9. Next instruction pointer of `Executor::Execute`.  The call runs to its end whenever
the record carries the immediate the code reads, and whenever it returns, `_nextIp` is `IP + imm` for a taken branch or jump, `src1Val + imm` for a
taken jump-register, and `IP + 4` when the condition is false or the kind is none of the
three, all modulo `2 ^ 32`; the condition is the branch function applied to the two source
register values, and the result does not depend on the ALU function. -/
theorem Executor.Execute_nextIp (instr : Instruction) (ip : Word) :
    (Executor.Returns instr → ∃ r, Executor.Execute instr ip = .returned r) ∧
    (∀ r, Executor.Execute instr ip = .returned r →
      (Executor.condition instr = true → (instr._type = .Br ∨ instr._type = .J) →
        ∃ imm, instr._imm = some imm ∧ r._nextIp = (ip + imm) % 2 ^ 32) ∧
      (Executor.condition instr = true → instr._type = .Jr →
        ∃ imm, instr._imm = some imm ∧ r._nextIp = (instr._src1Val + imm) % 2 ^ 32) ∧
      ((Executor.condition instr = false ∨
          (instr._type ≠ .Br ∧ instr._type ≠ .J ∧ instr._type ≠ .Jr)) →
        r._nextIp = (ip + 4) % 2 ^ 32) ∧
      (∀ f r2, Executor.Execute { instr with _aluFunc := f } ip = .returned r2 →
        r2._nextIp = r._nextIp)) ∧
    ((instr._brFunc = .Eq → (Executor.condition instr = true ↔ instr._src1Val = instr._src2Val)) ∧
     (instr._brFunc = .Neq → (Executor.condition instr = true ↔ instr._src1Val ≠ instr._src2Val)) ∧
     (instr._brFunc = .Lt →
        (Executor.condition instr = true ↔ SignedWord instr._src1Val < SignedWord instr._src2Val)) ∧
     (instr._brFunc = .Ltu → (Executor.condition instr = true ↔ instr._src1Val < instr._src2Val)) ∧
     (instr._brFunc = .Ge →
        (Executor.condition instr = true ↔ SignedWord instr._src2Val ≤ SignedWord instr._src1Val)) ∧
     (instr._brFunc = .Geu → (Executor.condition instr = true ↔ instr._src2Val ≤ instr._src1Val)) ∧
     (instr._brFunc = .AT → Executor.condition instr = true) ∧
     (instr._brFunc = .NT → Executor.condition instr = false)) := by
  have key : ∀ (i r : Instruction), Executor.Execute i ip = .returned r →
      (Executor.condition i = true → (i._type = .Br ∨ i._type = .J) →
        ∃ imm, i._imm = some imm ∧ r._nextIp = (ip + imm) % 2 ^ 32) ∧
      (Executor.condition i = true → i._type = .Jr →
        ∃ imm, i._imm = some imm ∧ r._nextIp = (i._src1Val + imm) % 2 ^ 32) ∧
      ((Executor.condition i = false ∨ (i._type ≠ .Br ∧ i._type ≠ .J ∧ i._type ≠ .Jr)) →
        r._nextIp = (ip + 4) % 2 ^ 32) := by
    intro i r h
    obtain ⟨r1, hd, hs⟩ := Executor.Execute_returned i r ip h
    obtain ⟨hty, hbf, him, hs1, hs2⟩ := Executor.dispatch_fields i r1 ip hd
    have hcond : Executor.condition r1 = Executor.condition i :=
      Executor.condition_congr r1 i hbf hs1 hs2
    have := Executor.setNextIp_nextIp r1 r ip hs
    rw [hcond, hty, him, hs1] at this
    exact this
  refine ⟨Executor.Execute_returns instr ip, ?_, ?_⟩
  · intro r h
    obtain ⟨k1, k2, k3⟩ := key instr r h
    refine ⟨k1, k2, k3, ?_⟩
    intro f r2 h2
    obtain ⟨m1, m2, m3⟩ := key _ r2 h2
    have hc : Executor.condition { instr with _aluFunc := f } = Executor.condition instr := rfl
    rw [hc] at m1 m2 m3
    simp only at m1 m2 m3
    cases hcond : Executor.condition instr
    · rw [k3 (Or.inl hcond), m3 (Or.inl hcond)]
    · cases ht : instr._type
      case Br =>
        obtain ⟨a, ha, hra⟩ := k1 hcond (Or.inl ht)
        obtain ⟨b, hb, hrb⟩ := m1 hcond (Or.inl ht)
        rw [ha] at hb; cases hb; rw [hra, hrb]
      case J =>
        obtain ⟨a, ha, hra⟩ := k1 hcond (Or.inr ht)
        obtain ⟨b, hb, hrb⟩ := m1 hcond (Or.inr ht)
        rw [ha] at hb; cases hb; rw [hra, hrb]
      case Jr =>
        obtain ⟨a, ha, hra⟩ := k2 hcond ht
        obtain ⟨b, hb, hrb⟩ := m2 hcond ht
        rw [ha] at hb; cases hb; rw [hra, hrb]
      all_goals
        rw [k3 (Or.inr (by rw [ht]; simp)), m3 (Or.inr (by rw [ht]; simp))]
  · unfold Executor.condition
    refine ⟨?_, ?_, ?_, ?_, ?_, ?_, ?_, ?_⟩ <;> intro hb <;> rw [hb] <;> simp

/-- Witness for C9: branch-equal with equal sources, immediate `0x10` and IP `0x200`. -/
theorem Executor.Execute_nextIp_witness :
    ∃ r, Executor.Execute (branchEq 5 5 0x10) 0x200 = .returned r ∧ r._nextIp = 0x210 := by
  obtain ⟨hret, hnext, _⟩ := Executor.Execute_nextIp (branchEq 5 5 0x10) 0x200
  obtain ⟨r, hr⟩ := hret (by decide)
  obtain ⟨imm, himm, hn⟩ := (hnext r hr).1 (by decide) (Or.inl rfl)
  refine ⟨r, hr, ?_⟩
  have : imm = 0x10 := by
    have h2 : (branchEq 5 5 0x10)._imm = some 0x10 := rfl
    rw [h2] at himm; exact (Option.some.inj himm).symm
  rw [hn, this]
  decide

theorem Executor.dispatch_data (instr r : Instruction) (ip : Word)
    (h : Executor.dispatch instr ip = .returned r) :
    (instr._type = .Ld →
      r._addr = Executor.processAlu instr (SignedWord (Executor.secondValue instr))) ∧
    (instr._type = .St →
      r._addr = Executor.processAlu instr (SignedWord (Executor.secondValue instr)) ∧
        r._data = instr._src2Val) ∧
    (instr._type = .Alu →
      r._data = Executor.processAlu instr (SignedWord (Executor.secondValue instr))) ∧
    (instr._type = .Csrr → r._data = instr._csrVal) ∧
    (instr._type = .Csrw → r._data = instr._src1Val) ∧
    (instr._type = .J ∨ instr._type = .Jr → r._data = (ip + 4) % 2 ^ 32) ∧
    (instr._type = .Auipc → ∃ imm, instr._imm = some imm ∧ r._data = (ip + imm) % 2 ^ 32) := by
  unfold Executor.dispatch at h
  cases ht : instr._type <;> simp only [ht] at h
  case Auipc =>
    cases hi : instr._imm <;> simp only [hi] at h
    · exact ExecOutcome.noConfusion h
    · injection h with h; subst h; simp [wordMod]
  all_goals (injection h with h; subst h; simp [wordMod])

/-- C10. Operation-kind dispatch of `Executor::Execute`.  The call runs to its end whenever
the record carries the immediate the code reads, and whenever it returns: a load has `_addr` = ALU result; a store has `_addr` = ALU result and
`_data` = second source register value; an ALU operation has `_data` = ALU result; CSR-read
has `_data` = CSR value; CSR-write has `_data` = first source register value; jump and
jump-register have `_data = IP + 4`; add-upper-immediate-to-pc has `_data = IP + imm`, modulo
`2 ^ 32`.  The ALU result is `processAlu` on the first source value and the second operand,
which is the immediate if present and the second source register value otherwise. -/
theorem Executor.Execute_dispatch (instr : Instruction) (ip : Word) :
    (Executor.Returns instr → ∃ r, Executor.Execute instr ip = .returned r) ∧
    (∀ r, Executor.Execute instr ip = .returned r →
      (instr._type = .Ld →
        r._addr = Executor.processAlu instr (SignedWord (Executor.secondValue instr))) ∧
      (instr._type = .St →
        r._addr = Executor.processAlu instr (SignedWord (Executor.secondValue instr)) ∧
          r._data = instr._src2Val) ∧
      (instr._type = .Alu →
        r._data = Executor.processAlu instr (SignedWord (Executor.secondValue instr))) ∧
      (instr._type = .Csrr → r._data = instr._csrVal) ∧
      (instr._type = .Csrw → r._data = instr._src1Val) ∧
      (instr._type = .J ∨ instr._type = .Jr → r._data = (ip + 4) % 2 ^ 32) ∧
      (instr._type = .Auipc → ∃ imm, instr._imm = some imm ∧ r._data = (ip + imm) % 2 ^ 32)) ∧
    ((∀ imm, instr._imm = some imm → Executor.secondValue instr = imm) ∧
     (instr._imm = none → Executor.secondValue instr = instr._src2Val)) := by
  refine ⟨Executor.Execute_returns instr ip, ?_, ?_, ?_⟩
  · intro r h
    obtain ⟨r1, hd, hs⟩ := Executor.Execute_returned instr r ip h
    obtain ⟨hdata, haddr⟩ := Executor.setNextIp_fields r1 r ip hs
    have := Executor.dispatch_data instr r1 ip hd
    rw [← hdata, ← haddr] at this
    exact this
  · intro imm hi; unfold Executor.secondValue; rw [hi]
  · intro hi; unfold Executor.secondValue; rw [hi]

/-- Witness for C10: a store of register value `9` at base `0x100` plus immediate `8`. -/
theorem Executor.Execute_dispatch_witness :
    ∃ r, Executor.Execute
        { _type := .St, _aluFunc := .Add, _brFunc := .NT, _imm := some 8, _src1Val := 0x100,
          _src2Val := 9, _csrVal := 0, _data := 0, _addr := 0, _nextIp := 0 } 0x200 = .returned r ∧
      r._addr = 0x108 ∧ r._data = 9 := by
  obtain ⟨hret, hdisp, _⟩ := Executor.Execute_dispatch
    { _type := .St, _aluFunc := .Add, _brFunc := .NT, _imm := some 8, _src1Val := 0x100,
      _src2Val := 9, _csrVal := 0, _data := 0, _addr := 0, _nextIp := 0 } 0x200
  obtain ⟨r, hr⟩ := hret (by decide)
  obtain ⟨_, hst, _⟩ := hdisp r hr
  obtain ⟨haddr, hdata⟩ := hst rfl
  refine ⟨r, hr, ?_, hdata⟩
  have h2 : Executor.processAlu
      { _type := .St, _aluFunc := .Add, _brFunc := .NT, _imm := some 8, _src1Val := 0x100,
        _src2Val := 9, _csrVal := 0, _data := 0, _addr := 0, _nextIp := 0 }
      (SignedWord (Executor.secondValue
        { _type := .St, _aluFunc := .Add, _brFunc := .NT, _imm := some 8, _src1Val := 0x100,
          _src2Val := 9, _csrVal := 0, _data := 0, _addr := 0, _nextIp := 0 })) = 0x108 := by
    decide
  rw [h2] at haddr
  exact haddr

/-! ## Frame properties of the cache controller -/

theorem CachedMem.cacheController_calculation_frame (s : CachedMem) :
    (s.cacheController .calculation)._cacheInstructions = s._cacheInstructions ∧
    (s.cacheController .calculation)._commonlyUsedInstructions = s._commonlyUsedInstructions ∧
    (s.cacheController .calculation)._requestedIp = s._requestedIp := by
  unfold CachedMem.cacheController
  simp only [CachedMem.cache, CachedMem.commonlyUsed]
  split
  · split
    · split <;> simp [CachedMem.setCache, CachedMem.setCommonlyUsed]
    · simp [CachedMem.setCache, CachedMem.setCommonlyUsed]
  · simp [CachedMem.setCache, CachedMem.setCommonlyUsed]

theorem CachedMem.cacheController_instruction_frame (s : CachedMem) :
    (s.cacheController .instruction)._cacheCalculations = s._cacheCalculations ∧
    (s.cacheController .instruction)._commonlyUsedCalculations = s._commonlyUsedCalculations ∧
    (s.cacheController .instruction)._requestedIp = s._requestedIp := by
  unfold CachedMem.cacheController
  simp only [CachedMem.cache, CachedMem.commonlyUsed]
  split
  · split
    · split <;> simp [CachedMem.setCache, CachedMem.setCommonlyUsed]
    · simp [CachedMem.setCache, CachedMem.setCommonlyUsed]
  · simp [CachedMem.setCache, CachedMem.setCommonlyUsed]

theorem CachedMem.Clock_frame (s : CachedMem) :
    s.Clock._requestedIp = s._requestedIp ∧ s.Clock._mem = s._mem ∧
    s.Clock._cacheInstructions = s._cacheInstructions ∧
    s.Clock._cacheCalculations = s._cacheCalculations ∧
    s.Clock._commonlyUsedInstructions = s._commonlyUsedInstructions ∧
    s.Clock._commonlyUsedCalculations = s._commonlyUsedCalculations := by
  unfold CachedMem.Clock
  split <;> simp

theorem CachedMem.Clock_waitCycles (s : CachedMem) : s.Clock._waitCycles = s._waitCycles - 1 := by
  unfold CachedMem.Clock
  split
  · rfl
  · show s._waitCycles = s._waitCycles - 1
    omega

theorem CachedMem.Clock_iterate (n : Nat) (s : CachedMem) :
    (CachedMem.Clock^[n] s)._waitCycles = s._waitCycles - n ∧
    (CachedMem.Clock^[n] s)._requestedIp = s._requestedIp ∧
    (CachedMem.Clock^[n] s)._mem = s._mem ∧
    (CachedMem.Clock^[n] s)._cacheInstructions = s._cacheInstructions ∧
    (CachedMem.Clock^[n] s)._cacheCalculations = s._cacheCalculations ∧
    (CachedMem.Clock^[n] s)._commonlyUsedInstructions = s._commonlyUsedInstructions ∧
    (CachedMem.Clock^[n] s)._commonlyUsedCalculations = s._commonlyUsedCalculations := by
  induction n generalizing s with
  | zero => simp
  | succ n ih =>
    rw [Function.iterate_succ_apply]
    obtain ⟨h1, h2, h3, h4, h5, h6, h7⟩ := ih s.Clock
    obtain ⟨c1, c2, c3, c4, c5, c6⟩ := CachedMem.Clock_frame s
    rw [h1, h2, h3, h4, h5, h6, h7, CachedMem.Clock_waitCycles, c1, c2, c3, c4, c5, c6]
    refine ⟨by omega, rfl, rfl, rfl, rfl, rfl, rfl⟩

theorem CachedMem.RequestInstr_frame (s : CachedMem) (instr : Instruction) :
    (s.RequestInstr instr)._cacheInstructions = s._cacheInstructions ∧
    (s.RequestInstr instr)._commonlyUsedInstructions = s._commonlyUsedInstructions := by
  unfold CachedMem.RequestInstr
  split
  · exact ⟨rfl, rfl⟩
  · obtain ⟨h1, h2, _⟩ :=
      CachedMem.cacheController_calculation_frame { s with _requestedIp := instr._addr }
    exact ⟨h1, h2⟩

theorem CachedMem.ResponseInstr_frame (s : CachedMem) (instr : Instruction) :
    (s.ResponseInstr instr).2.2._cacheInstructions = s._cacheInstructions ∧
    (s.ResponseInstr instr).2.2._commonlyUsedInstructions = s._commonlyUsedInstructions ∧
    (s.ResponseInstr instr).2.2._commonlyUsedCalculations = s._commonlyUsedCalculations ∧
    (s.ResponseInstr instr).2.2._mem = s._mem := by
  unfold CachedMem.ResponseInstr
  split
  · exact ⟨rfl, rfl, rfl, rfl⟩
  · split
    · exact ⟨rfl, rfl, rfl, rfl⟩
    · split
      · exact ⟨rfl, rfl, rfl, rfl⟩
      · split <;> exact ⟨rfl, rfl, rfl, rfl⟩

/-- C8. Isolation of the two caches of `CachedMem`: `Request(instr)`, `Response(instr)` and a
whole operand access polled to completion leave `_cacheInstructions` and
`_commonlyUsedInstructions` as they were; `Request(ip)` leaves `_cacheCalculations` and
`_commonlyUsedCalculations` as they were; in particular a store to an address does not change
the word the fetch-path cache holds for that address. -/
theorem CachedMem.caches_isolated (s : CachedMem) (instr : Instruction) (ip : Word) :
    ((s.RequestInstr instr)._cacheInstructions = s._cacheInstructions ∧
      (s.RequestInstr instr)._commonlyUsedInstructions = s._commonlyUsedInstructions) ∧
    ((s.ResponseInstr instr).2.2._cacheInstructions = s._cacheInstructions ∧
      (s.ResponseInstr instr).2.2._commonlyUsedInstructions = s._commonlyUsedInstructions) ∧
    ((s.operand instr).2.2._cacheInstructions = s._cacheInstructions ∧
      (s.operand instr).2.2._commonlyUsedInstructions = s._commonlyUsedInstructions) ∧
    ((s.Request ip)._cacheCalculations = s._cacheCalculations ∧
      (s.Request ip)._commonlyUsedCalculations = s._commonlyUsedCalculations) ∧
    (∀ addr data : Word,
      (s.operand (storeAt addr data)).2.2._cacheInstructions.word (ToLineAddr addr)
          (ToLineOffset addr) =
        s._cacheInstructions.word (ToLineAddr addr) (ToLineOffset addr)) := by
  have hop : ∀ i : Instruction,
      (s.operand i).2.2._cacheInstructions = s._cacheInstructions ∧
      (s.operand i).2.2._commonlyUsedInstructions = s._commonlyUsedInstructions := by
    intro i
    unfold CachedMem.operand
    obtain ⟨r1, r2, _, _⟩ := CachedMem.ResponseInstr_frame
      (CachedMem.Clock^[(s.RequestInstr i)._waitCycles] (s.RequestInstr i)) i
    obtain ⟨_, _, _, k1, _, k2, _⟩ :=
      CachedMem.Clock_iterate (s.RequestInstr i)._waitCycles (s.RequestInstr i)
    obtain ⟨q1, q2⟩ := CachedMem.RequestInstr_frame s i
    exact ⟨by rw [r1, k1, q1], by rw [r2, k2, q2]⟩
  refine ⟨CachedMem.RequestInstr_frame s instr, ?_, hop instr, ?_, ?_⟩
  · obtain ⟨r1, r2, _, _⟩ := CachedMem.ResponseInstr_frame s instr
    exact ⟨r1, r2⟩
  · obtain ⟨h1, h2, _⟩ :=
      CachedMem.cacheController_instruction_frame { s with _requestedIp := ip }
    exact ⟨h1, h2⟩
  · intro addr data
    rw [(hop (storeAt addr data)).1]

/-! ## Evaluations of the cached model -/

set_option maxRecDepth 1000000 in
/-- C1. Write-then-read through `CachedMem` at address `0`, from the initial state over zeroed
memory: the store of `7` completes, then a fetch in the same line, 65 loads in other lines and
33 fetches in other lines are each polled to completion (every address in range, none of them a
store), and the final load of address `0` completes with `_data = 0`, not `7`. `UncachedMem`
returns `7` on the same accesses. -/
theorem CachedMem.write_then_read_stale :
    ((CachedMem.init zeroMem).operand (storeAt 0 7)).1 = true ∧
    ((((CachedMem.init zeroMem).operand (storeAt 0 7)).2.2.run staleScenario).operand
        (loadAt 0)).1 = true ∧
    ((((CachedMem.init zeroMem).operand (storeAt 0 7)).2.2.run staleScenario).operand
        (loadAt 0)).2.1._data = 0 ∧
    ((((UncachedMem.init zeroMem).operand (storeAt 0 7)).2.2.run staleScenario).operand
        (loadAt 0)).2.1._data = 7 ∧
    InRange 0 ∧ InRange (32 * 65) := by
  decide!

/-- C3. A miss below capacity leaves the countdown untouched: from the initial state (countdown
`0`) the fetch request at `0x200` and the load request at `0x200` both miss, `_waitCycles` is
still `0`, and the matching poll is ready with no call of `Clock()` at all. -/
theorem CachedMem.cold_miss_no_latency :
    (CachedMem.init zeroMem)._cacheInstructions.lookup (ToLineAddr 0x200) = none ∧
    ((CachedMem.init zeroMem).Request 0x200)._waitCycles = 0 ∧
    ((CachedMem.init zeroMem).Request 0x200).Response.1 = some 0 ∧
    (CachedMem.init zeroMem)._cacheCalculations.lookup (ToLineAddr 0x200) = none ∧
    ((CachedMem.init zeroMem).RequestInstr (loadAt 0x200))._waitCycles = 0 ∧
    (((CachedMem.init zeroMem).RequestInstr (loadAt 0x200)).ResponseInstr (loadAt 0x200)).1 = true := by
  decide!

set_option maxRecDepth 1000000 in
/-- C6. The caches grow one line past `cacheSize`: after fetches in 33 distinct lines the
fetch-path cache holds 33 lines (`cacheSize = 32`), the 33rd of them a miss on a cache holding
exactly 32 lines that evicted nothing; after loads in 65 distinct lines the operand-path cache
holds 65 lines (`cacheSize = 64`). -/
theorem CachedMem.capacity_exceeded :
    cacheSize .instruction = 32 ∧ cacheSize .calculation = 64 ∧
    ((CachedMem.init zeroMem).run (fetchLines 32))._cacheInstructions.size = 32 ∧
    ((CachedMem.init zeroMem).run (fetchLines 32))._cacheInstructions.lookup (ToLineAddr (32 * 32))
      = none ∧
    ((CachedMem.init zeroMem).run (fetchLines 33))._cacheInstructions.size = 33 ∧
    ((CachedMem.init zeroMem).run (fetchLines 33))._commonlyUsedInstructions.head? = some 0 ∧
    ((CachedMem.init zeroMem).run (loadLines 65))._cacheCalculations.size = 65 := by
  decide!

/-- C5, counterexample. In `UncachedMem` over the memory holding its own index at every word,
a fetch of address `0` is outstanding with 123 cycles left when a load at address `64` is
requested; the countdown is back at 128, and the fetch poll then returns the word at address
`64` (which is `16`), not the word at address `0` (which is `0`). -/
theorem UncachedMem.operand_request_disturbs_fetch :
    (UncachedMem.Clock^[5] ((UncachedMem.init indexMem).Request 0))._waitCycles = 123 ∧
    ((UncachedMem.Clock^[5] ((UncachedMem.init indexMem).Request 0)).RequestInstr
        (loadAt 64))._waitCycles = 128 ∧
    (UncachedMem.Clock^[128] ((UncachedMem.Clock^[5] ((UncachedMem.init indexMem).Request 0)).RequestInstr
        (loadAt 64))).Response = some 16 ∧
    (UncachedMem.Clock^[128] ((UncachedMem.init indexMem).Request 0)).Response = some 0 := by
  decide!

/-! ## The shared request slot -/

theorem UncachedMem.uncached_Clock_iterate (n : Nat) (s : UncachedMem) :
    (UncachedMem.Clock^[n] s)._waitCycles = s._waitCycles - n ∧
    (UncachedMem.Clock^[n] s)._requestedIp = s._requestedIp ∧
    (UncachedMem.Clock^[n] s)._mem = s._mem := by
  induction n generalizing s with
  | zero => simp
  | succ n ih =>
    rw [Function.iterate_succ_apply]
    obtain ⟨h1, h2, h3⟩ := ih s.Clock
    rw [h1, h2, h3]
    unfold UncachedMem.Clock
    split
    · exact ⟨by show s._waitCycles - 1 - n = s._waitCycles - (n + 1); omega, rfl, rfl⟩
    · exact ⟨by omega, rfl, rfl⟩

theorem CachedMem.Response_ready (s : CachedMem) (h : s._waitCycles = 0) :
    s.Response.1 =
      some (s._cacheInstructions.word (ToLineAddr s._requestedIp) (ToLineOffset s._requestedIp)) := by
  unfold CachedMem.Response
  rw [h]
  simp

theorem CachedMem.Response_not_ready (s : CachedMem) (h : 0 < s._waitCycles) :
    s.Response.1 = none := by
  unfold CachedMem.Response
  rw [if_pos h]

/-- C5, as the code has it. Fetch path and operand path share one requested address and one
countdown, in both models. `Request(instr)` for a record that is neither load nor store changes
nothing. `Request(instr)` for a load or store at address `B` replaces the requested address by
`B`; in `UncachedMem` it restarts the countdown at 128 and the fetch poll `Response()` that is
ready 128 ticks later returns the backing-store word at `B`; in `CachedMem` the fetch poll that
is ready once the countdown has run out returns what the fetch-path cache holds for the line
and offset of `B`. -/
theorem shared_request_slot (u : UncachedMem) (s : CachedMem) (instr : Instruction) :
    ((instr._type ≠ .Ld ∧ instr._type ≠ .St) →
      u.RequestInstr instr = u ∧ s.RequestInstr instr = s) ∧
    ((instr._type = .Ld ∨ instr._type = .St) →
      (u.RequestInstr instr)._requestedIp = instr._addr ∧
      (u.RequestInstr instr)._waitCycles = 128 ∧
      (UncachedMem.Clock^[128] (u.RequestInstr instr)).Response = some (u._mem.Read instr._addr) ∧
      (s.RequestInstr instr)._requestedIp = instr._addr ∧
      (CachedMem.Clock^[(s.RequestInstr instr)._waitCycles] (s.RequestInstr instr)).Response.1 =
        some (s._cacheInstructions.word (ToLineAddr instr._addr) (ToLineOffset instr._addr))) := by
  constructor
  · intro h
    unfold UncachedMem.RequestInstr CachedMem.RequestInstr
    rw [if_pos h, if_pos h]
    exact ⟨rfl, rfl⟩
  · intro h
    have hn : ¬ (instr._type ≠ .Ld ∧ instr._type ≠ .St) := by
      rintro ⟨h1, h2⟩
      rcases h with h | h
      · exact h1 h
      · exact h2 h
    have hu : u.RequestInstr instr = u.Request instr._addr := by
      unfold UncachedMem.RequestInstr
      rw [if_neg hn]
    have hs : s.RequestInstr instr =
        ({ s with _requestedIp := instr._addr }).cacheController .calculation := by
      unfold CachedMem.RequestInstr
      rw [if_neg hn]
    obtain ⟨f1, _, f3⟩ :=
      CachedMem.cacheController_calculation_frame { s with _requestedIp := instr._addr }
    refine ⟨by rw [hu]; rfl, by rw [hu]; rfl, ?_, by rw [hs, f3], ?_⟩
    · obtain ⟨k1, k2, k3⟩ := UncachedMem.uncached_Clock_iterate 128 (u.RequestInstr instr)
      unfold UncachedMem.Response
      rw [k1, k2, k3, hu]
      simp [UncachedMem.Request, UncachedMem.latency]
    · obtain ⟨k1, k2, _, k4, _⟩ :=
        CachedMem.Clock_iterate (s.RequestInstr instr)._waitCycles (s.RequestInstr instr)
      rw [CachedMem.Response_ready _ (by rw [k1]; omega), k2, k4, hs, f1, f3]

/-- Witness for C5 as the code has it: the load at `64` requested while the fetch of `0` is
outstanding. -/
theorem shared_request_slot_witness :
    (UncachedMem.Clock^[128] ((UncachedMem.Clock^[5] ((UncachedMem.init indexMem).Request 0)).RequestInstr
        (loadAt 64))).Response = some (indexMem.Read 64) :=
  ((shared_request_slot (UncachedMem.Clock^[5] ((UncachedMem.init indexMem).Request 0))
      (CachedMem.init indexMem) (loadAt 64)).2 (Or.inl rfl)).2.2.1

/-! ## Hits -/

theorem findLineToDelete_not_mem (tag : Word) (l : List Word) (i d : Nat) (h : tag ∉ l) :
    findLineToDelete tag l i d = d := by
  induction l generalizing i d with
  | nil => rfl
  | cons x rest ih =>
    have hx : x ≠ tag := fun e => h (e ▸ List.mem_cons_self _ _)
    have hr : tag ∉ rest := fun m => h (List.mem_cons_of_mem _ m)
    show findLineToDelete tag rest (i + 1) (if x = tag then i else d) = d
    rw [if_neg hx, ih _ _ hr]

theorem findLineToDelete_mem (tag : Word) (l : List Word) (i d : Nat) (h : tag ∈ l) :
    ∃ j, j < l.length ∧ l[j]? = some tag ∧ tag ∉ l.drop (j + 1) ∧
      findLineToDelete tag l i d = i + j := by
  induction l generalizing i d with
  | nil => exact absurd h (List.not_mem_nil _)
  | cons x rest ih =>
    show ∃ j, j < (x :: rest).length ∧ (x :: rest)[j]? = some tag ∧ tag ∉ (x :: rest).drop (j + 1) ∧
      findLineToDelete tag rest (i + 1) (if x = tag then i else d) = i + j
    by_cases hr : tag ∈ rest
    · obtain ⟨j, hj, hget, hdrop, hres⟩ := ih (i + 1) (if x = tag then i else d) hr
      refine ⟨j + 1, by simp; omega, by simpa using hget, by simpa using hdrop, ?_⟩
      rw [hres]; omega
    · have hx : x = tag := by
        rcases List.mem_cons.mp h with e | m
        · exact e.symm
        · exact absurd m hr
      refine ⟨0, by simp, by simp [hx], by simpa using hr, ?_⟩
      rw [if_pos hx, findLineToDelete_not_mem tag rest _ _ hr]
      rfl

theorem CachedMem.cacheController_hit (s : CachedMem) (type : cacheType) (line : CacheLine)
    (h : (s.cache type).lookup (ToLineAddr s._requestedIp) = some line) :
    s.cacheController type =
      ({ s with _waitCycles := cacheRequestCycles }).setCommonlyUsed type
        ((s.commonlyUsed type ++ [ToLineAddr s._requestedIp]).eraseIdx
          (findLineToDelete (ToLineAddr s._requestedIp) (s.commonlyUsed type) 0 0)) := by
  unfold CachedMem.cacheController
  simp only [h]

theorem hit_queue (tag : Word) (q : List Word) (h : tag ∈ q) :
    ∃ i, i < q.length ∧ q[i]? = some tag ∧ tag ∉ q.drop (i + 1) ∧
      (q ++ [tag]).eraseIdx (findLineToDelete tag q 0 0) = q.eraseIdx i ++ [tag] := by
  obtain ⟨j, hj, hget, hdrop, hres⟩ := findLineToDelete_mem tag q 0 0 h
  refine ⟨j, hj, hget, hdrop, ?_⟩
  rw [hres, Nat.zero_add, List.eraseIdx_append_of_lt_length hj]

theorem CachedMem.cacheController_hit_state (s : CachedMem) (type : cacheType)
    (hres : ToLineAddr s._requestedIp ∈ s.cache type) :
    (s.cacheController type)._waitCycles = 3 ∧
    (s.cacheController type)._requestedIp = s._requestedIp ∧
    (s.cacheController type)._cacheInstructions = s._cacheInstructions ∧
    (s.cacheController type)._cacheCalculations = s._cacheCalculations ∧
    (s.cacheController type)._mem = s._mem ∧
    (ToLineAddr s._requestedIp ∈ s.commonlyUsed type →
      ∃ i, i < (s.commonlyUsed type).length ∧
        (s.commonlyUsed type)[i]? = some (ToLineAddr s._requestedIp) ∧
        ToLineAddr s._requestedIp ∉ (s.commonlyUsed type).drop (i + 1) ∧
        (s.cacheController type).commonlyUsed type =
          (s.commonlyUsed type).eraseIdx i ++ [ToLineAddr s._requestedIp]) := by
  obtain ⟨line, hline⟩ := Option.isSome_iff_exists.mp (AList.lookup_isSome.mpr hres)
  rw [CachedMem.cacheController_hit s type line hline]
  refine ⟨?_, ?_, ?_, ?_, ?_, ?_⟩
  · cases type <;> simp [CachedMem.setCommonlyUsed, cacheRequestCycles]
  · cases type <;> simp [CachedMem.setCommonlyUsed]
  · cases type <;> simp [CachedMem.setCommonlyUsed]
  · cases type <;> simp [CachedMem.setCommonlyUsed]
  · cases type <;> simp [CachedMem.setCommonlyUsed]
  · intro hq
    obtain ⟨i, hi, hget, hdrop, heq⟩ := hit_queue _ _ hq
    refine ⟨i, hi, hget, hdrop, ?_⟩
    cases type <;> simp [CachedMem.setCommonlyUsed, CachedMem.commonlyUsed] at heq ⊢ <;> exact heq

/-- Hit latency of `CachedMem`, in the state a request leaves when it returns. A fetch request,
or the operand request of a load or store, whose line tag is a key of the relevant cache sets
the countdown to
`cacheRequestCycles = 3`: the matching poll is not ready after `k < 3` calls of `Clock()` and
ready after 3. The tag being also in the recency queue of that cache (as every resident tag
is), the queue afterwards is the old queue with the last occurrence of the tag taken out and
the tag appended at the newest end. -/
theorem CachedMem.hit_latency (s : CachedMem) :
    (∀ ip : Word, ToLineAddr ip ∈ s._cacheInstructions →
      (s.Request ip)._waitCycles = 3 ∧ cacheRequestCycles = 3 ∧
      (∀ k, k < 3 → (CachedMem.Clock^[k] (s.Request ip)).Response.1 = none) ∧
      (CachedMem.Clock^[3] (s.Request ip)).Response.1 =
        some (s._cacheInstructions.word (ToLineAddr ip) (ToLineOffset ip)) ∧
      (ToLineAddr ip ∈ s._commonlyUsedInstructions →
        ∃ i, i < s._commonlyUsedInstructions.length ∧
          s._commonlyUsedInstructions[i]? = some (ToLineAddr ip) ∧
          ToLineAddr ip ∉ s._commonlyUsedInstructions.drop (i + 1) ∧
          (s.Request ip)._commonlyUsedInstructions =
            s._commonlyUsedInstructions.eraseIdx i ++ [ToLineAddr ip])) ∧
    (∀ instr : Instruction, (instr._type = .Ld ∨ instr._type = .St) →
      ToLineAddr instr._addr ∈ s._cacheCalculations →
      (s.RequestInstr instr)._waitCycles = 3 ∧
      (∀ k, k < 3 → ((CachedMem.Clock^[k] (s.RequestInstr instr)).ResponseInstr instr).1 = false) ∧
      ((CachedMem.Clock^[3] (s.RequestInstr instr)).ResponseInstr instr).1 = true ∧
      (ToLineAddr instr._addr ∈ s._commonlyUsedCalculations →
        ∃ i, i < s._commonlyUsedCalculations.length ∧
          s._commonlyUsedCalculations[i]? = some (ToLineAddr instr._addr) ∧
          ToLineAddr instr._addr ∉ s._commonlyUsedCalculations.drop (i + 1) ∧
          (s.RequestInstr instr)._commonlyUsedCalculations =
            s._commonlyUsedCalculations.eraseIdx i ++ [ToLineAddr instr._addr])) := by
  constructor
  · intro ip hres
    obtain ⟨hw, hip, hci, _, _, hqueue⟩ :=
      CachedMem.cacheController_hit_state { s with _requestedIp := ip } .instruction hres
    have hreq : s.Request ip = ({ s with _requestedIp := ip }).cacheController .instruction := rfl
    refine ⟨by rw [hreq, hw], rfl, ?_, ?_, ?_⟩
    · intro k hk
      apply CachedMem.Response_not_ready
      rw [(CachedMem.Clock_iterate k (s.Request ip)).1, hreq, hw]
      omega
    · obtain ⟨k1, k2, _, k4, _⟩ := CachedMem.Clock_iterate 3 (s.Request ip)
      rw [CachedMem.Response_ready _ (by rw [k1, hreq, hw]), k2, k4, hreq, hip, hci]
    · intro hq
      obtain ⟨i, hi, hget, hdrop, heq⟩ := hqueue hq
      exact ⟨i, hi, hget, hdrop, by rw [hreq]; exact heq⟩
  · intro instr hty hres
    have hn : ¬ (instr._type ≠ .Ld ∧ instr._type ≠ .St) := by
      rintro ⟨h1, h2⟩
      rcases hty with h | h
      · exact h1 h
      · exact h2 h
    obtain ⟨hw, _, _, _, _, hqueue⟩ :=
      CachedMem.cacheController_hit_state { s with _requestedIp := instr._addr } .calculation
        hres
    have hreq : s.RequestInstr instr =
        ({ s with _requestedIp := instr._addr }).cacheController .calculation := by
      unfold CachedMem.RequestInstr
      rw [if_neg hn]
    refine ⟨by rw [hreq, hw], ?_, ?_, ?_⟩
    · intro k hk
      have hwk : (CachedMem.Clock^[k] (s.RequestInstr instr))._waitCycles ≠ 0 := by
        rw [(CachedMem.Clock_iterate k (s.RequestInstr instr)).1, hreq, hw]
        omega
      unfold CachedMem.ResponseInstr
      rw [if_neg hn, if_pos hwk]
    · have hw3 : (CachedMem.Clock^[3] (s.RequestInstr instr))._waitCycles = 0 := by
        rw [(CachedMem.Clock_iterate 3 (s.RequestInstr instr)).1, hreq, hw]
      unfold CachedMem.ResponseInstr
      rw [if_neg hn, if_neg (by rw [hw3]; simp)]
      simp only
      split
      · rfl
      · split <;> rfl
    · intro hq
      obtain ⟨i, hi, hget, hdrop, heq⟩ := hqueue hq
      exact ⟨i, hi, hget, hdrop, by rw [hreq]; exact heq⟩

set_option maxRecDepth 100000 in
/-- An instance of the hit latency: a second fetch in the line of `0x200`, after a fetch in
the line of `0x400`. -/
theorem CachedMem.hit_latency_witness :
    (((CachedMem.init zeroMem).run [.fetch 0x200, .fetch 0x400]).Request 0x204)._waitCycles = 3 ∧
    ∃ i, ((CachedMem.init zeroMem).run [.fetch 0x200, .fetch 0x400])._commonlyUsedInstructions[i]? =
        some (ToLineAddr 0x204) ∧
      (((CachedMem.init zeroMem).run [.fetch 0x200, .fetch 0x400]).Request
        0x204)._commonlyUsedInstructions =
        ((CachedMem.init zeroMem).run
          [.fetch 0x200, .fetch 0x400])._commonlyUsedInstructions.eraseIdx i ++ [ToLineAddr 0x204] := by
  obtain ⟨hw, _, _, _, hqueue⟩ :=
    (CachedMem.hit_latency ((CachedMem.init zeroMem).run [.fetch 0x200, .fetch 0x400])).1 0x204
      (by decide)
  obtain ⟨i, _, hget, _, hq⟩ := hqueue (by decide)
  exact ⟨hw, i, hget, hq⟩

/-! ## Address arithmetic -/

theorem ToLineAddr_eq (a : Nat) : ToLineAddr a = (a % 2 ^ 32) / 32 * 32 := by
  unfold ToLineAddr
  show (a &&& (2 ^ 64 - 1 - (32 - 1))) % 2 ^ 32 = (a % 2 ^ 32) / 32 * 32
  apply Nat.eq_of_testBit_eq
  intro i
  have h1 : (2 ^ 64 - 1 - (32 - 1) : Nat) = 2 ^ 5 * (2 ^ 59 - 1) := by norm_num
  have h2 : (a % 2 ^ 32) / 32 * 32 = 2 ^ 5 * ((a % 2 ^ 32) >>> 5) := by
    rw [Nat.shiftRight_eq_div_pow]; norm_num; ring
  rw [h1, h2, Nat.testBit_mod_two_pow, Nat.testBit_and, Nat.testBit_mul_pow_two,
    Nat.testBit_mul_pow_two, Nat.testBit_shiftRight, Nat.testBit_mod_two_pow,
    Nat.testBit_two_pow_sub_one]
  by_cases h5 : 5 ≤ i
  · have e : 5 + (i - 5) = i := by omega
    rw [e]
    by_cases h32 : i < 32
    · have : i - 5 < 59 := by omega
      simp [h5, h32, this]
    · simp [h32]
  · simp [h5]

/-- A line tag: a multiple of the line size that fits a `Word`. -/
theorem ToLineAddr_aligned (a : Nat) : ToLineAddr a % 32 = 0 ∧ ToLineAddr a < 2 ^ 32 := by
  rw [ToLineAddr_eq]
  unfold Word
  constructor <;> omega

theorem ToWordAddr_eq (a : Nat) : ToWordAddr a = a / 4 := by
  unfold ToWordAddr
  rw [Nat.shiftRight_eq_div_pow]

theorem ToLineOffset_eq (a : Nat) : ToLineOffset a = a / 4 % 8 := by
  unfold ToLineOffset
  rw [ToWordAddr_eq]
  exact Nat.and_pow_two_sub_one_eq_mod (a / 4) 3

theorem ToLineOffset_lt (a : Nat) : ToLineOffset a < lineSizeWords := by
  rw [ToLineOffset_eq]
  show a / 4 % 8 < 8
  omega

theorem line_word_addr (t i : Nat) (ht : t % 32 = 0) (hlt : t < 2 ^ 32) (hi : i < 8) :
    (t + defaultWordSize * i) % wordMod = t + 4 * i ∧ ToWordAddr (t + 4 * i) = t / 4 + i ∧
      ToLineOffset (t + 4 * i) = i := by
  refine ⟨?_, ?_, ?_⟩
  · show (t + 4 * i) % 2 ^ 32 = t + 4 * i
    omega
  · rw [ToWordAddr_eq]; unfold Word; omega
  · rw [ToLineOffset_eq]; unfold Word; omega

theorem ToLineAddr_of_word (a t : Nat) (ha : a < 2 ^ 32) (ht : t % 32 = 0) :
    ToLineAddr a = t ↔ (t / 4 ≤ ToWordAddr a ∧ ToWordAddr a < t / 4 + 8) := by
  rw [ToLineAddr_eq, ToWordAddr_eq]
  unfold Word
  omega

/-! ## operator[] on the cache maps -/

theorem CacheMap.lookup_assign (c : CacheMap) (tag off v t : Word) :
    (c.assign tag off v).lookup t =
      if t = tag then some ((c.line tag).insert off v) else c.lookup t := by
  unfold CacheMap.assign
  by_cases h : t = tag
  · subst h
    rw [if_pos rfl, AList.lookup_insert]
  · rw [if_neg h, AList.lookup_insert_ne h]

theorem CacheMap.mem_assign (c : CacheMap) (tag off v t : Word) :
    t ∈ c.assign tag off v ↔ t = tag ∨ t ∈ c := by
  unfold CacheMap.assign
  exact AList.mem_insert c

theorem CacheMap.line_assign (c : CacheMap) (tag off v : Word) :
    (c.assign tag off v).line tag = (c.line tag).insert off v := by
  unfold CacheMap.line
  rw [CacheMap.lookup_assign, if_pos rfl]
  rfl

theorem CacheLine.lookup_insert (l : CacheLine) (off v j : Word) :
    (l.insert off v).lookup j = if j = off then some v else l.lookup j := by
  by_cases h : j = off
  · subst h
    rw [if_pos rfl, AList.lookup_insert]
  · rw [if_neg h, AList.lookup_insert_ne h]

/-! ## The fill loop -/

theorem fill_lookup_other (mem : MemoryStorage) (T t : Word) (h : t ≠ T) (l : List Nat)
    (c : CacheMap) : (l.foldl (fillWord mem T) c).lookup t = c.lookup t := by
  induction l generalizing c with
  | nil => rfl
  | cons a l ih =>
    rw [List.foldl_cons, ih]
    unfold fillWord
    simp only
    rw [CacheMap.lookup_assign, if_neg h]

theorem fill_mem (mem : MemoryStorage) (T t : Word) (l : List Nat) (c : CacheMap) :
    t ∈ l.foldl (fillWord mem T) c ↔ t ∈ c ∨ (t = T ∧ l ≠ []) := by
  induction l generalizing c with
  | nil => simp
  | cons a l ih =>
    rw [List.foldl_cons, ih]
    unfold fillWord
    simp only
    rw [CacheMap.mem_assign]
    by_cases hl : l = []
    · subst hl; simp; tauto
    · simp [hl]; tauto

theorem fill_line (mem : MemoryStorage) (T : Word) (ht : T % 32 = 0) (hlt : T < 2 ^ 32)
    (l : List Nat) (hl : ∀ i ∈ l, i < 8) (c : CacheMap) (j : Word) :
    ((l.foldl (fillWord mem T) c).line T).lookup j =
      if j ∈ l then some (mem.Read (T + 4 * j)) else (c.line T).lookup j := by
  induction l generalizing c with
  | nil => simp
  | cons a l ih =>
    have ha : a < 8 := hl a (List.mem_cons_self _ _)
    obtain ⟨e1, _, e3⟩ := line_word_addr T a ht hlt ha
    rw [List.foldl_cons, ih (fun i hi => hl i (List.mem_cons_of_mem _ hi))]
    unfold fillWord
    simp only
    rw [CacheMap.line_assign, CacheLine.lookup_insert, e1, e3]
    by_cases hjl : j ∈ l
    · simp [hjl]
    · by_cases hja : j = a
      · subst hja; simp
      · simp [hjl, hja]

/-! ## The write-back loop -/

theorem writeBack_mem (cache : CacheMap) (E : Nat) (ht : E % 32 = 0) (hlt : E < 2 ^ 32)
    (l : List Nat) (hl : ∀ i ∈ l, i < 8) (m : MemoryStorage) (idx : Nat) :
    (l.foldl (writeBackWord cache E) m)._mem idx =
      if E / 4 ≤ idx ∧ idx - E / 4 ∈ l then cache.word E (idx - E / 4) else m._mem idx := by
  induction l generalizing m with
  | nil => simp
  | cons a l ih =>
    have ha : a < 8 := hl a (List.mem_cons_self _ _)
    obtain ⟨e1, e2, _⟩ := line_word_addr E a ht hlt ha
    rw [List.foldl_cons, ih (fun i hi => hl i (List.mem_cons_of_mem _ hi))]
    unfold writeBackWord MemoryStorage.Write
    simp only
    rw [e1, e2]
    by_cases hle : E / 4 ≤ idx
    · by_cases hjl : idx - E / 4 ∈ l
      · simp [hle, hjl]
      · by_cases hja : idx = E / 4 + a
        · subst hja; simp
        · have : idx - E / 4 ≠ a := by omega
          simp [hle, hjl, this, Function.update_noteq hja]
    · have : idx ≠ E / 4 + a := by omega
      simp [hle, Function.update_noteq this]

/-! ## The three outcomes of the cache controller -/

theorem CachedMem.cacheController_requestedIp (s : CachedMem) (type : cacheType) :
    (s.cacheController type)._requestedIp = s._requestedIp := by
  cases type
  · exact (CachedMem.cacheController_instruction_frame s).2.2
  · exact (CachedMem.cacheController_calculation_frame s).2.2

theorem CachedMem.cacheController_other (s : CachedMem) (type other : cacheType)
    (h : other ≠ type) :
    (s.cacheController type).cache other = s.cache other ∧
    (s.cacheController type).commonlyUsed other = s.commonlyUsed other := by
  cases type <;> cases other
  · exact absurd rfl h
  · exact ⟨(CachedMem.cacheController_instruction_frame s).1,
      (CachedMem.cacheController_instruction_frame s).2.1⟩
  · exact ⟨(CachedMem.cacheController_calculation_frame s).1,
      (CachedMem.cacheController_calculation_frame s).2.1⟩
  · exact absurd rfl h

theorem CachedMem.cacheController_miss_keep (s : CachedMem) (type : cacheType)
    (h : (s.cache type).lookup (ToLineAddr s._requestedIp) = none)
    (hsz : ¬ cacheSize type < (s.cache type).size) :
    (s.cacheController type).cache type =
      fillLine s._mem (ToLineAddr s._requestedIp) (s.cache type) ∧
    (s.cacheController type).commonlyUsed type =
      s.commonlyUsed type ++ [ToLineAddr s._requestedIp] ∧
    (s.cacheController type)._mem = s._mem ∧
    (s.cacheController type)._waitCycles = s._waitCycles := by
  unfold CachedMem.cacheController
  simp only [h, if_neg hsz]
  cases type <;> simp [CachedMem.setCache, CachedMem.setCommonlyUsed, CachedMem.cache,
    CachedMem.commonlyUsed]

theorem CachedMem.cacheController_miss_evict (s : CachedMem) (type : cacheType) (E : Word)
    (rest : List Word)
    (h : (s.cache type).lookup (ToLineAddr s._requestedIp) = none)
    (hsz : cacheSize type < (s.cache type).size)
    (hq : s.commonlyUsed type = E :: rest) :
    (s.cacheController type).cache type =
      fillLine (writeBack (s.cache type) E s._mem) (ToLineAddr s._requestedIp)
        ((s.cache type).erase E) ∧
    (s.cacheController type).commonlyUsed type = rest ++ [ToLineAddr s._requestedIp] ∧
    (s.cacheController type)._mem = writeBack (s.cache type) E s._mem ∧
    (s.cacheController type)._waitCycles = CachedMem.latency := by
  unfold CachedMem.cacheController
  simp only [h, if_pos hsz, hq]
  cases type <;> simp [CachedMem.setCache, CachedMem.setCommonlyUsed, CachedMem.cache,
    CachedMem.commonlyUsed]

/-! ## Well-formedness is kept -/

theorem CacheMap.line_of_lookup (c : CacheMap) (t : Word) (line : CacheLine)
    (h : c.lookup t = some line) : c.line t = line := by
  unfold CacheMap.line
  rw [h]
  rfl

theorem CacheMap.line_of_not_mem (c : CacheMap) (t : Word) (h : c.lookup t = none) :
    c.line t = ∅ := by
  unfold CacheMap.line
  rw [h]
  rfl

theorem lineSizeWords_eq : lineSizeWords = 8 := rfl

theorem CacheWF.fill (c : CacheMap) (q : List Word) (m : MemoryStorage) (T : Word)
    (hwf : CacheWF c q) (ht : T % 32 = 0) (hlt : T < 2 ^ 32) (hT : c.lookup T = none) :
    CacheWF (fillLine m T c) (q ++ [T]) := by
  have hTc : T ∉ c := AList.lookup_eq_none.mp hT
  have hTq : T ∉ q := fun h => hTc ((hwf.mem_iff T).mp h)
  have hrange : List.range lineSizeWords ≠ [] := by decide
  refine ⟨?_, ?_, ?_, ?_⟩
  · exact List.Nodup.append hwf.nodup (List.nodup_singleton T)
      (by
        intro a ha hs
        rw [List.mem_singleton] at hs
        exact hTq (hs ▸ ha))
  · intro t
    unfold fillLine
    rw [fill_mem, List.mem_append, List.mem_singleton, hwf.mem_iff]
    simp [hrange]
  · intro t h
    rcases List.mem_append.mp h with h | h
    · exact hwf.aligned t h
    · rw [List.mem_singleton.mp h]; exact ⟨ht, hlt⟩
  · intro t line hl i
    by_cases hTt : t = T
    · subst hTt
      have hline := CacheMap.line_of_lookup _ _ _ hl
      have := fill_line m t ht hlt (List.range lineSizeWords)
        (fun i hi => by rw [lineSizeWords_eq] at hi; exact List.mem_range.mp hi) c i
      unfold fillLine at hline
      rw [hline, CacheMap.line_of_not_mem c t hT] at this
      rw [← AList.lookup_isSome, this]
      by_cases hi : i < lineSizeWords
      · simp [List.mem_range.mpr hi, hi]
      · simp [List.mem_range, hi]
    · unfold fillLine at hl
      rw [fill_lookup_other m T t hTt] at hl
      exact hwf.full t line hl i

theorem CacheWF.evict (c : CacheMap) (E : Word) (rest : List Word)
    (hwf : CacheWF c (E :: rest)) : CacheWF (c.erase E) rest := by
  have hnd := List.nodup_cons.mp hwf.nodup
  refine ⟨hnd.2, ?_, ?_, ?_⟩
  · intro t
    rw [AList.mem_erase, ← hwf.mem_iff, List.mem_cons]
    constructor
    · intro h
      exact ⟨fun e => hnd.1 (e ▸ h), Or.inr h⟩
    · rintro ⟨hne, h | h⟩
      · exact absurd h hne
      · exact h
  · intro t h
    exact hwf.aligned t (List.mem_cons_of_mem _ h)
  · intro t line hl i
    by_cases hE : t = E
    · subst hE
      rw [AList.lookup_erase] at hl
      exact Option.noConfusion hl
    · rw [AList.lookup_erase_ne hE] at hl
      exact hwf.full t line hl i

theorem eraseIdx_append_perm (q : List Word) (T : Word) (i : Nat) (hi : i < q.length)
    (hget : q[i]? = some T) : List.Perm (q.eraseIdx i ++ [T]) q := by
  induction q generalizing i with
  | nil => simp at hi
  | cons x q ih =>
    cases i with
    | zero =>
      simp at hget
      subst hget
      simp [List.perm_append_singleton x q]
    | succ i =>
      simp at hget hi
      simpa using ih i hi hget

theorem CacheWF.hit (c : CacheMap) (q : List Word) (T : Word) (i : Nat)
    (hwf : CacheWF c q) (hi : i < q.length) (hget : q[i]? = some T) :
    CacheWF c (q.eraseIdx i ++ [T]) := by
  have hp := eraseIdx_append_perm q T i hi hget
  refine ⟨hp.nodup_iff.mpr hwf.nodup, ?_, ?_, hwf.full⟩
  · intro t
    rw [hp.mem_iff]
    exact hwf.mem_iff t
  · intro t h
    exact hwf.aligned t (hp.mem_iff.mp h)

theorem CacheMap.touch_resident (c : CacheMap) (q : List Word) (tag off : Word)
    (hwf : CacheWF c q) (htag : tag ∈ c) (hoff : off < lineSizeWords) :
    c.touch tag off = c := by
  obtain ⟨line, hline⟩ := Option.isSome_iff_exists.mp (AList.lookup_isSome.mpr htag)
  have hmem : off ∈ line := (hwf.full tag line hline off).mpr hoff
  obtain ⟨w, hw⟩ := Option.isSome_iff_exists.mp (AList.lookup_isSome.mpr hmem)
  unfold CacheMap.touch
  simp only [hline, hw]

theorem CacheWF.assign (c : CacheMap) (q : List Word) (tag off v : Word)
    (hwf : CacheWF c q) (htag : tag ∈ c) (hoff : off < lineSizeWords) :
    CacheWF (c.assign tag off v) q := by
  obtain ⟨line0, hline0⟩ := Option.isSome_iff_exists.mp (AList.lookup_isSome.mpr htag)
  refine ⟨hwf.nodup, ?_, hwf.aligned, ?_⟩
  · intro t
    rw [CacheMap.mem_assign, hwf.mem_iff]
    constructor
    · intro h; exact Or.inr h
    · rintro (h | h)
      · exact h ▸ htag
      · exact h
  · intro t line hl i
    rw [CacheMap.lookup_assign] at hl
    by_cases ht : t = tag
    · rw [if_pos ht] at hl
      injection hl with hl
      subst hl
      rw [CacheMap.line_of_lookup c tag line0 hline0, AList.mem_insert,
        hwf.full tag line0 hline0 i]
      constructor
      · rintro (h | h)
        · exact h ▸ hoff
        · exact h
      · intro h; exact Or.inr h
    · rw [if_neg ht] at hl
      exact hwf.full t line hl i

theorem CachedMem.WF_init (mem : MemoryStorage) : (CachedMem.init mem).WF := by
  intro type
  cases type <;>
    exact ⟨List.nodup_nil, fun t => by simp [CachedMem.init, CachedMem.cache,
      CachedMem.commonlyUsed], fun t h => by simp [CachedMem.init, CachedMem.commonlyUsed] at h,
      fun t line h => by simp [CachedMem.init, CachedMem.cache] at h⟩

theorem CachedMem.WF_congr (r s : CachedMem)
    (h : ∀ ty, r.cache ty = s.cache ty ∧ r.commonlyUsed ty = s.commonlyUsed ty) (hs : s.WF) :
    r.WF := by
  intro ty
  rw [(h ty).1, (h ty).2]
  exact hs ty

theorem CachedMem.queue_nonempty_of_overflow (s : CachedMem) (type : cacheType) (h : s.WF)
    (hsz : cacheSize type < (s.cache type).size) :
    ∃ E rest, s.commonlyUsed type = E :: rest := by
  cases hq : s.commonlyUsed type with
  | cons E rest => exact ⟨E, rest, rfl⟩
  | nil =>
    exfalso
    have hk : (s.cache type).keys = [] := by
      apply List.eq_nil_iff_forall_not_mem.mpr
      intro t ht
      have := ((h type).mem_iff t).mpr (AList.mem_keys.mpr ht)
      rw [hq] at this
      exact List.not_mem_nil _ this
    unfold CacheMap.size at hsz
    rw [hk] at hsz
    exact Nat.not_lt_zero _ hsz

theorem CachedMem.cacheController_WF (s : CachedMem) (type : cacheType) (h : s.WF) :
    (s.cacheController type).WF ∧
      ToLineAddr s._requestedIp ∈ (s.cacheController type).cache type := by
  have hal := ToLineAddr_aligned s._requestedIp
  have hrange : List.range lineSizeWords ≠ [] := by decide
  cases hl : (s.cache type).lookup (ToLineAddr s._requestedIp) with
  | none =>
    by_cases hsz : cacheSize type < (s.cache type).size
    · obtain ⟨E, rest, hq⟩ := CachedMem.queue_nonempty_of_overflow s type h hsz
      obtain ⟨hc, hqq, _, _⟩ := CachedMem.cacheController_miss_evict s type E rest hl hsz hq
      constructor
      · intro ty
        by_cases hty : ty = type
        · subst hty
          rw [hc, hqq]
          have hwf := h ty
          rw [hq] at hwf
          refine CacheWF.fill _ _ _ _ (CacheWF.evict _ _ _ hwf) hal.1 hal.2 ?_
          apply AList.lookup_eq_none.mpr
          intro hm
          exact (AList.lookup_eq_none.mp hl) (AList.mem_erase.mp hm).2
        · obtain ⟨o1, o2⟩ := CachedMem.cacheController_other s type ty hty
          rw [o1, o2]
          exact h ty
      · rw [hc]
        unfold fillLine
        rw [fill_mem]
        exact Or.inr ⟨rfl, hrange⟩
    · obtain ⟨hc, hqq, _, _⟩ := CachedMem.cacheController_miss_keep s type hl hsz
      constructor
      · intro ty
        by_cases hty : ty = type
        · subst hty
          rw [hc, hqq]
          exact CacheWF.fill _ _ _ _ (h ty) hal.1 hal.2 hl
        · obtain ⟨o1, o2⟩ := CachedMem.cacheController_other s type ty hty
          rw [o1, o2]
          exact h ty
      · rw [hc]
        unfold fillLine
        rw [fill_mem]
        exact Or.inr ⟨rfl, hrange⟩
  | some line =>
    have hres : ToLineAddr s._requestedIp ∈ s.cache type :=
      AList.lookup_isSome.mp (by rw [hl]; rfl)
    have hq : ToLineAddr s._requestedIp ∈ s.commonlyUsed type := ((h type).mem_iff _).mpr hres
    obtain ⟨_, _, hci, hcc, _, hqueue⟩ := CachedMem.cacheController_hit_state s type hres
    obtain ⟨i, hi, hget, _, heq⟩ := hqueue hq
    have hcache : ∀ ty, (s.cacheController type).cache ty = s.cache ty := by
      intro ty
      cases ty
      · exact hci
      · exact hcc
    constructor
    · intro ty
      rw [hcache ty]
      by_cases hty : ty = type
      · subst hty
        rw [heq]
        exact CacheWF.hit _ _ _ i (h ty) hi hget
      · rw [(CachedMem.cacheController_other s type ty hty).2]
        exact h ty
    · rw [hcache type]
      exact hres

theorem CachedMem.Clock_iterate_cache (n : Nat) (s : CachedMem) (ty : cacheType) :
    (CachedMem.Clock^[n] s).cache ty = s.cache ty ∧
    (CachedMem.Clock^[n] s).commonlyUsed ty = s.commonlyUsed ty := by
  obtain ⟨_, _, _, k4, k5, k6, k7⟩ := CachedMem.Clock_iterate n s
  cases ty
  · exact ⟨k4, k6⟩
  · exact ⟨k5, k7⟩

theorem CachedMem.request_WF (s : CachedMem) (a : Access) (h : s.WF) : (s.request a).WF := by
  cases a with
  | fetch ip =>
    exact (CachedMem.cacheController_WF { s with _requestedIp := ip } .instruction h).1
  | operand instr =>
    show (s.RequestInstr instr).WF
    unfold CachedMem.RequestInstr
    split
    · exact h
    · exact (CachedMem.cacheController_WF { s with _requestedIp := instr._addr } .calculation h).1

theorem CachedMem.fetch_caches (s : CachedMem) (ip : Word) (h : s.WF) (ty : cacheType) :
    (s.fetch ip).2.cache ty = (s.Request ip).cache ty ∧
    (s.fetch ip).2.commonlyUsed ty = (s.Request ip).commonlyUsed ty ∧
    (s.fetch ip).2._mem = (s.Request ip)._mem := by
  obtain ⟨hwf, hres⟩ := CachedMem.cacheController_WF { s with _requestedIp := ip } .instruction h
  have hip : (s.Request ip)._requestedIp = ip :=
    CachedMem.cacheController_requestedIp { s with _requestedIp := ip } .instruction
  obtain ⟨k1, k2, k3, k4, k5, k6, k7⟩ :=
    CachedMem.Clock_iterate (s.Request ip)._waitCycles (s.Request ip)
  have hw : (CachedMem.Clock^[(s.Request ip)._waitCycles] (s.Request ip))._waitCycles = 0 := by
    rw [k1]; omega
  have htouch : (s.Request ip)._cacheInstructions.touch (ToLineAddr ip) (ToLineOffset ip) =
      (s.Request ip)._cacheInstructions :=
    CacheMap.touch_resident _ _ _ _ (hwf .instruction) hres (ToLineOffset_lt ip)
  unfold CachedMem.fetch
  simp only
  unfold CachedMem.Response
  rw [if_neg (by rw [hw]; exact Nat.lt_irrefl 0)]
  simp only [k2, k3, k4, k5, k6, k7, hip, htouch]
  cases ty <;> simp [CachedMem.cache, CachedMem.commonlyUsed, k4, k5, k6, k7, k3]

theorem CachedMem.operand_queue (s : CachedMem) (instr : Instruction) (ty : cacheType) :
    (s.operand instr).2.2.commonlyUsed ty = (s.RequestInstr instr).commonlyUsed ty ∧
    (s.operand instr).2.2._mem = (s.RequestInstr instr)._mem := by
  unfold CachedMem.operand
  obtain ⟨_, r2, r3, r4⟩ := CachedMem.ResponseInstr_frame
    (CachedMem.Clock^[(s.RequestInstr instr)._waitCycles] (s.RequestInstr instr)) instr
  obtain ⟨_, _, k3, _, _, k6, k7⟩ :=
    CachedMem.Clock_iterate (s.RequestInstr instr)._waitCycles (s.RequestInstr instr)
  refine ⟨?_, by rw [r4, k3]⟩
  cases ty
  · show CachedMem._commonlyUsedInstructions _ = CachedMem._commonlyUsedInstructions _
    rw [r2, k6]
  · show CachedMem._commonlyUsedCalculations _ = CachedMem._commonlyUsedCalculations _
    rw [r3, k7]

theorem CachedMem.fetch_queue (s : CachedMem) (ip : Word) (ty : cacheType) :
    (s.fetch ip).2.commonlyUsed ty = (s.Request ip).commonlyUsed ty := by
  obtain ⟨_, _, _, _, _, k6, k7⟩ :=
    CachedMem.Clock_iterate (s.Request ip)._waitCycles (s.Request ip)
  unfold CachedMem.fetch
  simp only
  unfold CachedMem.Response
  split <;> cases ty <;> simp [CachedMem.commonlyUsed, k6, k7]

theorem CachedMem.access_queue (s : CachedMem) (a : Access) (ty : cacheType) :
    (s.access a).commonlyUsed ty = (s.request a).commonlyUsed ty := by
  cases a with
  | fetch ip => exact CachedMem.fetch_queue s ip ty
  | operand instr => exact (CachedMem.operand_queue s instr ty).1

theorem CachedMem.operand_WF (s : CachedMem) (instr : Instruction) (h : s.WF) :
    (s.operand instr).2.2.WF := by
  by_cases hn : instr._type ≠ .Ld ∧ instr._type ≠ .St
  · have h1 : s.RequestInstr instr = s := by
      unfold CachedMem.RequestInstr; rw [if_pos hn]
    unfold CachedMem.operand
    simp only [h1]
    unfold CachedMem.ResponseInstr
    rw [if_pos hn]
    exact CachedMem.WF_congr _ _ (CachedMem.Clock_iterate_cache _ s) h
  · have h1 : s.RequestInstr instr =
        ({ s with _requestedIp := instr._addr }).cacheController .calculation := by
      unfold CachedMem.RequestInstr; rw [if_neg hn]
    obtain ⟨hwf, hres⟩ :=
      CachedMem.cacheController_WF { s with _requestedIp := instr._addr } .calculation h
    rw [← h1] at hwf hres
    have hip : (s.RequestInstr instr)._requestedIp = instr._addr := by
      rw [h1]
      exact CachedMem.cacheController_requestedIp { s with _requestedIp := instr._addr } _
    obtain ⟨k1, k2, k3, k4, k5, k6, k7⟩ :=
      CachedMem.Clock_iterate (s.RequestInstr instr)._waitCycles (s.RequestInstr instr)
    have hw : (CachedMem.Clock^[(s.RequestInstr instr)._waitCycles]
        (s.RequestInstr instr))._waitCycles = 0 := by
      rw [k1]; omega
    have hwf2 : (CachedMem.Clock^[(s.RequestInstr instr)._waitCycles]
        (s.RequestInstr instr)).WF :=
      CachedMem.WF_congr _ _ (CachedMem.Clock_iterate_cache _ _) hwf
    have hres2 : ToLineAddr instr._addr ∈ (s.RequestInstr instr)._cacheCalculations := hres
    have ht : (s.RequestInstr instr)._cacheCalculations.touch (ToLineAddr instr._addr)
        (ToLineOffset instr._addr) = (s.RequestInstr instr)._cacheCalculations :=
      CacheMap.touch_resident _ _ _ _ (hwf .calculation) hres2 (ToLineOffset_lt _)
    have ha : CacheWF ((s.RequestInstr instr)._cacheCalculations.assign (ToLineAddr instr._addr)
        (ToLineOffset instr._addr) instr._data) (s.RequestInstr instr)._commonlyUsedCalculations :=
      CacheWF.assign _ _ _ _ _ (hwf .calculation) hres2 (ToLineOffset_lt _)
    unfold CachedMem.operand
    simp only
    unfold CachedMem.ResponseInstr
    rw [if_neg hn, if_neg (by rw [hw]; simp)]
    simp only [k2, k3, k4, k5, k6, k7, hip, ht]
    split
    · -- load
      refine CachedMem.WF_congr _ _ ?_ hwf
      intro ty
      cases ty <;> simp [CachedMem.cache, CachedMem.commonlyUsed]
    · split
      · -- store
        intro ty
        cases ty
        · exact hwf .instruction
        · exact ha
      · exact hwf2

theorem CachedMem.access_WF (s : CachedMem) (a : Access) (h : s.WF) : (s.access a).WF := by
  cases a with
  | fetch ip =>
    refine CachedMem.WF_congr _ _ ?_ (CachedMem.request_WF s (.fetch ip) h)
    intro ty
    obtain ⟨h1, h2, _⟩ := CachedMem.fetch_caches s ip h ty
    exact ⟨h1, h2⟩
  | operand instr => exact CachedMem.operand_WF s instr h

theorem CachedMem.run_append (s : CachedMem) (as : List Access) (a : Access) :
    s.run (as ++ [a]) = (s.run as).access a := by
  unfold CachedMem.run
  rw [List.foldl_append]
  rfl

theorem CachedMem.run_WF (mem : MemoryStorage) (as : List Access) :
    ((CachedMem.init mem).run as).WF := by
  induction as using List.reverseRecOn with
  | nil => exact CachedMem.WF_init mem
  | append_singleton as a ih =>
    rw [CachedMem.run_append]
    exact CachedMem.access_WF _ a ih

theorem CacheMap.word_of_lookup (c : CacheMap) (t i w : Word) (line : CacheLine)
    (h : c.lookup t = some line) (hw : line.lookup i = some w) : c.word t i = w := by
  unfold CacheMap.word
  rw [CacheMap.line_of_lookup c t line h, hw]
  rfl

theorem not_in_line (e idx n : Nat) (h : idx < e ∨ e + 8 ≤ idx) (h1 : e ≤ idx)
    (h2 : idx - e < n) (hn : n = 8) : False := by
  omega

/-- C7. Eviction and line fill act on the cache and queue of the selected path. In a state
reached from the initial state by accesses polled to completion, let a request of address
`addr` miss in the cache of type `type` while that cache holds more than `cacheSize` lines.
Then the queue has a front tag `E`, and after `cacheController`: (i) the backing store holds at
`E + 4 * i`, for `i` in `0..7`, the word the cache held for `(E, i)`, and every word of the
backing store outside the eight words of line `E` is unchanged; (ii) `E` is neither a key of
the cache nor an element of its queue; (iii) the requested tag is resident, its word `i` is the
backing-store word at `tag + 4 * i` for `i` in `0..7`, and the tag is the newest element of the
queue. -/
theorem CachedMem.eviction_and_fill (mem : MemoryStorage) (as : List Access) (type : cacheType)
    (addr : Word) (s r : CachedMem) (hs : s = (CachedMem.init mem).run as)
    (hr : r = ({ s with _requestedIp := addr }).cacheController type)
    (hmiss : (s.cache type).lookup (ToLineAddr addr) = none)
    (hfull : cacheSize type < (s.cache type).size) :
    ∃ E rest, s.commonlyUsed type = E :: rest ∧
      (∀ i, i < 8 → ∃ line w, (s.cache type).lookup E = some line ∧ line.lookup i = some w ∧
        r._mem.Read (E + 4 * i) = w) ∧
      (∀ idx, (idx < E / 4 ∨ E / 4 + 8 ≤ idx) → r._mem._mem idx = s._mem._mem idx) ∧
      E ∉ r.cache type ∧ E ∉ r.commonlyUsed type ∧
      (∃ line, (r.cache type).lookup (ToLineAddr addr) = some line ∧
        ∀ i, i < 8 → line.lookup i = some (r._mem.Read (ToLineAddr addr + 4 * i))) ∧
      (r.commonlyUsed type).getLast? = some (ToLineAddr addr) := by
  have hwf : s.WF := hs ▸ CachedMem.run_WF mem as
  have hwf0 : ({ s with _requestedIp := addr } : CachedMem).WF := hwf
  obtain ⟨E, rest, hq⟩ := CachedMem.queue_nonempty_of_overflow s type hwf hfull
  obtain ⟨hc, hqq, hm, _⟩ :=
    CachedMem.cacheController_miss_evict { s with _requestedIp := addr } type E rest hmiss hfull hq
  rw [← hr] at hc hqq hm
  have hc2 : r.cache type = fillLine (writeBack (s.cache type) E s._mem) (ToLineAddr addr)
      ((s.cache type).erase E) := hc
  have hm2 : r._mem = writeBack (s.cache type) E s._mem := hm
  have hqq2 : r.commonlyUsed type = rest ++ [ToLineAddr addr] := hqq
  have hcw := hwf type
  rw [hq] at hcw
  obtain ⟨hE32, hElt⟩ := hcw.aligned E (List.mem_cons_self _ _)
  have hEc : E ∈ s.cache type := (hcw.mem_iff E).mp (List.mem_cons_self _ _)
  obtain ⟨lineE, hlineE⟩ := Option.isSome_iff_exists.mp (AList.lookup_isSome.mpr hEc)
  have hTc : ToLineAddr addr ∉ s.cache type := AList.lookup_eq_none.mp hmiss
  have hET : E ≠ ToLineAddr addr := fun e => hTc (e ▸ hEc)
  obtain ⟨hT32, hTlt⟩ := ToLineAddr_aligned addr
  have hrange : ∀ i ∈ List.range lineSizeWords, i < 8 := fun i hi => List.mem_range.mp hi
  have hmemfun : ∀ idx, r._mem._mem idx =
      if E / 4 ≤ idx ∧ idx - E / 4 ∈ List.range lineSizeWords then
        (s.cache type).word E (idx - E / 4) else s._mem._mem idx := by
    intro idx
    rw [hm2]
    exact writeBack_mem (s.cache type) E hE32 hElt (List.range lineSizeWords) hrange s._mem idx
  refine ⟨E, rest, hq, ?_, ?_, ?_, ?_, ?_, ?_⟩
  · intro i hi
    have hmi : i ∈ lineE := (hcw.full E lineE hlineE i).mpr hi
    obtain ⟨w, hw⟩ := Option.isSome_iff_exists.mp (AList.lookup_isSome.mpr hmi)
    refine ⟨lineE, w, hlineE, hw, ?_⟩
    unfold MemoryStorage.Read
    rw [(line_word_addr E i hE32 hElt hi).2.1, hmemfun]
    have e : E / 4 + i - E / 4 = i := Nat.add_sub_cancel_left (E / 4) i
    rw [e, if_pos ⟨Nat.le_add_right _ _, List.mem_range.mpr hi⟩]
    exact CacheMap.word_of_lookup _ _ _ _ _ hlineE hw
  · intro idx hidx
    rw [hmemfun, if_neg]
    rintro ⟨h1, h2⟩
    exact not_in_line (E / 4) idx lineSizeWords hidx h1 (List.mem_range.mp h2) rfl
  · rw [hc2]
    unfold fillLine
    rw [fill_mem]
    rintro (h | ⟨h, _⟩)
    · exact (AList.mem_erase.mp h).1 rfl
    · exact hET h
  · rw [hqq2, List.mem_append, List.mem_singleton]
    rintro (h | h)
    · exact (List.nodup_cons.mp hcw.nodup).1 h
    · exact hET h
  · have hTr : ToLineAddr addr ∈ r.cache type := by
      rw [hc2]
      unfold fillLine
      rw [fill_mem]
      exact Or.inr ⟨rfl, by decide⟩
    obtain ⟨line, hline⟩ := Option.isSome_iff_exists.mp (AList.lookup_isSome.mpr hTr)
    refine ⟨line, hline, ?_⟩
    intro i hi
    have hl := CacheMap.line_of_lookup _ _ _ hline
    rw [hc2] at hl
    unfold fillLine at hl
    have := fill_line (writeBack (s.cache type) E s._mem) (ToLineAddr addr) hT32 hTlt
      (List.range lineSizeWords) hrange ((s.cache type).erase E) i
    rw [hl, if_pos (List.mem_range.mpr hi : i ∈ List.range lineSizeWords)] at this
    rw [this, hm2]
  · rw [hqq2]
    simp

/-! ## Recency order -/

theorem lastRequestAux_append (t x : Word) (h : List Word) (i r : Nat) :
    lastRequestAux t (h ++ [x]) i r = if x = t then i + h.length else lastRequestAux t h i r := by
  induction h generalizing i r with
  | nil => rfl
  | cons y h ih =>
    show lastRequestAux t (h ++ [x]) (i + 1) (if y = t then i else r) = _
    rw [ih]
    by_cases hx : x = t
    · rw [if_pos hx, if_pos hx, List.length_cons]; omega
    · rw [if_neg hx, if_neg hx]; rfl

theorem lastRequestAux_lt (t : Word) (h : List Word) (i r : Nat) (hr : r < i) :
    lastRequestAux t h i r < i + h.length := by
  induction h generalizing i r with
  | nil => exact hr
  | cons y h ih =>
    show lastRequestAux t h (i + 1) (if y = t then i else r) < i + (h.length + 1)
    have : (if y = t then i else r) < i + 1 := by split <;> omega
    have := ih (i + 1) _ this
    omega

theorem lastRequest_append (t x : Word) (h : List Word) :
    lastRequest t (h ++ [x]) = if x = t then h.length + 1 else lastRequest t h := by
  unfold lastRequest
  rw [lastRequestAux_append, Nat.add_comm]

theorem lastRequest_le (t : Word) (h : List Word) : lastRequest t h ≤ h.length := by
  have := lastRequestAux_lt t h 1 0 Nat.zero_lt_one
  unfold lastRequest
  omega

theorem RecencyOrdered.step (history q p : List Word) (T : Word)
    (h : RecencyOrdered history q) (hp : p.Sublist q) (hT : T ∉ p) :
    RecencyOrdered (history ++ [T]) (p ++ [T]) := by
  have hne : ∀ a, a ∈ p → lastRequest a (history ++ [T]) = lastRequest a history := by
    intro a ha
    rw [lastRequest_append, if_neg (fun (e : T = a) => hT (e ▸ ha))]
  have hTT : lastRequest T (history ++ [T]) = history.length + 1 := by
    rw [lastRequest_append, if_pos rfl]
  constructor
  · rw [List.pairwise_append]
    refine ⟨?_, List.pairwise_singleton _ _, ?_⟩
    · refine List.Pairwise.imp_of_mem ?_ (h.1.sublist hp)
      intro a b ha hb hab
      rw [hne a ha, hne b hb]
      exact hab
    · intro a ha b hb
      rw [List.mem_singleton.mp hb, hne a ha, hTT]
      have := lastRequest_le a history
      omega
  · intro t ht
    rcases List.mem_append.mp ht with ht | ht
    · rw [hne t ht]
      exact h.2 t (hp.subset ht)
    · rw [List.mem_singleton.mp ht, hTT]
      omega

theorem CachedMem.cacheController_queue (s : CachedMem) (type : cacheType) (h : s.WF) :
    ∃ p, p.Sublist (s.commonlyUsed type) ∧ ToLineAddr s._requestedIp ∉ p ∧
      (s.cacheController type).commonlyUsed type = p ++ [ToLineAddr s._requestedIp] := by
  cases hl : (s.cache type).lookup (ToLineAddr s._requestedIp) with
  | none =>
    have hTq : ToLineAddr s._requestedIp ∉ s.commonlyUsed type := fun hm =>
      (AList.lookup_eq_none.mp hl) (((h type).mem_iff _).mp hm)
    by_cases hsz : cacheSize type < (s.cache type).size
    · obtain ⟨E, rest, hq⟩ := CachedMem.queue_nonempty_of_overflow s type h hsz
      obtain ⟨_, hqq, _, _⟩ := CachedMem.cacheController_miss_evict s type E rest hl hsz hq
      refine ⟨rest, ?_, ?_, hqq⟩
      · rw [hq]; exact List.sublist_cons_self E rest
      · intro hm
        rw [hq] at hTq
        exact hTq (List.mem_cons_of_mem _ hm)
    · obtain ⟨_, hqq, _, _⟩ := CachedMem.cacheController_miss_keep s type hl hsz
      exact ⟨_, List.Sublist.refl _, hTq, hqq⟩
  | some line =>
    have hres : ToLineAddr s._requestedIp ∈ s.cache type :=
      AList.lookup_isSome.mp (by rw [hl]; rfl)
    have hq : ToLineAddr s._requestedIp ∈ s.commonlyUsed type := ((h type).mem_iff _).mpr hres
    obtain ⟨_, _, _, _, _, hqueue⟩ := CachedMem.cacheController_hit_state s type hres
    obtain ⟨i, hi, hget, _, heq⟩ := hqueue hq
    refine ⟨_, List.eraseIdx_sublist _ i, ?_, heq⟩
    have hp := eraseIdx_append_perm _ _ i hi hget
    have hnd := hp.nodup_iff.mpr (h type).nodup
    intro hm
    exact (List.disjoint_of_nodup_append hnd) hm (List.mem_singleton_self _)

theorem CachedMem.request_queue (s : CachedMem) (a : Access) (type : cacheType) (h : s.WF) :
    (Access.tag? type a = none ∧ (s.request a).commonlyUsed type = s.commonlyUsed type) ∨
    (∃ T p, Access.tag? type a = some T ∧ p.Sublist (s.commonlyUsed type) ∧ T ∉ p ∧
      (s.request a).commonlyUsed type = p ++ [T]) := by
  cases a with
  | fetch ip =>
    cases type with
    | instruction =>
      right
      obtain ⟨p, h1, h2, h3⟩ :=
        CachedMem.cacheController_queue { s with _requestedIp := ip } .instruction h
      exact ⟨ToLineAddr ip, p, rfl, h1, h2, h3⟩
    | calculation =>
      left
      exact ⟨rfl, (CachedMem.cacheController_instruction_frame
        { s with _requestedIp := ip }).2.1⟩
  | operand instr =>
    cases type with
    | instruction =>
      left
      exact ⟨rfl, (CachedMem.RequestInstr_frame s instr).2⟩
    | calculation =>
      by_cases hn : instr._type ≠ .Ld ∧ instr._type ≠ .St
      · left
        have h1 : s.RequestInstr instr = s := by
          unfold CachedMem.RequestInstr; rw [if_pos hn]
        have h2 : ¬ (instr._type = .Ld ∨ instr._type = .St) := by
          rintro (e | e)
          · exact hn.1 e
          · exact hn.2 e
        refine ⟨?_, ?_⟩
        · show (if cacheType.calculation = cacheType.calculation ∧
            (instr._type = .Ld ∨ instr._type = .St) then _ else none) = none
          rw [if_neg (fun c => h2 c.2)]
        · show (s.RequestInstr instr).commonlyUsed _ = _
          rw [h1]
      · right
        have h1 : s.RequestInstr instr =
            ({ s with _requestedIp := instr._addr }).cacheController .calculation := by
          unfold CachedMem.RequestInstr; rw [if_neg hn]
        have h2 : instr._type = .Ld ∨ instr._type = .St := by
          by_contra c
          exact hn ⟨fun e => c (Or.inl e), fun e => c (Or.inr e)⟩
        obtain ⟨p, p1, p2, p3⟩ :=
          CachedMem.cacheController_queue { s with _requestedIp := instr._addr } .calculation h
        refine ⟨ToLineAddr instr._addr, p, ?_, p1, p2, ?_⟩
        · show (if cacheType.calculation = cacheType.calculation ∧
            (instr._type = .Ld ∨ instr._type = .St) then _ else none) = _
          rw [if_pos ⟨rfl, h2⟩]
        · show (s.RequestInstr instr).commonlyUsed _ = _
          rw [h1]
          exact p3

theorem touches_append (type : cacheType) (as : List Access) (a : Access) :
    touches type (as ++ [a]) = touches type as ++ (Access.tag? type a).toList := by
  unfold touches
  rw [List.filterMap_append]
  cases h : Access.tag? type a <;> simp [List.filterMap, h]

theorem CachedMem.run_ordered (mem : MemoryStorage) (as : List Access) (type : cacheType) :
    RecencyOrdered (touches type as) (((CachedMem.init mem).run as).commonlyUsed type) := by
  induction as using List.reverseRecOn with
  | nil =>
    cases type <;> exact ⟨List.Pairwise.nil, fun t h => absurd h (List.not_mem_nil _)⟩
  | append_singleton as a ih =>
    rw [CachedMem.run_append, CachedMem.access_queue, touches_append]
    rcases CachedMem.request_queue _ a type (CachedMem.run_WF mem as) with ⟨h1, h2⟩ | ⟨T, p, h1, h2, h3, h4⟩
    · rw [h1, h2]
      simpa using ih
    · rw [h1, h4]
      exact RecencyOrdered.step _ _ p T ih h2 h3

/-- C2. Strict least-recently-used eviction. In a state reached from the initial state by
accesses polled to completion, let a request of address `addr` miss in the cache of type `type`
while that cache holds more than `cacheSize` lines, so that `cacheController` evicts. The tag
`E` it evicts (the front of the queue, the only key the call removes) is resident in that
cache, has been requested, and its most recent request through that cache is older than the
most recent request of every other resident tag of that cache. -/
theorem CachedMem.lru_eviction (mem : MemoryStorage) (as : List Access) (type : cacheType)
    (addr : Word) (s r : CachedMem) (hs : s = (CachedMem.init mem).run as)
    (hr : r = ({ s with _requestedIp := addr }).cacheController type)
    (hmiss : (s.cache type).lookup (ToLineAddr addr) = none)
    (hfull : cacheSize type < (s.cache type).size) :
    ∃ E rest, s.commonlyUsed type = E :: rest ∧
      E ∈ s.cache type ∧ E ∉ r.cache type ∧
      (∀ t, t ∈ s.cache type → t ≠ E → t ∈ r.cache type) ∧
      0 < lastRequest E (touches type as) ∧
      ∀ t, t ∈ s.cache type → t ≠ E →
        lastRequest E (touches type as) < lastRequest t (touches type as) := by
  have hwf : s.WF := hs ▸ CachedMem.run_WF mem as
  have hord : RecencyOrdered (touches type as) (s.commonlyUsed type) :=
    hs ▸ CachedMem.run_ordered mem as type
  obtain ⟨E, rest, hq⟩ := CachedMem.queue_nonempty_of_overflow s type hwf hfull
  obtain ⟨hc, _, _, _⟩ :=
    CachedMem.cacheController_miss_evict { s with _requestedIp := addr } type E rest hmiss hfull hq
  rw [← hr] at hc
  have hc2 : r.cache type = fillLine (writeBack (s.cache type) E s._mem) (ToLineAddr addr)
      ((s.cache type).erase E) := hc
  have hcw := hwf type
  have hEc : E ∈ s.cache type := (hcw.mem_iff E).mp (by rw [hq]; exact List.mem_cons_self _ _)
  have hTc : ToLineAddr addr ∉ s.cache type := AList.lookup_eq_none.mp hmiss
  have hET : E ≠ ToLineAddr addr := fun e => hTc (e ▸ hEc)
  rw [hq] at hord
  refine ⟨E, rest, hq, hEc, ?_, ?_, hord.2 E (List.mem_cons_self _ _), ?_⟩
  · rw [hc2]
    unfold fillLine
    rw [fill_mem]
    rintro (h | ⟨h, _⟩)
    · exact (AList.mem_erase.mp h).1 rfl
    · exact hET h
  · intro t ht hne
    rw [hc2]
    unfold fillLine
    rw [fill_mem]
    exact Or.inl (AList.mem_erase.mpr ⟨hne, ht⟩)
  · intro t ht hne
    have htq : t ∈ E :: rest := by
      rw [← hq]; exact (hcw.mem_iff t).mpr ht
    rcases List.mem_cons.mp htq with e | hm
    · exact absurd e hne
    · exact (List.pairwise_cons.mp hord.1).1 t hm

set_option maxRecDepth 1000000 in
/-- Witness for C2: after fetches in 33 lines, the fetch in a 34th line evicts. -/
theorem CachedMem.lru_eviction_witness :
    (((CachedMem.init zeroMem).run (fetchLines 33)).cache .instruction).lookup
        (ToLineAddr (32 * 33)) = none ∧
    cacheSize .instruction < (((CachedMem.init zeroMem).run (fetchLines 33)).cache .instruction).size ∧
    ∃ E rest, ((CachedMem.init zeroMem).run (fetchLines 33)).commonlyUsed .instruction = E :: rest ∧
      E ∈ ((CachedMem.init zeroMem).run (fetchLines 33)).cache .instruction ∧
      ∀ t, t ∈ ((CachedMem.init zeroMem).run (fetchLines 33)).cache .instruction → t ≠ E →
        lastRequest E (touches .instruction (fetchLines 33)) <
          lastRequest t (touches .instruction (fetchLines 33)) := by
  have h1 : (((CachedMem.init zeroMem).run (fetchLines 33)).cache .instruction).lookup
      (ToLineAddr (32 * 33)) = none := by decide!
  have h2 : cacheSize .instruction <
      (((CachedMem.init zeroMem).run (fetchLines 33)).cache .instruction).size := by decide!
  obtain ⟨E, rest, k1, k2, _, _, _, k6⟩ :=
    CachedMem.lru_eviction zeroMem (fetchLines 33) .instruction (32 * 33) _ _ rfl rfl h1 h2
  exact ⟨h1, h2, E, rest, k1, k2, k6⟩

set_option maxRecDepth 1000000 in
/-- Witness for C7: after fetches in 33 lines, the fetch in a 34th line evicts line `0`. -/
theorem CachedMem.eviction_and_fill_witness :
    ∃ E rest, ((CachedMem.init zeroMem).run (fetchLines 33)).commonlyUsed .instruction = E :: rest ∧
      E ∉ (((CachedMem.init zeroMem).run (fetchLines 33)).Request (32 * 33)).cache .instruction ∧
      ((((CachedMem.init zeroMem).run (fetchLines 33)).Request (32 * 33)).commonlyUsed
        .instruction).getLast? = some (ToLineAddr (32 * 33)) := by
  obtain ⟨E, rest, k1, _, _, k4, _, _, k7⟩ :=
    CachedMem.eviction_and_fill zeroMem (fetchLines 33) .instruction (32 * 33) _ _ rfl rfl
      (by decide!) (by decide!)
  exact ⟨E, rest, k1, k4, k7⟩

/-! ## The ALU -/

theorem toWord_SignedWord (b : Nat) (hb : b < 2 ^ 32) : toWord (SignedWord b) = b := by
  unfold toWord SignedWord wordMod
  rw [Nat.mod_eq_of_lt hb]
  show (_ : Nat) = _
  split <;> omega

theorem SignedWord_eq (b : Nat) (hb : b < 2 ^ 32) :
    SignedWord b = if b < 2 ^ 31 then (b : Int) else (b : Int) - 2 ^ 32 := by
  unfold SignedWord wordMod
  rw [Nat.mod_eq_of_lt hb]

/-- C12. Non-shift ALU functions of `Executor::processAlu`, for 32-bit operands `a` (first
source value) and `b` (second operand): `Add` is `(a + b) mod 2^32`, `Sub` is
`(a - b) mod 2^32`, `Or`, `And`, `Xor` are the bitwise operations, `Slt` is `1` if `a < b` as
signed 32-bit integers and `0` otherwise, `Sltu` is `1` if `a < b` as unsigned integers and `0`
otherwise. -/
theorem Executor.processAlu_nonshift (instr : Instruction) (b : Word)
    (ha : instr._src1Val < 2 ^ 32) (hb : b < 2 ^ 32) :
    (instr._aluFunc = .Add →
      Executor.processAlu instr (SignedWord b) = (instr._src1Val + b) % 2 ^ 32) ∧
    (instr._aluFunc = .Sub →
      Executor.processAlu instr (SignedWord b) =
        (((instr._src1Val : Int) - (b : Int)) % 2 ^ 32).toNat) ∧
    (instr._aluFunc = .Or →
      Executor.processAlu instr (SignedWord b) = (instr._src1Val ||| b)) ∧
    (instr._aluFunc = .And →
      Executor.processAlu instr (SignedWord b) = (instr._src1Val &&& b)) ∧
    (instr._aluFunc = .Xor →
      Executor.processAlu instr (SignedWord b) = (instr._src1Val ^^^ b)) ∧
    (instr._aluFunc = .Slt →
      Executor.processAlu instr (SignedWord b) =
        (if (if instr._src1Val < 2 ^ 31 then (instr._src1Val : Int)
                else (instr._src1Val : Int) - 2 ^ 32) <
              (if b < 2 ^ 31 then (b : Int) else (b : Int) - 2 ^ 32) then 1 else 0)) ∧
    (instr._aluFunc = .Sltu →
      Executor.processAlu instr (SignedWord b) =
        (if instr._src1Val < b then 1 else 0)) := by
  have hw := toWord_SignedWord b hb
  refine ⟨?_, ?_, ?_, ?_, ?_, ?_, ?_⟩ <;> intro hf <;> unfold Executor.processAlu <;>
    simp only [hf, hw]
  · rfl
  · rfl
  · rw [SignedWord_eq _ ha, SignedWord_eq b hb]

/-- Witness for C12: `Add(5, 3) = 8`. -/
theorem Executor.processAlu_nonshift_witness :
    Executor.processAlu (aluRR .Add 5 3) (SignedWord 3) = 8 :=
  (Executor.processAlu_nonshift (aluRR .Add 5 3) 3 (by decide) (by decide)).1 rfl

theorem Executor.shiftCount_SignedWord (b : Nat) (hb : b < 2 ^ 32) :
    Executor.shiftCount (SignedWord b) = b % 32 := by
  unfold Executor.shiftCount
  have h1 : ((SignedWord b).tmod 0b100000) % 0b100000 = (SignedWord b) % 32 := by
    rw [Int.tmod_def]
    simp [Int.sub_emod, Int.mul_emod_right]
  rw [h1, SignedWord_eq b hb]
  split <;> omega

/-- C11. Shift amounts are masked to 5 bits in `Executor::processAlu`: for every 32-bit first
operand `a` and every 32-bit second operand `b`, also with the top bit set, `Sll` yields
`(a << (b mod 32)) mod 2^32`, `Srl` yields the logical right shift `a >> (b mod 32)`, and `Sra`
yields the arithmetic right shift by `b mod 32` of `a` read as a signed 32-bit integer (floor
of the quotient by `2^(b mod 32)`, so the sign is kept), as a word; for instance
`Sll(1, 35) = 8`, `Sra(0xFFFFFFF8, 1) = 0xFFFFFFFC`, and with the top bit set
`Sll(1, 0x80000001) = 2`, `Srl(1, 0x80000001) = 0`, `Sra(0xFFFFFFF8, 0x80000001) = 0xFFFFFFFC`. -/
theorem Executor.processAlu_shift (instr : Instruction) (b : Word)
    (ha : instr._src1Val < 2 ^ 32) (hb : b < 2 ^ 32) :
    (instr._aluFunc = .Sll →
      Executor.processAlu instr (SignedWord b) = (instr._src1Val <<< (b % 32)) % 2 ^ 32) ∧
    (instr._aluFunc = .Srl →
      Executor.processAlu instr (SignedWord b) = instr._src1Val >>> (b % 32)) ∧
    (instr._aluFunc = .Sra →
      Executor.processAlu instr (SignedWord b) =
        ((if instr._src1Val < 2 ^ 31 then (instr._src1Val : Int)
          else (instr._src1Val : Int) - 2 ^ 32) / 2 ^ (b % 32) % 2 ^ 32).toNat) ∧
    Executor.processAlu (aluRR .Sll 1 35) (SignedWord 35) = 8 ∧
    Executor.processAlu (aluRR .Sra 0xFFFFFFF8 1) (SignedWord 1) = 0xFFFFFFFC ∧
    Executor.processAlu (aluRR .Sll 1 0x80000001) (SignedWord 0x80000001) = 2 ∧
    Executor.processAlu (aluRR .Srl 1 0x80000001) (SignedWord 0x80000001) = 0 ∧
    Executor.processAlu (aluRR .Sra 0xFFFFFFF8 0x80000001) (SignedWord 0x80000001) =
      0xFFFFFFFC := by
  have hc := Executor.shiftCount_SignedWord b hb
  refine ⟨?_, ?_, ?_, by decide, by decide, by decide, by decide, by decide⟩ <;> intro hf <;>
    unfold Executor.processAlu <;> simp only [hf, hc, wordMod]
  rw [SignedWord_eq _ ha]
  unfold toWord
  rw [Int.shiftRight_eq_div_pow]
  push_cast
  rfl

/-- Witness for C11: `Sll` of `1` by `0x80000001`, whose low five bits are `1`. -/
theorem Executor.processAlu_shift_witness :
    Executor.processAlu (aluRR .Sll 1 0x80000001) (SignedWord 0x80000001) =
      (1 <<< (0x80000001 % 32)) % 2 ^ 32 :=
  (Executor.processAlu_shift (aluRR .Sll 1 0x80000001) 0x80000001 (by decide) (by decide)).1 rfl

/-! ## Non-memory operations -/

/-- C14. Non-memory operations bypass the operand channel in both models: for a record that
is neither load nor store and any memory state, `Request(instr)` leaves the state unchanged and
`Response(instr)` returns `true` with record and state unchanged. -/
theorem nonmemory_bypass (s : CachedMem) (u : UncachedMem) (instr : Instruction)
    (h : instr._type ≠ .Ld ∧ instr._type ≠ .St) :
    s.RequestInstr instr = s ∧ s.ResponseInstr instr = (true, instr, s) ∧
    u.RequestInstr instr = u ∧ u.ResponseInstr instr = (true, instr, u) := by
  unfold CachedMem.RequestInstr CachedMem.ResponseInstr UncachedMem.RequestInstr
    UncachedMem.ResponseInstr
  rw [if_pos h, if_pos h, if_pos h, if_pos h]
  exact ⟨rfl, rfl, rfl, rfl⟩

/-- Witness for C14: a branch record while a fetch is outstanding (countdown 128). -/
theorem nonmemory_bypass_witness :
    ((CachedMem.init zeroMem).Request 0x200).ResponseInstr (branchEq 1 2 8) =
      (true, branchEq 1 2 8, (CachedMem.init zeroMem).Request 0x200) ∧
    ((UncachedMem.init zeroMem).Request 0x200).RequestInstr (branchEq 1 2 8) =
      (UncachedMem.init zeroMem).Request 0x200 :=
  ⟨(nonmemory_bypass ((CachedMem.init zeroMem).Request 0x200)
      ((UncachedMem.init zeroMem).Request 0x200) (branchEq 1 2 8) (by decide)).2.1,
   (nonmemory_bypass ((CachedMem.init zeroMem).Request 0x200)
      ((UncachedMem.init zeroMem).Request 0x200) (branchEq 1 2 8) (by decide)).2.2.1⟩

/-! ## Invariants of the reachable states -/

theorem CachedMem.steps_WF (mem : MemoryStorage) (l : List Step) :
    ((CachedMem.init mem).steps l).WF := by
  induction l using List.reverseRecOn with
  | nil => exact CachedMem.WF_init mem
  | append_singleton l a ih =>
    unfold CachedMem.steps at ih ⊢
    rw [List.foldl_append]
    cases a with
    | issue a => exact CachedMem.request_WF _ a ih
    | complete a => exact CachedMem.access_WF _ a ih

/-- C17. The recency queues of `CachedMem` hold no duplicates: in every state reached from the
initial state by requests (each either left outstanding or polled to completion), hits and
misses alike, `_commonlyUsedInstructions` and `_commonlyUsedCalculations` contain every tag at
most once. -/
theorem CachedMem.queues_nodup (mem : MemoryStorage) (l : List Step) :
    ((CachedMem.init mem).steps l)._commonlyUsedInstructions.Nodup ∧
    ((CachedMem.init mem).steps l)._commonlyUsedCalculations.Nodup :=
  ⟨(CachedMem.steps_WF mem l .instruction).nodup, (CachedMem.steps_WF mem l .calculation).nodup⟩

/-- C16, counterexample. A poll without a request creates a partial line: `Response()` in the
initial state inserts line `0` into the fetch-path cache with the single word at offset `0`;
so does the fetch poll after a fetch request at `0` followed by a load request at `64`, for
line `64`. -/
theorem CachedMem.partial_line_by_stray_poll :
    ((CachedMem.init zeroMem).Response.2._cacheInstructions.lookup 0).map AList.keys = some [0] ∧
    (((((CachedMem.init zeroMem).Request 0).RequestInstr (loadAt 64)).Response.2._cacheInstructions.lookup
      64).map AList.keys) = some [0] := by
  decide

theorem keys_length_of_full (line : CacheLine) (h : ∀ i, i ∈ line ↔ i < lineSizeWords) :
    line.keys.length = lineSizeWords := by
  have hp : List.Perm line.keys (List.range lineSizeWords) := by
    apply (List.perm_ext_iff_of_nodup line.keys_nodup (List.nodup_range _)).mpr
    intro i
    rw [← AList.mem_keys, h i, List.mem_range]
  rw [hp.length_eq, List.length_range]

/-- C16, as the code has it. In every state reached from the initial state by requests, each
either left outstanding or polled to completion by its own poll, every resident line of either
cache holds exactly `lineSizeWords = 8` words, at offsets `0` to `7`. -/
theorem CachedMem.full_lines (mem : MemoryStorage) (l : List Step) (type : cacheType) (t : Word)
    (h : t ∈ ((CachedMem.init mem).steps l).cache type) :
    ∃ line, (((CachedMem.init mem).steps l).cache type).lookup t = some line ∧
      (∀ i, i ∈ line ↔ i < 8) ∧ line.keys.length = 8 := by
  obtain ⟨line, hline⟩ := Option.isSome_iff_exists.mp (AList.lookup_isSome.mpr h)
  have hf := (CachedMem.steps_WF mem l type).full t line hline
  exact ⟨line, hline, hf, keys_length_of_full line hf⟩

/-- Witness for C16 as the code has it: the line of `0x200` after a fetch at `0x204`. -/
theorem CachedMem.full_lines_witness :
    ∃ line, (((CachedMem.init zeroMem).steps [.complete (.fetch 0x204)]).cache
        .instruction).lookup 0x200 = some line ∧
      (∀ i, i ∈ line ↔ i < 8) ∧ line.keys.length = 8 :=
  CachedMem.full_lines zeroMem [.complete (.fetch 0x204)] .instruction 0x200 (by decide)

theorem lastRequestAux_not_mem (t : Word) (h : List Word) (i r : Nat) (hn : t ∉ h) :
    lastRequestAux t h i r = r := by
  induction h generalizing i r with
  | nil => rfl
  | cons x rest ih =>
    have hx : x ≠ t := fun e => hn (e ▸ List.mem_cons_self _ _)
    show lastRequestAux t rest (i + 1) (if x = t then i else r) = r
    rw [if_neg hx, ih _ _ (fun m => hn (List.mem_cons_of_mem _ m))]

theorem mem_of_lastRequest_pos (t : Word) (h : List Word) (hp : 0 < lastRequest t h) :
    t ∈ h := by
  by_contra hn
  unfold lastRequest at hp
  rw [lastRequestAux_not_mem t h 1 0 hn] at hp
  exact Nat.lt_irrefl 0 hp

/-- C15, counterexample. After a fetch at address `0` and a load at address `0`, each polled
to completion, the tag `0` is in the fetch-path recency queue and in the operand-path recency
queue. -/
theorem CachedMem.tag_in_both_queues :
    (0 : Word) ∈ ((CachedMem.init zeroMem).run
        [.fetch 0, .operand (loadAt 0)])._commonlyUsedInstructions ∧
    (0 : Word) ∈ ((CachedMem.init zeroMem).run
        [.fetch 0, .operand (loadAt 0)])._commonlyUsedCalculations := by
  decide

/-- C15, as the code has it. In every state reached from the initial state by accesses polled
to completion, a tag is in the recency queue of a cache only if it was requested through the
path of that cache; so when no line is both fetched and loaded or stored, no tag is in both
recency queues. -/
theorem CachedMem.queues_disjoint (mem : MemoryStorage) (as : List Access) :
    (∀ type t, t ∈ ((CachedMem.init mem).run as).commonlyUsed type → t ∈ touches type as) ∧
    ((∀ t, t ∈ touches .instruction as → t ∉ touches .calculation as) →
      ∀ t, ¬ (t ∈ ((CachedMem.init mem).run as)._commonlyUsedInstructions ∧
        t ∈ ((CachedMem.init mem).run as)._commonlyUsedCalculations)) := by
  have h1 : ∀ type t, t ∈ ((CachedMem.init mem).run as).commonlyUsed type →
      t ∈ touches type as := by
    intro type t ht
    exact mem_of_lastRequest_pos t _ ((CachedMem.run_ordered mem as type).2 t ht)
  refine ⟨h1, ?_⟩
  rintro hd t ⟨hi, hc⟩
  exact hd t (h1 .instruction t hi) (h1 .calculation t hc)

/-- Witness for C15 as the code has it: a fetch in line `0` and a load in line `32`. -/
theorem CachedMem.queues_disjoint_witness :
    ((CachedMem.init zeroMem).run
        [.fetch 0, .operand (loadAt 32)])._commonlyUsedInstructions = [0] ∧
    ((CachedMem.init zeroMem).run
        [.fetch 0, .operand (loadAt 32)])._commonlyUsedCalculations = [32] ∧
    List.Disjoint
      ((CachedMem.init zeroMem).run
        [.fetch 0, .operand (loadAt 32)])._commonlyUsedInstructions
      ((CachedMem.init zeroMem).run
        [.fetch 0, .operand (loadAt 32)])._commonlyUsedCalculations :=
  ⟨by decide, by decide, fun t hi hc =>
    (CachedMem.queues_disjoint zeroMem [.fetch 0, .operand (loadAt 32)]).2 (by decide) t
      ⟨hi, hc⟩⟩

/-! ## The operand path against the uncached model -/

theorem idx_in_line (E idx : Nat) (hE : E % 32 = 0) :
    (E / 4 ≤ idx ∧ idx - E / 4 < 8) ↔ idx / 8 * 32 = E := by
  omega

theorem idx_of_line (idx : Nat) :
    (idx / 8 * 32) % 32 = 0 ∧ idx / 8 * 32 / 4 + idx % 8 = idx ∧
      idx - idx / 8 * 32 / 4 = idx % 8 := by
  omega

theorem line_of_word_in_line (T k : Nat) (hT : T % 32 = 0) (hk : k < 8) :
    (T + 4 * k) / 4 / 8 * 32 = T := by
  omega

theorem word_of_line (idx : Nat) : (idx / 8 * 32 + 4 * (idx % 8)) / 4 = idx := by
  omega

theorem addr_parts (A : Nat) (hA : A < 2 ^ 32) :
    ToLineAddr A = A / 4 / 8 * 32 ∧ ToLineOffset A = A / 4 % 8 ∧ ToWordAddr A = A / 4 := by
  rw [ToLineAddr_eq, ToLineOffset_eq, ToWordAddr_eq]
  unfold Word
  omega

theorem InRange_lt (A : Nat) (h : InRange A) : A < 2 ^ 32 := by
  unfold InRange at h
  rw [ToWordAddr_eq] at h
  have : memSize = 1048576 := rfl
  unfold Word at h
  omega

theorem CachedMem.dataView_congr (s r : CachedMem)
    (hc : r._cacheCalculations = s._cacheCalculations) (hm : r._mem = s._mem) (idx : Nat) :
    r.dataView idx = s.dataView idx := by
  unfold CachedMem.dataView
  rw [hc, hm]

/-- A request through the operand path leaves the view of the operand path unchanged. -/
theorem CachedMem.cacheController_dataView (s : CachedMem) (h : s.WF) (idx : Nat) :
    (s.cacheController .calculation).dataView idx = s.dataView idx := by
  have hal := ToLineAddr_aligned s._requestedIp
  obtain ⟨hi32, hi4, hisub⟩ := idx_of_line idx
  have hrange : ∀ i ∈ List.range lineSizeWords, i < 8 := fun i hi => List.mem_range.mp hi
  cases hl : (s.cache .calculation).lookup (ToLineAddr s._requestedIp) with
  | some line =>
    have hres : ToLineAddr s._requestedIp ∈ s.cache .calculation :=
      AList.lookup_isSome.mp (by rw [hl]; rfl)
    obtain ⟨_, _, _, hcc, hm, _⟩ := CachedMem.cacheController_hit_state s .calculation hres
    exact CachedMem.dataView_congr _ _ hcc hm idx
  | none =>
    by_cases hsz : cacheSize .calculation < (s.cache .calculation).size
    · obtain ⟨E, rest, hq⟩ := CachedMem.queue_nonempty_of_overflow s .calculation h hsz
      obtain ⟨hc, _, hm, _⟩ :=
        CachedMem.cacheController_miss_evict s .calculation E rest hl hsz hq
      have hcw := h .calculation
      rw [hq] at hcw
      obtain ⟨hE32, hElt⟩ := hcw.aligned E (List.mem_cons_self _ _)
      have hEc : E ∈ s.cache .calculation := (hcw.mem_iff E).mp (List.mem_cons_self _ _)
      obtain ⟨lineE, hlineE⟩ := Option.isSome_iff_exists.mp (AList.lookup_isSome.mpr hEc)
      have hET : E ≠ ToLineAddr s._requestedIp := fun e =>
        (AList.lookup_eq_none.mp hl) (e ▸ hEc)
      have hmem : ∀ j, (s.cacheController .calculation)._mem._mem j =
          if E / 4 ≤ j ∧ j - E / 4 ∈ List.range lineSizeWords then
            (s.cache .calculation).word E (j - E / 4) else s._mem._mem j := by
        intro j
        rw [hm]
        exact writeBack_mem _ E hE32 hElt _ hrange s._mem j
      have hc2 : (s.cacheController .calculation)._cacheCalculations =
          fillLine (writeBack (s.cache .calculation) E s._mem) (ToLineAddr s._requestedIp)
            ((s.cache .calculation).erase E) := hc
      have hl2 : s._cacheCalculations.lookup (ToLineAddr s._requestedIp) = none := hl
      have hlineE2 : s._cacheCalculations.lookup E = some lineE := hlineE
      unfold CachedMem.dataView
      by_cases hT : idx / 8 * 32 = ToLineAddr s._requestedIp
      · -- the requested line
        have hfl := fill_line (writeBack (s.cache .calculation) E s._mem)
          (ToLineAddr s._requestedIp) hal.1 hal.2 (List.range lineSizeWords) hrange
          ((s.cache .calculation).erase E) (idx % 8)
        rw [if_pos (List.mem_range.mpr (Nat.mod_lt _ (by decide)) :
          idx % 8 ∈ List.range lineSizeWords)] at hfl
        have hTr : ToLineAddr s._requestedIp ∈ (s.cacheController .calculation)._cacheCalculations := by
          rw [hc2]; unfold fillLine; rw [fill_mem]; exact Or.inr ⟨rfl, by decide⟩
        obtain ⟨line, hline⟩ := Option.isSome_iff_exists.mp (AList.lookup_isSome.mpr hTr)
        have hle := CacheMap.line_of_lookup _ _ _ hline
        rw [hc2] at hle
        unfold fillLine at hle
        rw [hle] at hfl
        rw [hT, hline, hl2]
        show (AList.lookup (idx % 8) line).getD 0 = s._mem._mem idx
        rw [hfl, Option.getD_some]
        unfold MemoryStorage.Read
        rw [ToWordAddr_eq, ← hm, hmem, if_neg]
        · show s._mem._mem ((ToLineAddr s._requestedIp + 4 * (idx % 8)) / 4) = s._mem._mem idx
          congr 1
          rw [← hT]
          exact word_of_line idx
        · rintro ⟨h1, h2⟩
          have h3 := (idx_in_line E _ hE32).mp ⟨h1, List.mem_range.mp h2⟩
          have h4 := line_of_word_in_line (ToLineAddr s._requestedIp) (idx % 8) hal.1
            (Nat.mod_lt _ (by decide))
          exact hET (h3.symm.trans h4)
      · by_cases hEi : idx / 8 * 32 = E
        · -- the evicted line
          have hlk : (s.cacheController .calculation)._cacheCalculations.lookup (idx / 8 * 32) =
              none := by
            rw [hc2]
            unfold fillLine
            rw [fill_lookup_other _ _ _ hT, hEi, AList.lookup_erase]
          rw [hlk, hEi, hlineE2]
          show (s.cacheController .calculation)._mem._mem idx = _
          have hin := (idx_in_line E idx hE32).mpr hEi
          rw [hmem, if_pos ⟨hin.1, List.mem_range.mpr hin.2⟩]
          unfold CacheMap.word
          rw [CacheMap.line_of_lookup _ _ _ hlineE]
          congr 2
          rw [← hEi]
          exact hisub
        · -- any other line
          have hlk : (s.cacheController .calculation)._cacheCalculations.lookup (idx / 8 * 32) =
              s._cacheCalculations.lookup (idx / 8 * 32) := by
            rw [hc2]
            unfold fillLine
            rw [fill_lookup_other _ _ _ hT, AList.lookup_erase_ne hEi]
            rfl
          rw [hlk]
          cases s._cacheCalculations.lookup (idx / 8 * 32) with
          | some line => rfl
          | none =>
            show (s.cacheController .calculation)._mem._mem idx = s._mem._mem idx
            rw [hmem, if_neg]
            rintro ⟨h1, h2⟩
            exact hEi ((idx_in_line E idx hE32).mp ⟨h1, List.mem_range.mp h2⟩)
    · obtain ⟨hc, _, hm, _⟩ := CachedMem.cacheController_miss_keep s .calculation hl hsz
      have hc2 : (s.cacheController .calculation)._cacheCalculations =
          fillLine s._mem (ToLineAddr s._requestedIp) (s.cache .calculation) := hc
      have hl2 : s._cacheCalculations.lookup (ToLineAddr s._requestedIp) = none := hl
      unfold CachedMem.dataView
      by_cases hT : idx / 8 * 32 = ToLineAddr s._requestedIp
      · have hfl := fill_line s._mem (ToLineAddr s._requestedIp) hal.1 hal.2
          (List.range lineSizeWords) hrange (s.cache .calculation) (idx % 8)
        rw [if_pos (List.mem_range.mpr (Nat.mod_lt _ (by decide)) :
          idx % 8 ∈ List.range lineSizeWords)] at hfl
        have hTr : ToLineAddr s._requestedIp ∈ (s.cacheController .calculation)._cacheCalculations := by
          rw [hc2]; unfold fillLine; rw [fill_mem]; exact Or.inr ⟨rfl, by decide⟩
        obtain ⟨line, hline⟩ := Option.isSome_iff_exists.mp (AList.lookup_isSome.mpr hTr)
        have hle := CacheMap.line_of_lookup _ _ _ hline
        rw [hc2] at hle
        unfold fillLine at hle
        rw [hle] at hfl
        rw [hT, hline, hl2]
        show (AList.lookup (idx % 8) line).getD 0 = s._mem._mem idx
        rw [hfl, Option.getD_some]
        unfold MemoryStorage.Read
        rw [ToWordAddr_eq]
        show s._mem._mem ((ToLineAddr s._requestedIp + 4 * (idx % 8)) / 4) = s._mem._mem idx
        congr 1
        rw [← hT]
        exact word_of_line idx
      · have hlk : (s.cacheController .calculation)._cacheCalculations.lookup (idx / 8 * 32) =
            s._cacheCalculations.lookup (idx / 8 * 32) := by
          rw [hc2]
          unfold fillLine
          rw [fill_lookup_other _ _ _ hT]
          rfl
        rw [hlk, hm]

theorem not_nonmemory (instr : Instruction) (h : instr._type = .Ld ∨ instr._type = .St) :
    ¬ (instr._type ≠ .Ld ∧ instr._type ≠ .St) := by
  rintro ⟨h1, h2⟩
  rcases h with h | h
  · exact h1 h
  · exact h2 h

theorem CachedMem.operand_result (s : CachedMem) (instr : Instruction) (h : s.WF)
    (hty : instr._type = .Ld ∨ instr._type = .St) :
    (s.operand instr).1 = true ∧
    (s.operand instr).2.2._mem = (s.RequestInstr instr)._mem ∧
    (instr._type = .Ld →
      (s.operand instr).2.1 = { instr with _data := (CacheMap.word
        (s.RequestInstr instr)._cacheCalculations (ToLineAddr instr._addr)
        (ToLineOffset instr._addr)) } ∧
      (s.operand instr).2.2._cacheCalculations = (s.RequestInstr instr)._cacheCalculations) ∧
    (instr._type = .St →
      (s.operand instr).2.1 = instr ∧
      (s.operand instr).2.2._cacheCalculations =
        (s.RequestInstr instr)._cacheCalculations.assign (ToLineAddr instr._addr)
          (ToLineOffset instr._addr) instr._data) := by
  have hn := not_nonmemory instr hty
  have h1 : s.RequestInstr instr =
      ({ s with _requestedIp := instr._addr }).cacheController .calculation := by
    unfold CachedMem.RequestInstr; rw [if_neg hn]
  obtain ⟨hwf, hres⟩ :=
    CachedMem.cacheController_WF { s with _requestedIp := instr._addr } .calculation h
  rw [← h1] at hwf hres
  have hip : (s.RequestInstr instr)._requestedIp = instr._addr := by
    rw [h1]
    exact CachedMem.cacheController_requestedIp { s with _requestedIp := instr._addr } _
  obtain ⟨k1, k2, k3, k4, k5, k6, k7⟩ :=
    CachedMem.Clock_iterate (s.RequestInstr instr)._waitCycles (s.RequestInstr instr)
  have hw : (CachedMem.Clock^[(s.RequestInstr instr)._waitCycles]
      (s.RequestInstr instr))._waitCycles = 0 := by
    rw [k1]; omega
  have hres2 : ToLineAddr instr._addr ∈ (s.RequestInstr instr)._cacheCalculations := hres
  have ht : (s.RequestInstr instr)._cacheCalculations.touch (ToLineAddr instr._addr)
      (ToLineOffset instr._addr) = (s.RequestInstr instr)._cacheCalculations :=
    CacheMap.touch_resident _ _ _ _ (hwf .calculation) hres2 (ToLineOffset_lt _)
  unfold CachedMem.operand
  simp only
  unfold CachedMem.ResponseInstr
  rw [if_neg hn, if_neg (by rw [hw]; simp)]
  simp only [k2, k3, k4, k5, k6, k7, hip, ht]
  rcases hty with hty | hty
  · simp [hty]
  · simp [hty]

theorem UncachedMem.uncached_operand_result (u : UncachedMem) (instr : Instruction)
    (hty : instr._type = .Ld ∨ instr._type = .St) :
    (u.operand instr).1 = true ∧
    (instr._type = .Ld →
      (u.operand instr).2.1 = { instr with _data := u._mem.Read instr._addr } ∧
      (u.operand instr).2.2._mem = u._mem) ∧
    (instr._type = .St →
      (u.operand instr).2.1 = instr ∧
      (u.operand instr).2.2._mem = u._mem.Write instr._addr instr._data) := by
  have hn := not_nonmemory instr hty
  have h1 : u.RequestInstr instr = u.Request instr._addr := by
    unfold UncachedMem.RequestInstr; rw [if_neg hn]
  obtain ⟨k1, k2, k3⟩ := UncachedMem.uncached_Clock_iterate (u.RequestInstr instr)._waitCycles
    (u.RequestInstr instr)
  have hw : (UncachedMem.Clock^[(u.RequestInstr instr)._waitCycles]
      (u.RequestInstr instr))._waitCycles = 0 := by
    rw [k1]; omega
  have hm : (u.RequestInstr instr)._mem = u._mem := by rw [h1]; rfl
  unfold UncachedMem.operand
  simp only
  unfold UncachedMem.ResponseInstr
  rw [if_neg hn, if_neg (by rw [hw]; simp)]
  rcases hty with hty | hty
  · simp [hty, k3, hm]
  · simp [hty, k3, hm]

theorem CachedMem.word_eq_dataView (s : CachedMem) (A : Nat) (hA : A < 2 ^ 32)
    (hres : ToLineAddr A ∈ s._cacheCalculations) :
    s._cacheCalculations.word (ToLineAddr A) (ToLineOffset A) = s.dataView (A / 4) := by
  obtain ⟨e1, e2, _⟩ := addr_parts A hA
  obtain ⟨line, hline⟩ := Option.isSome_iff_exists.mp (AList.lookup_isSome.mpr hres)
  unfold CachedMem.dataView CacheMap.word
  rw [CacheMap.line_of_lookup _ _ _ hline, ← e1, ← e2, hline]

theorem CachedMem.assign_dataView (s r : CachedMem) (A : Nat) (v : Word) (hA : A < 2 ^ 32)
    (hres : ToLineAddr A ∈ s._cacheCalculations)
    (hc : r._cacheCalculations = s._cacheCalculations.assign (ToLineAddr A) (ToLineOffset A) v)
    (hm : r._mem = s._mem) (idx : Nat) :
    r.dataView idx = if idx = A / 4 then v else s.dataView idx := by
  obtain ⟨e1, e2, _⟩ := addr_parts A hA
  obtain ⟨line, hline⟩ := Option.isSome_iff_exists.mp (AList.lookup_isSome.mpr hres)
  unfold CachedMem.dataView
  rw [hc, hm, CacheMap.lookup_assign]
  by_cases hT : idx / 8 * 32 = ToLineAddr A
  · rw [if_pos hT, hT, hline, CacheMap.line_of_lookup _ _ _ hline]
    show ((line.insert (ToLineOffset A) v).lookup (idx % 8)).getD 0 = _
    rw [CacheLine.lookup_insert]
    by_cases ho : idx % 8 = ToLineOffset A
    · have : idx = A / 4 := by
        rw [e1] at hT; rw [e2] at ho
        omega
      rw [if_pos ho, if_pos this]
      rfl
    · have : idx ≠ A / 4 := by
        intro e; apply ho; rw [e2, e]
      rw [if_neg ho, if_neg this]
  · have : idx ≠ A / 4 := by
      intro e; apply hT; rw [e1, e]
    rw [if_neg hT, if_neg this]

theorem operand_step (s : CachedMem) (u : UncachedMem) (instr : Instruction) (h : s.WF)
    (hv : ∀ idx, s.dataView idx = u._mem._mem idx)
    (hty : instr._type = .Ld ∨ instr._type = .St) (hin : InRange instr._addr) :
    (s.operand instr).1 = (u.operand instr).1 ∧ (s.operand instr).2.1 = (u.operand instr).2.1 ∧
    (s.operand instr).2.2.WF ∧
    ∀ idx, (s.operand instr).2.2.dataView idx = (u.operand instr).2.2._mem._mem idx := by
  have hA := InRange_lt instr._addr hin
  have hn := not_nonmemory instr hty
  have h1 : s.RequestInstr instr =
      ({ s with _requestedIp := instr._addr }).cacheController .calculation := by
    unfold CachedMem.RequestInstr; rw [if_neg hn]
  obtain ⟨hwf1, hres⟩ :=
    CachedMem.cacheController_WF { s with _requestedIp := instr._addr } .calculation h
  have hview1 : ∀ idx, (s.RequestInstr instr).dataView idx = s.dataView idx := by
    intro idx
    rw [h1, CachedMem.cacheController_dataView { s with _requestedIp := instr._addr } h idx]
    rfl
  rw [← h1] at hres
  have hres2 : ToLineAddr instr._addr ∈ (s.RequestInstr instr)._cacheCalculations := hres
  obtain ⟨c1, c2, c3, c4⟩ := CachedMem.operand_result s instr h hty
  obtain ⟨u1, u3, u4⟩ := UncachedMem.uncached_operand_result u instr hty
  refine ⟨by rw [c1, u1], ?_, CachedMem.operand_WF s instr h, ?_⟩
  · rcases hty with hty | hty
    · rw [(c3 hty).1, (u3 hty).1, CachedMem.word_eq_dataView _ _ hA hres2, hview1, hv]
      unfold MemoryStorage.Read
      rw [ToWordAddr_eq]
    · rw [(c4 hty).1, (u4 hty).1]
  · intro idx
    rcases hty with hty | hty
    · rw [CachedMem.dataView_congr _ _ (c3 hty).2 c2, hview1, hv, (u3 hty).2]
    · rw [CachedMem.assign_dataView _ _ instr._addr instr._data hA hres2 (c4 hty).2 c2,
        hview1, hv, (u4 hty).2]
      unfold MemoryStorage.Write
      show _ = Function.update u._mem._mem (ToWordAddr instr._addr) instr._data idx
      rw [ToWordAddr_eq]
      by_cases e : idx = instr._addr / 4
      · subst e; simp
      · simp [e, Function.update_noteq e]

theorem operands_eq (instrs : List Instruction) (s : CachedMem) (u : UncachedMem) (h : s.WF)
    (hv : ∀ idx, s.dataView idx = u._mem._mem idx)
    (hall : ∀ i ∈ instrs, (i._type = .Ld ∨ i._type = .St) ∧ InRange i._addr) :
    s.operands instrs = u.operands instrs := by
  induction instrs generalizing s u with
  | nil => rfl
  | cons i rest ih =>
    obtain ⟨hty, hin⟩ := hall i (List.mem_cons_self _ _)
    obtain ⟨e1, e2, e3, e4⟩ := operand_step s u i h hv hty hin
    show (_, _) :: CachedMem.operands _ rest = (_, _) :: UncachedMem.operands _ rest
    rw [e1, e2, ih _ _ e3 e4 (fun j hj => hall j (List.mem_cons_of_mem _ hj))]

/-- Operand-path data equivalence of the two memory models, in the states the requests leave
when they return. For every initial backing store and every sequence of loads and stores at
in-range addresses, each requested by `Request(instr)` and polled to completion by
`Response(instr)` before the next, the outcomes through `CachedMem` equal the outcomes through
`UncachedMem`: every poll completes, every load leaves the same `_data` in its record (every
record is the same), whatever evictions occur. -/
theorem operand_equivalence (mem : MemoryStorage) (instrs : List Instruction)
    (hall : ∀ i ∈ instrs, (i._type = .Ld ∨ i._type = .St) ∧ InRange i._addr) :
    (CachedMem.init mem).operands instrs = (UncachedMem.init mem).operands instrs ∧
    ∀ o ∈ (CachedMem.init mem).operands instrs, o.1 = true := by
  have heq := operands_eq instrs (CachedMem.init mem) (UncachedMem.init mem)
    (CachedMem.WF_init mem) (fun idx => rfl) hall
  refine ⟨heq, ?_⟩
  rw [heq]
  clear heq
  generalize UncachedMem.init mem = u
  induction instrs generalizing u with
  | nil => intro o ho; exact absurd ho (List.not_mem_nil _)
  | cons i rest ih =>
    intro o ho
    rcases List.mem_cons.mp ho with e | hm
    · rw [e]
      exact (UncachedMem.uncached_operand_result u i (hall i (List.mem_cons_self _ _)).1).1
    · exact ih (fun j hj => hall j (List.mem_cons_of_mem _ hj)) _ o hm

/-- An instance of the equivalence: a store of `7` at address `0x100` followed by a load of
it. -/
theorem operand_equivalence_witness :
    (CachedMem.init zeroMem).operands [storeAt 0x100 7, loadAt 0x100] =
      (UncachedMem.init zeroMem).operands [storeAt 0x100 7, loadAt 0x100] :=
  (operand_equivalence zeroMem [storeAt 0x100 7, loadAt 0x100] (by decide)).1

/-! ## The pipeline controller -/

theorem Cpu.issueFetch_idle {M R C : Type} (mem : IMem M) (c : Cpu M R C)
    (h : c.isBusy = false) :
    c.issueFetch mem =
      ({ c with _mem := mem.Request c._mem c._ip, isBusy := true, isReading := true },
        [.requestIp c._ip c._mem]) := by
  unfold Cpu.issueFetch
  rw [if_pos h]

theorem Cpu.issueFetch_busy {M R C : Type} (mem : IMem M) (c : Cpu M R C)
    (h : c.isBusy = true) : c.issueFetch mem = (c, []) := by
  unfold Cpu.issueFetch
  rw [if_neg (by rw [h]; simp)]

theorem Cpu.waitFetch_cases {M R C : Type} (env : Collaborators R C) (mem : IMem M)
    (c : Cpu M R C) (x : Cpu M R C × List (MemCall M)) (h : c.waitFetch env mem = some x) :
    ((mem.Response c._mem).1 = none ∧
      x = ({ c with _mem := (mem.Response c._mem).2 }, [.pollFetch none])) ∨
    (∃ w instr, (mem.Response c._mem).1 = some w ∧
      Executor.Execute (env.csrfRead c._csrf (env.rfRead c._rf (env.Decode w))) c._ip =
        .returned instr ∧
      x = ({ c with currentInstruction := some instr,
                    executedInstructions := wrapInt (c.executedInstructions + 1),
                    _mem := mem.RequestInstr (mem.Response c._mem).2 instr,
                    isReading := false },
        [.pollFetch (some w), .requestInstr instr (mem.Response c._mem).2])) := by
  unfold Cpu.waitFetch at h
  cases hr : (mem.Response c._mem).1 with
  | none =>
    left
    simp only [hr] at h
    exact ⟨rfl, (Option.some.inj h).symm⟩
  | some w =>
    right
    simp only [hr] at h
    cases he : Executor.Execute (env.csrfRead c._csrf (env.rfRead c._rf (env.Decode w))) c._ip with
    | returned instr =>
      simp only [he] at h
      exact ⟨w, instr, rfl, he, (Option.some.inj h).symm⟩
    | badOptionalAccess i => simp [he] at h

theorem Cpu.waitOperand_cases {M R C : Type} (env : Collaborators R C) (mem : IMem M)
    (c : Cpu M R C) (x : Cpu M R C × List (MemCall M)) (hread : c.isReading = false)
    (h : c.waitOperand env mem = some x) :
    ∃ instr, c.currentInstruction = some instr ∧
      (((mem.ResponseInstr c._mem instr).1 = true ∧
        x = ({ c with _mem := (mem.ResponseInstr c._mem instr).2.2,
                      currentInstruction := some (mem.ResponseInstr c._mem instr).2.1,
                      _rf := env.rfWrite c._rf (mem.ResponseInstr c._mem instr).2.1,
                      _csrf := env.csrfInstructionExecuted
                        (env.csrfWrite c._csrf (mem.ResponseInstr c._mem instr).2.1),
                      _ip := (mem.ResponseInstr c._mem instr).2.1._nextIp,
                      isBusy := false, isReading := false },
          [.pollOperand true])) ∨
      ((mem.ResponseInstr c._mem instr).1 = false ∧
        x = ({ c with _mem := (mem.ResponseInstr c._mem instr).2.2,
                      currentInstruction := some (mem.ResponseInstr c._mem instr).2.1 },
          [.pollOperand false]))) := by
  unfold Cpu.waitOperand at h
  cases hc : c.currentInstruction with
  | none => simp [hc] at h
  | some instr =>
    refine ⟨instr, rfl, ?_⟩
    simp only [hc] at h
    cases hf : (mem.ResponseInstr c._mem instr).1 with
    | true =>
      left
      rw [if_pos ⟨hf, hread⟩] at h
      refine ⟨rfl, ?_⟩
      rw [← Option.some.inj h, hf]
    | false =>
      right
      rw [if_neg (by rw [hf]; simp)] at h
      refine ⟨rfl, ?_⟩
      rw [← Option.some.inj h, hf]

theorem Cpu.ClockLog_cases {M R C : Type} (env : Collaborators R C) (mem : IMem M)
    (c c2 : Cpu M R C) (log : List (MemCall M)) (h : Cpu.ClockLog env mem c = some (c2, log)) :
    ∃ x, c2 = x.1 ∧
      log = ((c.countClock env).issueFetch mem).2 ++ x.2 ∧
      ((((c.countClock env).issueFetch mem).1.isReading = true ∧
        ((c.countClock env).issueFetch mem).1.waitFetch env mem = some x) ∨
      (((c.countClock env).issueFetch mem).1.isReading = false ∧
        ((c.countClock env).issueFetch mem).1.waitOperand env mem = some x)) := by
  unfold Cpu.ClockLog at h
  simp only at h
  split at h
  · rename_i hr
    obtain ⟨x, hx, hx2⟩ := Option.map_eq_some'.mp h
    exact ⟨x, (Prod.mk.inj hx2).1.symm, (Prod.mk.inj hx2).2.symm, Or.inl ⟨hr, hx⟩⟩
  · rename_i hr
    obtain ⟨x, hx, hx2⟩ := Option.map_eq_some'.mp h
    exact ⟨x, (Prod.mk.inj hx2).1.symm, (Prod.mk.inj hx2).2.symm,
      Or.inr ⟨by simpa using hr, hx⟩⟩

/-- The four ways a tick that returns can go: fetch polled and not ready, fetch polled and
ready, operand polled and ready (write-back), operand polled and not ready. -/
theorem Cpu.tick_shapes {M R C : Type} (env : Collaborators R C) (mem : IMem M)
    (c c2 : Cpu M R C) (log : List (MemCall M)) (h : Cpu.ClockLog env mem c = some (c2, log)) :
    c2.processedClocks = wrapInt (c.processedClocks + 1) ∧
    (((c.isBusy = false ∨ c.isReading = true) ∧ (mem.Response (c.fetchMem mem)).1 = none ∧
        c2.isBusy = true ∧ c2.isReading = true ∧
        c2.executedInstructions = c.executedInstructions ∧
        c2._mem = (mem.Response (c.fetchMem mem)).2 ∧
        c2.currentInstruction = c.currentInstruction ∧
        log = c.fetchCalls mem ++ [.pollFetch none]) ∨
     ((c.isBusy = false ∨ c.isReading = true) ∧
        ∃ w instr, (mem.Response (c.fetchMem mem)).1 = some w ∧
        c2.isBusy = true ∧ c2.isReading = false ∧
        c2.executedInstructions = wrapInt (c.executedInstructions + 1) ∧
        c2._mem = mem.RequestInstr (mem.Response (c.fetchMem mem)).2 instr ∧
        c2.currentInstruction = some instr ∧
        log = c.fetchCalls mem ++
          [.pollFetch (some w), .requestInstr instr (mem.Response (c.fetchMem mem)).2]) ∨
     (c.isBusy = true ∧ c.isReading = false ∧
        ∃ instr, c.currentInstruction = some instr ∧
        (mem.ResponseInstr c._mem instr).1 = true ∧
        c2.isBusy = false ∧ c2.isReading = false ∧
        c2.executedInstructions = c.executedInstructions ∧
        c2._mem = (mem.ResponseInstr c._mem instr).2.2 ∧
        log = [.pollOperand true]) ∨
     (c.isBusy = true ∧ c.isReading = false ∧
        ∃ instr, c.currentInstruction = some instr ∧
        (mem.ResponseInstr c._mem instr).1 = false ∧
        c2.isBusy = true ∧ c2.isReading = false ∧
        c2.executedInstructions = c.executedInstructions ∧
        c2._mem = (mem.ResponseInstr c._mem instr).2.2 ∧
        c2.currentInstruction = some (mem.ResponseInstr c._mem instr).2.1 ∧
        log = [.pollOperand false])) := by
  obtain ⟨x, hc2, hlog, hx⟩ := Cpu.ClockLog_cases env mem c c2 log h
  cases hb : c.isBusy with
  | false =>
    have hi := Cpu.issueFetch_idle mem (c.countClock env) hb
    rw [hi] at hx hlog
    have hfm : c.fetchMem mem = mem.Request c._mem c._ip := by
      unfold Cpu.fetchMem; rw [if_pos hb]
    have hfc : c.fetchCalls mem = [.requestIp c._ip c._mem] := by
      unfold Cpu.fetchCalls; rw [if_pos hb]
    rcases hx with ⟨_, hx⟩ | ⟨hx, _⟩
    · rcases Cpu.waitFetch_cases env mem _ x hx with ⟨hr, hxe⟩ | ⟨w, instr, hr, _, hxe⟩
      · subst hxe
        subst hc2
        refine ⟨rfl, Or.inl ⟨Or.inl rfl, ?_, rfl, rfl, rfl, ?_, rfl, ?_⟩⟩
        · rw [hfm]; exact hr
        · rw [hfm]; try rfl
        · rw [hlog, hfc]; try rfl
      · subst hxe
        subst hc2
        refine ⟨rfl, Or.inr (Or.inl ⟨Or.inl rfl, w, instr, ?_, rfl, rfl, rfl, ?_, rfl, ?_⟩)⟩
        · rw [hfm]; exact hr
        · rw [hfm]; try rfl
        · rw [hlog, hfc, hfm]; try rfl
    · simp at hx
  | true =>
    have hi := Cpu.issueFetch_busy mem (c.countClock env) hb
    rw [hi] at hx hlog
    have hfm : c.fetchMem mem = c._mem := by
      unfold Cpu.fetchMem; rw [if_neg (by rw [hb]; simp)]
    have hfc : c.fetchCalls mem = [] := by
      unfold Cpu.fetchCalls; rw [if_neg (by rw [hb]; simp)]
    rcases hx with ⟨hread, hx⟩ | ⟨hread, hx⟩
    · have hread2 : c.isReading = true := hread
      rcases Cpu.waitFetch_cases env mem _ x hx with ⟨hr, hxe⟩ | ⟨w, instr, hr, _, hxe⟩
      · subst hxe
        subst hc2
        refine ⟨rfl, Or.inl ⟨Or.inr hread2, ?_, hb, hread2, rfl, ?_, rfl, ?_⟩⟩
        · rw [hfm]; exact hr
        · rw [hfm]; try rfl
        · rw [hlog, hfc]; try rfl
      · subst hxe
        subst hc2
        refine ⟨rfl, Or.inr (Or.inl ⟨Or.inr hread2, w, instr, ?_, hb, rfl, rfl, ?_, rfl, ?_⟩)⟩
        · rw [hfm]; exact hr
        · rw [hfm]; try rfl
        · rw [hlog, hfc, hfm]; try rfl
    · have hread2 : c.isReading = false := hread
      obtain ⟨instr, hcur, hcase⟩ := Cpu.waitOperand_cases env mem _ x hread hx
      rcases hcase with ⟨hf, hxe⟩ | ⟨hf, hxe⟩
      · subst hxe
        subst hc2
        exact ⟨rfl, Or.inr (Or.inr (Or.inl ⟨rfl, hread2, instr, hcur, hf, rfl, rfl, rfl, rfl,
          by rw [hlog]; rfl⟩))⟩
      · subst hxe
        subst hc2
        exact ⟨rfl, Or.inr (Or.inr (Or.inr ⟨rfl, hread2, instr, hcur, hf, hb, hread2, rfl, rfl,
          rfl, by rw [hlog]; rfl⟩))⟩

theorem Cpu.mem_fetchCalls {M R C : Type} (mem : IMem M) (c : Cpu M R C) (x : MemCall M) :
    x ∈ c.fetchCalls mem ↔ c.isBusy = false ∧ x = .requestIp c._ip c._mem := by
  unfold Cpu.fetchCalls
  split
  · rename_i hb
    simp [hb]
  · rename_i hb
    simp [hb]

/-- When a tick returns: the fetch is polled and not ready, or it is ready and `Execute`
returns on the decoded record, or the operand is polled and the record is there. -/
theorem Cpu.ClockLog_returns {M R C : Type} (env : Collaborators R C) (mem : IMem M)
    (c : Cpu M R C) :
    ((c.isBusy = false ∨ c.isReading = true) → (mem.Response (c.fetchMem mem)).1 = none →
      ∃ c2 log, Cpu.ClockLog env mem c = some (c2, log)) ∧
    (∀ w instr, (c.isBusy = false ∨ c.isReading = true) →
      (mem.Response (c.fetchMem mem)).1 = some w →
      Executor.Execute (env.csrfRead (env.csrfClock c._csrf) (env.rfRead c._rf (env.Decode w)))
        c._ip = .returned instr →
      ∃ c2 log, Cpu.ClockLog env mem c = some (c2, log)) ∧
    (∀ instr, c.isBusy = true → c.isReading = false → c.currentInstruction = some instr →
      ∃ c2 log, Cpu.ClockLog env mem c = some (c2, log)) := by
  have hread : (c.isBusy = false ∨ c.isReading = true) →
      ((c.countClock env).issueFetch mem).1.isReading = true ∧
      ((c.countClock env).issueFetch mem).1._mem = c.fetchMem mem ∧
      ((c.countClock env).issueFetch mem).1._csrf = env.csrfClock c._csrf ∧
      ((c.countClock env).issueFetch mem).1._rf = c._rf ∧
      ((c.countClock env).issueFetch mem).1._ip = c._ip ∧
      ((c.countClock env).issueFetch mem).1.executedInstructions = c.executedInstructions := by
    intro h
    unfold Cpu.fetchMem
    cases hb : c.isBusy with
    | false =>
      rw [Cpu.issueFetch_idle mem (c.countClock env) hb]
      exact ⟨rfl, rfl, rfl, rfl, rfl, rfl⟩
    | true =>
      rw [Cpu.issueFetch_busy mem (c.countClock env) hb]
      rcases h with h | h
      · rw [hb] at h; exact absurd h (by simp)
      · exact ⟨h, rfl, rfl, rfl, rfl, rfl⟩
  refine ⟨?_, ?_, ?_⟩
  · intro h hr
    obtain ⟨h1, h2, _⟩ := hread h
    unfold Cpu.ClockLog
    simp only [h1, if_true]
    unfold Cpu.waitFetch
    simp only [h2, hr]
    exact ⟨_, _, rfl⟩
  · intro w instr h hr he
    obtain ⟨h1, h2, h3, h4, h5, h6⟩ := hread h
    unfold Cpu.ClockLog
    simp only [h1, if_true]
    unfold Cpu.waitFetch
    simp only [h2, h3, h4, h5, h6, hr, he]
    exact ⟨_, _, rfl⟩
  · intro instr hb hr hc
    unfold Cpu.ClockLog
    rw [Cpu.issueFetch_busy mem (c.countClock env) hb]
    have h1 : (c.countClock env).isReading = false := hr
    have h2 : (c.countClock env).currentInstruction = some instr := hc
    simp only [h1, Bool.false_eq_true, if_false]
    unfold Cpu.waitOperand
    simp only [h2]
    split <;> exact ⟨_, _, rfl⟩

theorem wrapInt_of_range (x : Int) (h1 : intMin ≤ x) (h2 : x ≤ intMax) : wrapInt x = x := by
  unfold wrapInt
  unfold intMin at h1
  unfold intMax at h2
  omega

set_option maxRecDepth 100000 in
/-- C13, counterexample. A tick whose fetch poll returns a word while `executedInstructions`
holds `intMax`: the counter becomes `intMin`, it does not grow by `1`. The state is an idle
`Cpu` over a `CachedMem` in its initial state with the counters at `intMax` and `-2`, which is
where `2 ^ 32 - 2` ticks of two per instruction lead. -/
theorem Cpu.executed_count_wraps :
    (Cpu.ClockLog plainEnv CachedMem.asIMem
        (Cpu.atCounts intMax (-2) 0x200 () () (CachedMem.init zeroMem))).map
      (fun x => (x.1.executedInstructions, x.2.map MemCall.kind)) =
        some (-2147483648, [.requestIp, .pollFetch, .requestInstr]) ∧
    (-2147483648 : Int) ≠ intMax + 1 := by
  decide

/-- C13, as the code has it. Executed-instruction counting in `Cpu::Clock`. A tick returns
when the fetch is polled and not ready, when it is ready and `Execute` returns on the decoded
record, and when the operand is polled. On every tick that returns, `executedInstructions` is
incremented once, as an `int`, if the fetch poll of that tick returned a word: it grows by
exactly `1` when it was below `intMax` and wraps to `intMin` when it held `intMax`; it is
unchanged otherwise, in particular on the tick whose operand poll is ready and that writes
back. `processedClocks` is incremented once, as an `int`, on every tick; the fetch is polled
exactly when the tick started idle or waiting for the fetch, and the poll is `Response()` of
the memory model. -/
theorem Cpu.executed_count {M R C : Type} (env : Collaborators R C) (mem : IMem M)
    (c : Cpu M R C) :
    (((c.isBusy = false ∨ c.isReading = true) → (mem.Response (c.fetchMem mem)).1 = none →
        ∃ c2 log, Cpu.ClockLog env mem c = some (c2, log)) ∧
     (∀ w instr, (c.isBusy = false ∨ c.isReading = true) →
        (mem.Response (c.fetchMem mem)).1 = some w →
        Executor.Execute (env.csrfRead (env.csrfClock c._csrf) (env.rfRead c._rf (env.Decode w)))
          c._ip = .returned instr →
        ∃ c2 log, Cpu.ClockLog env mem c = some (c2, log)) ∧
     (∀ instr, c.isBusy = true → c.isReading = false → c.currentInstruction = some instr →
        ∃ c2 log, Cpu.ClockLog env mem c = some (c2, log))) ∧
    (∀ c2 log, Cpu.ClockLog env mem c = some (c2, log) →
      ((∃ w, MemCall.pollFetch (some w) ∈ log) →
        c2.executedInstructions = wrapInt (c.executedInstructions + 1) ∧
        (intMin ≤ c.executedInstructions → c.executedInstructions < intMax →
          c2.executedInstructions = c.executedInstructions + 1) ∧
        (c.executedInstructions = intMax → c2.executedInstructions = intMin)) ∧
      ((¬ ∃ w, MemCall.pollFetch (some w) ∈ log) →
        c2.executedInstructions = c.executedInstructions) ∧
      (MemCall.pollOperand true ∈ log → c2.executedInstructions = c.executedInstructions) ∧
      c2.processedClocks = wrapInt (c.processedClocks + 1) ∧
      (∀ r, MemCall.pollFetch r ∈ log →
        (c.isBusy = false ∨ c.isReading = true) ∧ r = (mem.Response (c.fetchMem mem)).1) ∧
      ((c.isBusy = false ∨ c.isReading = true) → ∀ w, (mem.Response (c.fetchMem mem)).1 = some w →
        MemCall.pollFetch (some w) ∈ log)) := by
  refine ⟨Cpu.ClockLog_returns env mem c, ?_⟩
  intro c2 log h
  obtain ⟨hp, hs⟩ := Cpu.tick_shapes env mem c c2 log h
  rcases hs with ⟨hfr, hr, _, _, hex, _, _, hlog⟩ | ⟨hfr, w, instr, hr, _, _, hex, _, _, hlog⟩ |
      ⟨hb, hrd, instr, _, _, _, _, hex, _, hlog⟩ | ⟨hb, hrd, instr, _, _, _, _, hex, _, _, hlog⟩
  · refine ⟨?_, fun _ => hex, fun _ => hex, hp, ?_, ?_⟩
    · rintro ⟨w, hw⟩
      rw [hlog, List.mem_append, Cpu.mem_fetchCalls] at hw
      simp at hw
    · intro r hm
      rw [hlog, List.mem_append, Cpu.mem_fetchCalls] at hm
      simp at hm
      exact ⟨hfr, by rw [hm, hr]⟩
    · intro _ w hw
      rw [hr] at hw
      exact Option.noConfusion hw
  · refine ⟨fun _ => ⟨hex, ?_, ?_⟩, ?_, ?_, hp, ?_, ?_⟩
    · intro h1 h2
      rw [hex]
      exact wrapInt_of_range _ (by unfold intMin at h1 ⊢; omega) (by unfold intMax at h2 ⊢; omega)
    · intro h1
      rw [hex, h1]
      decide
    · intro hn
      exact absurd ⟨w, by rw [hlog]; simp⟩ hn
    · intro hm
      rw [hlog, List.mem_append, Cpu.mem_fetchCalls] at hm
      simp at hm
    · intro r hm
      rw [hlog, List.mem_append, Cpu.mem_fetchCalls] at hm
      simp at hm
      exact ⟨hfr, by rw [hm, hr]⟩
    · intro _ w2 hw
      rw [hr] at hw
      rw [← Option.some.inj hw, hlog]
      simp
  · refine ⟨?_, fun _ => hex, fun _ => hex, hp, ?_, ?_⟩
    · rintro ⟨w, hw⟩
      rw [hlog] at hw
      simp at hw
    · intro r hm
      rw [hlog] at hm
      simp at hm
    · rintro (hf | hf) <;> simp_all
  · refine ⟨?_, fun _ => hex, fun _ => hex, hp, ?_, ?_⟩
    · rintro ⟨w, hw⟩
      rw [hlog] at hw
      simp at hw
    · intro r hm
      rw [hlog] at hm
      simp at hm
    · rintro (hf | hf) <;> simp_all

set_option maxRecDepth 100000 in
/-- Witness for C13 as the code has it: the first tick over a `CachedMem`, whose fetch poll
returns a word. -/
theorem Cpu.executed_count_witness :
    (Cpu.ClockLog plainEnv CachedMem.asIMem
      (Cpu.init 0x200 () () (CachedMem.init zeroMem))).map (fun x => x.1.executedInstructions) =
        some 1 := by
  obtain ⟨hret, hcount⟩ := Cpu.executed_count plainEnv CachedMem.asIMem
    (Cpu.init 0x200 () () (CachedMem.init zeroMem))
  obtain ⟨c2, log, h⟩ := hret.2.1 0
    { aluRR .Add 0 0 with _data := 0, _nextIp := 0x204 } (Or.inl rfl) (by decide) (by decide)
  obtain ⟨h1, _, _, _, _, h6⟩ := hcount c2 log h
  have := (h1 ⟨0, h6 (Or.inl rfl) 0 (by decide)⟩).2.1 (by decide) (by decide)
  rw [h]
  show some c2.executedInstructions = some 1
  rw [this]
  rfl

set_option maxRecDepth 100000 in
/-- C18, counterexample. The first tick of a `Cpu` over a `CachedMem` in its initial state
starts idle, and the fetch poll is ready in the same tick (the miss below capacity left the
countdown at `0`): the tick requests the fetch, polls it, decodes, executes, counts the
instruction and issues the operand request, and ends with `isReading = false`. -/
theorem Cpu.idle_tick_runs_through :
    (Cpu.init 0x200 () () (CachedMem.init zeroMem)).isBusy = false ∧
    (Cpu.ClockLog plainEnv CachedMem.asIMem (Cpu.init 0x200 () () (CachedMem.init zeroMem))).map
        (fun x => (x.1.isBusy, x.1.isReading, x.1.executedInstructions, x.2.map MemCall.kind)) =
      some (true, false, 1, [.requestIp, .pollFetch, .requestInstr]) := by
  decide

theorem UncachedMem.fetch_poll_not_ready (u : UncachedMem) (ip : Word) :
    (UncachedMem.asIMem.Response (UncachedMem.asIMem.Request u ip)).1 = none := by
  show (u.Request ip).Response = none
  unfold UncachedMem.Response UncachedMem.Request UncachedMem.latency
  simp

/-- C18, as the code has it. A tick that starts idle (`isBusy = false`) issues the fetch
request at the current instruction pointer and polls the fetch in the same tick. If the poll is
not ready, as always with `UncachedMem`, the tick returns and ends waiting for the fetch
(`isBusy = isReading = true`) with the record and `executedInstructions` unchanged, having made
no other call on the memory model. If the poll is ready, the same tick counts the instruction
(`executedInstructions += 1` as an `int`: one more, when it was below `intMax`) and issues the
operand request, and ends with `isReading = false`. -/
theorem Cpu.idle_tick {M R C : Type} (env : Collaborators R C) (mem : IMem M) (c : Cpu M R C)
    (hidle : c.isBusy = false) :
    ((mem.Response (mem.Request c._mem c._ip)).1 = none →
      ∃ c2, Cpu.ClockLog env mem c =
          some (c2, [.requestIp c._ip c._mem, .pollFetch none]) ∧
        c2.isBusy = true ∧ c2.isReading = true ∧
        c2.executedInstructions = c.executedInstructions ∧
        c2.currentInstruction = c.currentInstruction) ∧
    (∀ w c2 log, (mem.Response (mem.Request c._mem c._ip)).1 = some w →
      Cpu.ClockLog env mem c = some (c2, log) →
      c2.isBusy = true ∧ c2.isReading = false ∧
      c2.executedInstructions = wrapInt (c.executedInstructions + 1) ∧
      (intMin ≤ c.executedInstructions → c.executedInstructions < intMax →
        c2.executedInstructions = c.executedInstructions + 1) ∧
      ∃ instr, log = [.requestIp c._ip c._mem, .pollFetch (some w),
        .requestInstr instr (mem.Response (mem.Request c._mem c._ip)).2]) ∧
    (∀ (u : UncachedMem) (ip : Word),
      (UncachedMem.asIMem.Response (UncachedMem.asIMem.Request u ip)).1 = none) := by
  have hfm : c.fetchMem mem = mem.Request c._mem c._ip := by
    unfold Cpu.fetchMem; rw [if_pos hidle]
  have hfc : c.fetchCalls mem = [.requestIp c._ip c._mem] := by
    unfold Cpu.fetchCalls; rw [if_pos hidle]
  refine ⟨?_, ?_, UncachedMem.fetch_poll_not_ready⟩
  · intro hr
    obtain ⟨c2, log, h⟩ :=
      (Cpu.ClockLog_returns env mem c).1 (Or.inl hidle) (by rw [hfm]; exact hr)
    obtain ⟨_, hs⟩ := Cpu.tick_shapes env mem c c2 log h
    rcases hs with ⟨_, _, hb, hrd, hex, _, hcur, hlog⟩ | ⟨_, w, instr, hr2, _⟩ |
        ⟨hb, _⟩ | ⟨hb, _⟩
    · rw [hfc] at hlog
      exact ⟨c2, by rw [h, hlog]; rfl, hb, hrd, hex, hcur⟩
    · rw [hfm, hr] at hr2
      exact Option.noConfusion hr2
    · rw [hidle] at hb; exact Bool.noConfusion hb
    · rw [hidle] at hb; exact Bool.noConfusion hb
  · intro w c2 log hr h
    obtain ⟨_, hs⟩ := Cpu.tick_shapes env mem c c2 log h
    rcases hs with ⟨_, hr2, _⟩ | ⟨_, w2, instr, hr2, hb, hrd, hex, _, _, hlog⟩ |
        ⟨hb, _⟩ | ⟨hb, _⟩
    · rw [hfm, hr] at hr2
      exact Option.noConfusion hr2
    · rw [hfm, hr] at hr2
      rw [hfc, hfm, ← Option.some.inj hr2] at hlog
      refine ⟨hb, hrd, hex, ?_, instr, hlog⟩
      intro h1 h2
      rw [hex]
      exact wrapInt_of_range _ (by unfold intMin at h1 ⊢; omega) (by unfold intMax at h2 ⊢; omega)
    · rw [hidle] at hb; exact Bool.noConfusion hb
    · rw [hidle] at hb; exact Bool.noConfusion hb

set_option maxRecDepth 100000 in
/-- Witness for C18 as the code has it: the first tick over an `UncachedMem`. -/
theorem Cpu.idle_tick_witness :
    ∃ c2, Cpu.ClockLog plainEnv UncachedMem.asIMem
        (Cpu.init 0x200 () () (UncachedMem.init zeroMem)) =
          some (c2, [.requestIp 0x200 (UncachedMem.init zeroMem), .pollFetch none]) ∧
      c2.isBusy = true ∧ c2.isReading = true ∧ c2.executedInstructions = 0 := by
  obtain ⟨c2, h1, h2, h3, h4, _⟩ := (Cpu.idle_tick plainEnv UncachedMem.asIMem
    (Cpu.init 0x200 () () (UncachedMem.init zeroMem)) rfl).1 (by decide)
  exact ⟨c2, h1, h2, h3, h4⟩

/-! ## The loop of main -/

theorem CachedMem.countdown : CachedMem.asIMem.Countdown CachedMem._waitCycles := by
  refine ⟨?_, ?_, ?_, ?_, ?_, ?_, ?_⟩
  · intro m w h
    have h2 : m.Response.1 = some w := h
    unfold CachedMem.Response at h2
    split at h2
    · exact Option.noConfusion h2
    · omega
  · intro m
    show m.Response.2._waitCycles = m._waitCycles
    unfold CachedMem.Response
    split <;> rfl
  · intro m i h
    show (m.RequestInstr i)._waitCycles = m._waitCycles
    unfold CachedMem.RequestInstr
    rw [if_pos h]
  · intro m i hty h
    have h2 : (m.ResponseInstr i).1 = true := h
    unfold CachedMem.ResponseInstr at h2
    rw [if_neg (not_nonmemory i hty)] at h2
    by_contra hw
    rw [if_pos hw] at h2
    exact Bool.noConfusion h2
  · intro m i
    show (m.ResponseInstr i).2.2._waitCycles = m._waitCycles
    unfold CachedMem.ResponseInstr
    split
    · rfl
    · split
      · rfl
      · split
        · rfl
        · split <;> rfl
  · intro m i
    show (m.ResponseInstr i).2.1._type = i._type
    unfold CachedMem.ResponseInstr
    split
    · rfl
    · split
      · rfl
      · split
        · rfl
        · split <;> rfl
  · intro m h
    show m.Clock._waitCycles = 0
    rw [CachedMem.Clock_waitCycles, h]

theorem UncachedMem.uncached_countdown : UncachedMem.asIMem.Countdown UncachedMem._waitCycles := by
  refine ⟨?_, ?_, ?_, ?_, ?_, ?_, ?_⟩
  · intro m w h
    have h2 : m.Response = some w := h
    unfold UncachedMem.Response at h2
    split at h2
    · exact Option.noConfusion h2
    · omega
  · intro m
    rfl
  · intro m i h
    show (m.RequestInstr i)._waitCycles = m._waitCycles
    unfold UncachedMem.RequestInstr
    rw [if_pos h]
  · intro m i hty h
    have h2 : (m.ResponseInstr i).1 = true := h
    unfold UncachedMem.ResponseInstr at h2
    rw [if_neg (not_nonmemory i hty)] at h2
    by_contra hw
    rw [if_pos hw] at h2
    exact Bool.noConfusion h2
  · intro m i
    show (m.ResponseInstr i).2.2._waitCycles = m._waitCycles
    unfold UncachedMem.ResponseInstr
    split
    · rfl
    · split
      · rfl
      · split
        · rfl
        · split <;> rfl
  · intro m i
    show (m.ResponseInstr i).2.1._type = i._type
    unfold UncachedMem.ResponseInstr
    split
    · rfl
    · split
      · rfl
      · split
        · rfl
        · split <;> rfl
  · intro m h
    show m.Clock._waitCycles = 0
    unfold UncachedMem.Clock
    split
    · rename_i hp
      rw [h] at hp
      exact absurd hp (Nat.lt_irrefl 0)
    · exact h

theorem mainStep_some {M R C : Type} (env : Collaborators R C) (mem : IMem M)
    (c c1 : Cpu M R C) (log : List (MemCall M)) (h : mainStep env mem c = some (c1, log)) :
    ∃ c2, Cpu.ClockLog env mem c = some (c2, log) ∧ c1.isBusy = c2.isBusy ∧
      c1.isReading = c2.isReading ∧ c1.currentInstruction = c2.currentInstruction ∧
      c1._mem = mem.Clock c2._mem ∧ c1.executedInstructions = c2.executedInstructions ∧
      c1.processedClocks = c2.processedClocks := by
  unfold mainStep at h
  obtain ⟨x, hx, hx2⟩ := Option.map_eq_some'.mp h
  obtain ⟨e1, e2⟩ := Prod.mk.inj hx2
  refine ⟨x.1, by rw [hx, ← e2], ?_⟩
  rw [← e1]
  exact ⟨rfl, rfl, rfl, rfl, rfl, rfl⟩

theorem Cpu.settled_step {M R C : Type} (env : Collaborators R C) (mem : IMem M)
    (wait : M → Nat) (hlaw : mem.Countdown wait) (c c1 : Cpu M R C) (log : List (MemCall M))
    (hs : c.Settled wait) (h : mainStep env mem c = some (c1, log)) : c1.Settled wait := by
  obtain ⟨c2, hc, k1, k2, k3, k4, _, _⟩ := mainStep_some env mem c c1 log h
  obtain ⟨_, hsh⟩ := Cpu.tick_shapes env mem c c2 log hc
  unfold Cpu.Settled
  rw [k1, k2, k3, k4]
  rcases hsh with ⟨_, _, hb, hrd, _⟩ | ⟨_, w, instr, hr, hb, hrd, _, hm, hcur, _⟩ |
      ⟨hcb, hcr, instr, hcur, hf, hb, hrd, _, hm, _⟩ |
      ⟨hcb, hcr, instr, hcur, hf, hb, hrd, _, hm, hcur2, _⟩
  · rw [hb, hrd]
    exact ⟨fun e => Bool.noConfusion e, fun _ e => Bool.noConfusion e⟩
  · rw [hb]
    refine ⟨fun e => Bool.noConfusion e, fun _ _ => ⟨instr, hcur, ?_⟩⟩
    intro hn
    apply hlaw.clock_zero
    rw [hm, hlaw.requestInstr_other _ _ hn, hlaw.response_wait]
    exact hlaw.response_ready _ w hr
  · have hz : wait c._mem = 0 := by
      by_cases hn : instr._type ≠ .Ld ∧ instr._type ≠ .St
      · obtain ⟨i, hi, hw⟩ := hs.2 hcb hcr
        rw [hcur] at hi
        rw [← Option.some.inj hi] at hw
        exact hw hn
      · have hty : instr._type = .Ld ∨ instr._type = .St := by
          by_contra hc2
          exact hn ⟨fun e => hc2 (Or.inl e), fun e => hc2 (Or.inr e)⟩
        exact hlaw.responseInstr_ready _ _ hty hf
    rw [hb]
    refine ⟨fun _ => ?_, fun e => Bool.noConfusion e⟩
    apply hlaw.clock_zero
    rw [hm, hlaw.responseInstr_wait]
    exact hz
  · rw [hb]
    refine ⟨fun e => Bool.noConfusion e, fun _ _ => ⟨_, hcur2, ?_⟩⟩
    intro hn
    rw [hlaw.responseInstr_type] at hn
    obtain ⟨i, hi, hw⟩ := hs.2 hcb hcr
    rw [hcur] at hi
    rw [← Option.some.inj hi] at hw
    apply hlaw.clock_zero
    rw [hm, hlaw.responseInstr_wait]
    exact hw hn

theorem Cpu.settled_loop {M R C : Type} (env : Collaborators R C) (mem : IMem M)
    (wait : M → Nat) (hlaw : mem.Countdown wait) (c0 : Cpu M R C) (h0 : c0.Settled wait)
    (n : Nat) (c : Cpu M R C) (h : mainLoop env mem c0 n = some c) : c.Settled wait := by
  induction n generalizing c with
  | zero =>
    have : c0 = c := Option.some.inj h
    rw [← this]; exact h0
  | succ n ih =>
    unfold mainLoop at h
    obtain ⟨x, hx, hx2⟩ := Option.bind_eq_some.mp h
    obtain ⟨y, hy, hy2⟩ := Option.map_eq_some'.mp hx2
    have := Cpu.settled_step env mem wait hlaw x y.1 y.2 (ih x hx) hy
    rw [hy2] at this
    exact this

theorem Cpu.requests_settled {M R C : Type} (env : Collaborators R C) (mem : IMem M)
    (wait : M → Nat) (hlaw : mem.Countdown wait) (c c2 : Cpu M R C) (log : List (MemCall M))
    (hs : c.Settled wait) (h : Cpu.ClockLog env mem c = some (c2, log)) :
    (∀ ip m, MemCall.requestIp ip m ∈ log → wait m = 0 ∧ c.isBusy = false) ∧
    (∀ i m, MemCall.requestInstr i m ∈ log →
      wait m = 0 ∧ ∃ w, MemCall.pollFetch (some w) ∈ log) := by
  obtain ⟨_, hsh⟩ := Cpu.tick_shapes env mem c c2 log h
  rcases hsh with ⟨_, _, _, _, _, _, _, hlog⟩ | ⟨_, w, instr, hr, _, _, _, _, _, hlog⟩ |
      ⟨_, _, instr, _, _, _, _, _, _, hlog⟩ | ⟨_, _, instr, _, _, _, _, _, _, _, hlog⟩
  · constructor
    · intro ip m hm
      rw [hlog, List.mem_append, Cpu.mem_fetchCalls] at hm
      simp at hm
      obtain ⟨hb, _, e⟩ := hm
      rw [e]
      exact ⟨hs.1 hb, hb⟩
    · intro i m hm
      rw [hlog, List.mem_append, Cpu.mem_fetchCalls] at hm
      simp at hm
  · constructor
    · intro ip m hm
      rw [hlog, List.mem_append, Cpu.mem_fetchCalls] at hm
      simp at hm
      obtain ⟨hb, _, e⟩ := hm
      rw [e]
      exact ⟨hs.1 hb, hb⟩
    · intro i m hm
      rw [hlog, List.mem_append, Cpu.mem_fetchCalls] at hm
      simp at hm
      refine ⟨?_, w, by rw [hlog]; simp⟩
      rw [hm.2, hlaw.response_wait]
      exact hlaw.response_ready _ w hr
  · constructor
    · intro ip m hm
      rw [hlog] at hm
      simp at hm
    · intro i m hm
      rw [hlog] at hm
      simp at hm
  · constructor
    · intro ip m hm
      rw [hlog] at hm
      simp at hm
    · intro i m hm
      rw [hlog] at hm
      simp at hm

theorem Cpu.idle_after_writeback {M R C : Type} (env : Collaborators R C) (mem : IMem M)
    (c c1 : Cpu M R C) (log : List (MemCall M)) (h : mainStep env mem c = some (c1, log))
    (hidle : c1.isBusy = false) : log = [.pollOperand true] := by
  obtain ⟨c2, hc, k1, _⟩ := mainStep_some env mem c c1 log h
  obtain ⟨_, hsh⟩ := Cpu.tick_shapes env mem c c2 log hc
  rw [k1] at hidle
  rcases hsh with ⟨_, _, hb, _⟩ | ⟨_, w, instr, _, hb, _⟩ |
      ⟨_, _, instr, _, _, _, _, _, _, hlog⟩ | ⟨_, _, instr, _, _, hb, _⟩
  · rw [hidle] at hb; exact Bool.noConfusion hb
  · rw [hidle] at hb; exact Bool.noConfusion hb
  · exact hlog
  · rw [hidle] at hb; exact Bool.noConfusion hb

/-- The loop of `main` over a memory model with a countdown: requests are issued only when no
countdown is running. -/
theorem Cpu.requests_in_loop {M R C : Type} (env : Collaborators R C) (mem : IMem M)
    (wait : M → Nat) (hlaw : mem.Countdown wait) (c0 : Cpu M R C) (h0 : c0.Settled wait)
    (n : Nat) (c c1 : Cpu M R C) (log1 : List (MemCall M))
    (hn : mainLoop env mem c0 n = some c) (h1 : mainStep env mem c = some (c1, log1)) :
    (∀ ip m, MemCall.requestIp ip m ∈ log1 → wait m = 0) ∧
    (∀ i m, MemCall.requestInstr i m ∈ log1 →
      wait m = 0 ∧ ∃ w, MemCall.pollFetch (some w) ∈ log1) ∧
    (∀ c2 log2, mainStep env mem c1 = some (c2, log2) →
      ∀ ip m, MemCall.requestIp ip m ∈ log2 → MemCall.pollOperand true ∈ log1) := by
  have hs := Cpu.settled_loop env mem wait hlaw c0 h0 n c hn
  obtain ⟨x, hx, _⟩ := mainStep_some env mem c c1 log1 h1
  obtain ⟨r1, r2⟩ := Cpu.requests_settled env mem wait hlaw c x log1 hs hx
  refine ⟨fun ip m hm => (r1 ip m hm).1, r2, ?_⟩
  intro c2 log2 h2 ip m hm
  have hs1 := Cpu.settled_step env mem wait hlaw c c1 log1 hs h1
  obtain ⟨y, hy, _⟩ := mainStep_some env mem c1 c2 log2 h2
  have hidle := ((Cpu.requests_settled env mem wait hlaw c1 y log2 hs1 hy).1 ip m hm).2
  rw [Cpu.idle_after_writeback env mem c c1 log1 h1 hidle]
  exact List.mem_singleton_self _

/-- Claim C19. In the loop of `main` (a tick of `Cpu::Clock`, then the `Clock` of the memory
model), started from the initial state over a `CachedMem` or an `UncachedMem`: every
`Request(ip)` and every `Request(instr)` of a tick is made on a memory model whose countdown
`_waitCycles` is zero; an operand request is made only in a tick whose fetch poll returned a
word; and a tick makes a fetch request only if the tick before it polled the operand of the
previous instruction and found it ready. -/
theorem Cpu.no_request_over_unfinished {R C : Type} (env : Collaborators R C) (ip : Word)
    (rf : R) (csrf : C) (store : MemoryStorage) :
    (∀ n c c1 log1,
      mainLoop env CachedMem.asIMem (Cpu.init ip rf csrf (CachedMem.init store)) n = some c →
      mainStep env CachedMem.asIMem c = some (c1, log1) →
        (∀ a m, MemCall.requestIp a m ∈ log1 → m._waitCycles = 0) ∧
        (∀ i m, MemCall.requestInstr i m ∈ log1 →
          m._waitCycles = 0 ∧ ∃ w, MemCall.pollFetch (some w) ∈ log1) ∧
        (∀ c2 log2, mainStep env CachedMem.asIMem c1 = some (c2, log2) →
          ∀ a m, MemCall.requestIp a m ∈ log2 → MemCall.pollOperand true ∈ log1)) ∧
    (∀ n c c1 log1,
      mainLoop env UncachedMem.asIMem (Cpu.init ip rf csrf (UncachedMem.init store)) n = some c →
      mainStep env UncachedMem.asIMem c = some (c1, log1) →
        (∀ a m, MemCall.requestIp a m ∈ log1 → m._waitCycles = 0) ∧
        (∀ i m, MemCall.requestInstr i m ∈ log1 →
          m._waitCycles = 0 ∧ ∃ w, MemCall.pollFetch (some w) ∈ log1) ∧
        (∀ c2 log2, mainStep env UncachedMem.asIMem c1 = some (c2, log2) →
          ∀ a m, MemCall.requestIp a m ∈ log2 → MemCall.pollOperand true ∈ log1)) := by
  constructor
  · intro n c c1 log1 hn h1
    exact Cpu.requests_in_loop env CachedMem.asIMem CachedMem._waitCycles CachedMem.countdown
      _ ⟨fun _ => rfl, fun h => Bool.noConfusion h⟩ n c c1 log1 hn h1
  · intro n c c1 log1 hn h1
    exact Cpu.requests_in_loop env UncachedMem.asIMem UncachedMem._waitCycles
      UncachedMem.uncached_countdown _ ⟨fun _ => rfl, fun h => Bool.noConfusion h⟩ n c c1 log1 hn h1

set_option maxRecDepth 100000 in
/-- Witness for C19: the second iteration of the loop over a `CachedMem` holding zeros, after
a first iteration that fetched, decoded and executed. -/
theorem Cpu.no_request_over_unfinished_witness :
    ∃ c c1 log1,
      mainLoop plainEnv CachedMem.asIMem (Cpu.init 0x200 () () (CachedMem.init zeroMem)) 1 =
        some c ∧
      mainStep plainEnv CachedMem.asIMem c = some (c1, log1) ∧
      log1 = [.pollOperand true] ∧
      (∀ c2 log2, mainStep plainEnv CachedMem.asIMem c1 = some (c2, log2) →
          ∀ a m, MemCall.requestIp a m ∈ log2 → MemCall.pollOperand true ∈ log1) :=
  ⟨_, _, _, rfl, rfl, rfl,
    ((Cpu.no_request_over_unfinished plainEnv 0x200 () () zeroMem).1 1 _ _ _ rfl rfl).2.2⟩

/-! ## The hit branch and the storage of the deque -/

theorem CachedMem.access_eq_poll (s : CachedMem) (a : Access) :
    s.access a = (s.request a).poll a := by
  cases a <;> rfl

theorem CachedMem.Laid.cacheController_state (t t1 : CachedMem.Laid) (type : cacheType)
    (h : t.cacheController type = some t1) : t1.state = t.state.cacheController type := by
  unfold CachedMem.Laid.cacheController at h
  simp only at h
  split at h
  · split at h
    · split at h <;> (rw [← Option.some.inj h]; cases type <;> rfl)
    · rw [← Option.some.inj h]; cases type <;> rfl
  · split at h
    · exact Option.noConfusion h
    · rw [← Option.some.inj h]; cases type <;> rfl

theorem CachedMem.Laid.request_state (t t1 : CachedMem.Laid) (a : Access)
    (h : t.request a = some t1) : t1.state = t.state.request a := by
  cases a with
  | fetch ip => exact CachedMem.Laid.cacheController_state _ t1 .instruction h
  | operand instr =>
    have h2 : t.RequestInstr instr = some t1 := h
    show t1.state = t.state.RequestInstr instr
    unfold CachedMem.Laid.RequestInstr at h2
    unfold CachedMem.RequestInstr
    split at h2
    · rename_i hn
      rw [if_pos hn, ← Option.some.inj h2]
    · rename_i hn
      rw [if_neg hn]
      exact CachedMem.Laid.cacheController_state _ t1 .calculation h2

theorem CachedMem.Laid.access_state (t t1 : CachedMem.Laid) (a : Access)
    (h : t.access a = some t1) : t1.state = t.state.access a := by
  unfold CachedMem.Laid.access at h
  split at h
  · exact Option.noConfusion h
  · rename_i t2 h2
    rw [← Option.some.inj h, CachedMem.access_eq_poll, ← CachedMem.Laid.request_state t t2 a h2]

/-- Every state the compiled program reaches by accesses polled to completion is the state of
`CachedMem.run` on the same accesses. -/
theorem CachedMem.Laid.run_state (t t1 : CachedMem.Laid) (as : List Access)
    (h : t.run as = some t1) : t1.state = t.state.run as := by
  induction as generalizing t with
  | nil =>
    rw [← Option.some.inj h]
    rfl
  | cons a rest ih =>
    unfold CachedMem.Laid.run at h
    split at h
    · exact Option.noConfusion h
    · rename_i t2 h2
      rw [ih t2 h, CachedMem.Laid.access_state t t2 a h2]
      rfl

/-- When the hit branch returns: a request for a resident line returns exactly when the
`push_back` does not reallocate the map of the deque. -/
theorem CachedMem.Laid.hit_returns (t : CachedMem.Laid) (type : cacheType)
    (h : ToLineAddr t.state._requestedIp ∈ t.state.cache type) :
    (t.cacheController type).isSome =
      !(t.layout type).reallocates (t.state.commonlyUsed type).length := by
  obtain ⟨line, hline⟩ := Option.isSome_iff_exists.mp (AList.lookup_isSome.mpr h)
  unfold CachedMem.Laid.cacheController
  simp only [hline]
  split
  · rename_i hr
    rw [hr]; rfl
  · rename_i hr
    simp at hr
    rw [hr]; rfl

theorem CachedMem.Laid.laid_run_append (t : CachedMem.Laid) (as : List Access) (a : Access) :
    t.run (as ++ [a]) = (t.run as).bind (fun t1 => t1.access a) := by
  induction as generalizing t with
  | nil =>
    show CachedMem.Laid.run t [a] = t.access a
    unfold CachedMem.Laid.run
    cases t.access a <;> rfl
  | cons b rest ih =>
    show CachedMem.Laid.run t (b :: (rest ++ [a])) = _
    unfold CachedMem.Laid.run
    cases t.access b with
    | none => rfl
    | some t1 => exact ih t1

theorem no_reallocation (l : DequeLayout) (size : Nat) (hm : l.mapSize = 8)
    (hf : l.start + size < 1023) : l.reallocates size = false := by
  unfold DequeLayout.reallocates dequeNodeWords sizeofWord
  rw [hm]
  simp only [decide_eq_false_iff_not]
  omega

/-- A miss while the deque ends before the last slot of the last node of its first map: the
request returns, the deque of the cache ends one slot later, the map is the same, and the
deque of the other cache is as it was. -/
theorem CachedMem.Laid.cacheController_fresh (t : CachedMem.Laid) (type : cacheType)
    (hwf : t.state.WF) (hmiss : ToLineAddr t.state._requestedIp ∉ t.state.cache type)
    (hm : (t.layout type).mapSize = 8) (hf : t.finish type < 1023) :
    ∃ t1, t.cacheController type = some t1 ∧ t1.state = t.state.cacheController type ∧
      (t1.layout type).mapSize = 8 ∧ t1.finish type = t.finish type + 1 ∧
      ∀ other, other ≠ type → t1.layout other = t.layout other ∧
        t1.state.commonlyUsed other = t.state.commonlyUsed other := by
  have hl : (t.state.cache type).lookup (ToLineAddr t.state._requestedIp) = none :=
    AList.lookup_eq_none.mpr hmiss
  have hother : ∀ (s : CachedMem) (l : DequeLayout) (other : cacheType), other ≠ type →
      (t.update s type l).layout other = t.layout other := by
    intro s l other ho
    cases type <;> cases other <;> first | exact absurd rfl ho | rfl
  have hsame : ∀ (s : CachedMem) (l : DequeLayout),
      (t.update s type l).layout type = l ∧ (t.update s type l).state = s := by
    intro s l
    cases type <;> exact ⟨rfl, rfl⟩
  unfold CachedMem.Laid.finish at hf ⊢
  unfold CachedMem.Laid.cacheController
  simp only [hl]
  by_cases hsz : cacheSize type < (t.state.cache type).size
  · rw [if_pos hsz]
    obtain ⟨E, rest, hq⟩ := CachedMem.queue_nonempty_of_overflow t.state type hwf hsz
    obtain ⟨_, hqueue, _, _⟩ :=
      CachedMem.cacheController_miss_evict t.state type E rest hl hsz hq
    rw [hq]
    simp only
    rw [hq] at hf
    have hno : (t.layout type).pop_front.reallocates rest.length = false := by
      refine no_reallocation _ _ (show (t.layout type).pop_front.mapSize = 8 from hm) ?_
      show (t.layout type).start + 1 + rest.length < 1023
      simp only [List.length_cons] at hf
      omega
    have hpb : (t.layout type).pop_front.push_back rest.length = (t.layout type).pop_front := by
      unfold DequeLayout.push_back
      rw [hno]
      rfl
    refine ⟨_, rfl, (hsame _ _).2, ?_, ?_, ?_⟩
    · rw [(hsame _ _).1, hpb]
      exact hm
    · rw [(hsame _ _).1, (hsame _ _).2, hpb, hqueue]
      show (t.layout type).start + 1 + (rest ++ [_]).length = _
      simp only [List.length_append, List.length_cons, List.length_nil]
      omega
    · intro other ho
      exact ⟨hother _ _ other ho, by
        rw [(hsame _ _).2]; exact (CachedMem.cacheController_other t.state type other ho).2⟩
  · rw [if_neg hsz]
    obtain ⟨_, hqueue, _, _⟩ := CachedMem.cacheController_miss_keep t.state type hl hsz
    have hno : (t.layout type).reallocates (t.state.commonlyUsed type).length = false :=
      no_reallocation _ _ hm hf
    have hpb : (t.layout type).push_back (t.state.commonlyUsed type).length = t.layout type := by
      unfold DequeLayout.push_back
      rw [hno]
      rfl
    refine ⟨_, rfl, (hsame _ _).2, ?_, ?_, ?_⟩
    · rw [(hsame _ _).1, hpb]
      exact hm
    · rw [(hsame _ _).1, (hsame _ _).2, hpb, hqueue]
      simp only [List.length_append, List.length_cons, List.length_nil]
      omega
    · intro other ho
      exact ⟨hother _ _ other ho, by
        rw [(hsame _ _).2]; exact (CachedMem.cacheController_other t.state type other ho).2⟩

theorem CachedMem.resident_touched (mem : MemoryStorage) (as : List Access) (type : cacheType)
    (T : Word) (h : T ∈ ((CachedMem.init mem).run as).cache type) : T ∈ touches type as := by
  have hq := ((CachedMem.run_WF mem as type).mem_iff T).mpr h
  exact mem_of_lastRequest_pos T _ ((CachedMem.run_ordered mem as type).2 T hq)

theorem CachedMem.resident_last (mem : MemoryStorage) (as : List Access) (a : Access)
    (type : cacheType) (T : Word) (h : Access.tag? type a = some T) :
    T ∈ ((CachedMem.init mem).run (as ++ [a])).cache type := by
  apply ((CachedMem.run_WF mem (as ++ [a]) type).mem_iff T).mp
  rw [CachedMem.run_append, CachedMem.access_queue]
  rcases CachedMem.request_queue ((CachedMem.init mem).run as) a type (CachedMem.run_WF mem as)
    with ⟨hn, _⟩ | ⟨T2, p, ht, _, _, hq⟩
  · rw [h] at hn
    exact Option.noConfusion hn
  · rw [h] at ht
    rw [hq, ← Option.some.inj ht]
    exact List.mem_append_right _ (List.mem_singleton_self _)

/-- Accesses that request every line at most once from either cache, at most 639 lines each,
are all misses: the compiled program runs them to the end, each deque ends as many slots
after slot `3 * 128` as lines were requested, and its map is the first one. -/
theorem CachedMem.Laid.run_fresh (mem : MemoryStorage) (as : List Access)
    (hnd : ∀ type, (touches type as).Nodup) (hlen : ∀ type, (touches type as).length ≤ 639) :
    ∃ t, (CachedMem.Laid.init mem).run as = some t ∧
      t.state = (CachedMem.init mem).run as ∧
      ∀ type, (t.layout type).mapSize = 8 ∧
        t.finish type = 3 * 128 + (touches type as).length := by
  induction as using List.reverseRecOn with
  | nil =>
    refine ⟨CachedMem.Laid.init mem, rfl, rfl, ?_⟩
    intro type
    cases type <;> exact ⟨rfl, rfl⟩
  | append_singleton as a ih =>
    have hnd1 : ∀ type, (touches type as).Nodup := by
      intro type
      have := hnd type
      rw [touches_append] at this
      exact List.Nodup.of_append_left this
    have hlen1 : ∀ type, (touches type as).length ≤ 639 := by
      intro type
      have := hlen type
      rw [touches_append, List.length_append] at this
      omega
    obtain ⟨t, hrun, hst, hlay⟩ := ih hnd1 hlen1
    have hwf : t.state.WF := by rw [hst]; exact CachedMem.run_WF mem as
    rw [CachedMem.Laid.laid_run_append, hrun]
    show ∃ t2, t.access a = some t2 ∧ _
    -- the request
    have hreq : ∃ t1, t.request a = some t1 ∧ t1.state = t.state.request a ∧
        ∀ type, (t1.layout type).mapSize = 8 ∧
          t1.finish type = 3 * 128 + (touches type (as ++ [a])).length := by
      have key : ∀ (type : cacheType) (ip : Word) (T : Word),
          Access.tag? type a = some T → T = ToLineAddr ip →
          (∀ other, other ≠ type → Access.tag? other a = none) →
          ∃ t1, CachedMem.Laid.cacheController
              { t with state := { t.state with _requestedIp := ip } } type = some t1 ∧
            t1.state = ({ t.state with _requestedIp := ip }).cacheController type ∧
            ∀ ty, (t1.layout ty).mapSize = 8 ∧
              t1.finish ty = 3 * 128 + (touches ty (as ++ [a])).length := by
        intro type ip T htag hT hothers
        have hwf2 : ({ t.state with _requestedIp := ip } : CachedMem).WF :=
          CachedMem.WF_congr _ t.state (fun ty => by cases ty <;> exact ⟨rfl, rfl⟩) hwf
        have hmiss : ToLineAddr ip ∉ t.state.cache type := by
          intro hres
          rw [hst] at hres
          have hin := CachedMem.resident_touched mem as type _ hres
          have := hnd type
          rw [touches_append, htag, hT] at this
          have hdis := List.disjoint_of_nodup_append this
          exact hdis hin (List.mem_singleton_self _)
        have hlayty : ∀ ty, (CachedMem.Laid.layout
            { t with state := { t.state with _requestedIp := ip } } ty) = t.layout ty := by
          intro ty; cases ty <;> rfl
        have hfin : ∀ ty, (CachedMem.Laid.finish
            { t with state := { t.state with _requestedIp := ip } } ty) = t.finish ty := by
          intro ty; cases ty <;> rfl
        have hl1 := hlen type
        rw [touches_append, htag, List.length_append] at hl1
        simp only [Option.toList, List.length_cons, List.length_nil] at hl1
        obtain ⟨t1, h1, h2, h3, h4, h5⟩ := CachedMem.Laid.cacheController_fresh
          { t with state := { t.state with _requestedIp := ip } } type hwf2
          (by
            have : ToLineAddr ip ∉ ({ t.state with _requestedIp := ip } : CachedMem).cache type := by
              cases type <;> exact hmiss
            exact this)
          (by rw [hlayty]; exact (hlay type).1)
          (by rw [hfin, (hlay type).2]; omega)
        refine ⟨t1, h1, h2, ?_⟩
        intro ty
        by_cases hty : ty = type
        · subst hty
          refine ⟨h3, ?_⟩
          rw [h4, hfin, (hlay ty).2, touches_append, htag, List.length_append]
          simp only [Option.toList, List.length_cons, List.length_nil]
          omega
        · obtain ⟨k1, k2⟩ := h5 ty hty
          refine ⟨by rw [k1, hlayty]; exact (hlay ty).1, ?_⟩
          unfold CachedMem.Laid.finish
          rw [k1, k2, hlayty]
          have : ({ t.state with _requestedIp := ip } : CachedMem).commonlyUsed ty =
              t.state.commonlyUsed ty := by cases ty <;> rfl
          rw [this, touches_append, hothers ty hty]
          simp only [Option.toList, List.append_nil]
          exact (hlay ty).2
      cases a with
      | fetch ip =>
        obtain ⟨t1, h1, h2, h3⟩ := key .instruction ip (ToLineAddr ip) (by simp [Access.tag?])
          rfl (by intro other ho; cases other <;> simp [Access.tag?] at ho ⊢)
        exact ⟨t1, h1, h2, h3⟩
      | operand instr =>
        by_cases hn : instr._type ≠ .Ld ∧ instr._type ≠ .St
        · refine ⟨t, ?_, ?_, ?_⟩
          · show t.RequestInstr instr = some t
            unfold CachedMem.Laid.RequestInstr
            rw [if_pos hn]
          · show t.state = t.state.RequestInstr instr
            unfold CachedMem.RequestInstr
            rw [if_pos hn]
          · intro ty
            have hnone : Access.tag? ty (.operand instr) = none := by
              simp [Access.tag?, hn.1, hn.2]
            rw [touches_append, hnone]
            simp only [Option.toList, List.append_nil]
            exact hlay ty
        · have hmem : instr._type = .Ld ∨ instr._type = .St := by
            by_contra hc
            exact hn ⟨fun e => hc (Or.inl e), fun e => hc (Or.inr e)⟩
          obtain ⟨t1, h1, h2, h3⟩ := key .calculation instr._addr (ToLineAddr instr._addr)
            (by
              show (if cacheType.calculation = cacheType.calculation ∧
                (instr._type = .Ld ∨ instr._type = .St) then some (ToLineAddr instr._addr)
                else none) = _
              rw [if_pos ⟨rfl, hmem⟩])
            rfl (by intro other ho; cases other <;> simp [Access.tag?] at ho ⊢)
          refine ⟨t1, ?_, ?_, h3⟩
          · show t.RequestInstr instr = some t1
            unfold CachedMem.Laid.RequestInstr
            rw [if_neg hn]
            exact h1
          · show t1.state = t.state.RequestInstr instr
            unfold CachedMem.RequestInstr
            rw [if_neg hn]
            exact h2
    obtain ⟨t1, h1, h2, h3⟩ := hreq
    refine ⟨{ t1 with state := t1.state.poll a }, ?_, ?_, ?_⟩
    · unfold CachedMem.Laid.access
      rw [h1]
    · show t1.state.poll a = _
      rw [CachedMem.run_append, ← hst, CachedMem.access_eq_poll, h2]
    · intro ty
      obtain ⟨k1, k2⟩ := h3 ty
      refine ⟨by cases ty <;> exact k1, ?_⟩
      rw [← k2]
      unfold CachedMem.Laid.finish
      have hq : (t1.state.poll a).commonlyUsed ty = t1.state.commonlyUsed ty := by
        rw [h2, ← CachedMem.access_eq_poll]
        exact CachedMem.access_queue t.state a ty
      have hl : (CachedMem.Laid.layout { t1 with state := t1.state.poll a } ty) =
          t1.layout ty := by cases ty <;> rfl
      rw [hl]
      show _ + ((t1.state.poll a).commonlyUsed ty).length = _
      rw [hq]

theorem reallocation (l : DequeLayout) (size : Nat) (hm : l.mapSize = 8)
    (hf : l.start + size = 1023) : l.reallocates size = true := by
  unfold DequeLayout.reallocates dequeNodeWords sizeofWord
  rw [hm, hf]
  decide

theorem ToLineAddr_line (k : Nat) (hk : k < 2 ^ 27) : ToLineAddr (32 * k) = 32 * k := by
  rw [ToLineAddr_eq]
  show (32 * k % 2 ^ 32) / 32 * 32 = 32 * k
  omega

theorem fetchLines_succ (n : Nat) : fetchLines (n + 1) = fetchLines n ++ [.fetch (32 * n)] := by
  unfold fetchLines
  rw [List.range_succ, List.map_append]
  rfl

theorem loadLines_succ (n : Nat) :
    loadLines (n + 1) = loadLines n ++ [.operand (loadAt (32 * n))] := by
  unfold loadLines
  rw [List.range_succ, List.map_append]
  rfl

theorem touches_fetchLines (n : Nat) :
    touches .instruction (fetchLines n) = (List.range n).map (fun k => ToLineAddr (32 * k)) ∧
    touches .calculation (fetchLines n) = [] := by
  unfold touches fetchLines
  constructor
  · rw [List.filterMap_map]
    have : (Access.tag? .instruction ∘ fun k => Access.fetch (32 * k)) =
        some ∘ (fun k => ToLineAddr (32 * k)) := by
      funext k
      simp [Access.tag?]
    rw [this, List.filterMap_eq_map]
  · rw [List.filterMap_map]
    apply List.filterMap_eq_nil_iff.mpr
    intro k _
    simp [Access.tag?]

theorem touches_loadLines (n : Nat) :
    touches .calculation (loadLines n) = (List.range n).map (fun k => ToLineAddr (32 * k)) ∧
    touches .instruction (loadLines n) = [] := by
  unfold touches loadLines
  constructor
  · rw [List.filterMap_map]
    have : (Access.tag? .calculation ∘ fun k => Access.operand (loadAt (32 * k))) =
        some ∘ (fun k => ToLineAddr (32 * k)) := by
      funext k
      simp [Access.tag?, loadAt]
    rw [this, List.filterMap_eq_map]
  · rw [List.filterMap_map]
    apply List.filterMap_eq_nil_iff.mpr
    intro k _
    simp [Access.tag?]

theorem lines_nodup (n : Nat) (hn : n ≤ 2 ^ 27) :
    ((List.range n).map (fun k => ToLineAddr (32 * k))).Nodup := by
  apply List.Nodup.map_on _ (List.nodup_range n)
  intro a ha b hb hab
  rw [List.mem_range] at ha hb
  rw [ToLineAddr_line a (by omega), ToLineAddr_line b (by omega)] at hab
  have hab2 : 32 * a = 32 * b := hab
  omega

/-- C4. The hit of the claim that crashes. After fetches in 639 lines, each polled to
completion, over any backing store: the program has run to here, the line of the last fetch
is resident in the fetch-path cache, and the recency deque ends at the last slot of the node
at the last entry of its map. The fetch request in that line is a hit, for which the claim and
`CachedMem.cacheController` have the countdown `3`; in the compiled program it does not
return: `push_back` reallocates the map, and `erase(lineToDelete)` goes through the iterator
taken before it. -/
theorem CachedMem.hit_crashes (mem : MemoryStorage) :
    ∃ t, (CachedMem.Laid.init mem).run (fetchLines 639) = some t ∧
      ToLineAddr (32 * 638) ∈ t.state._cacheInstructions ∧
      (t.state.Request (32 * 638))._waitCycles = 3 ∧
      t.layoutInstructions.start + t.state._commonlyUsedInstructions.length = 7 * 128 + 127 ∧
      t.layoutInstructions.mapSize = 8 ∧
      t.Request (32 * 638) = none := by
  obtain ⟨ht1, ht2⟩ := touches_fetchLines 639
  obtain ⟨t, hrun, hst, hlay⟩ := CachedMem.Laid.run_fresh mem (fetchLines 639)
    (by
      intro type
      cases type
      · rw [ht1]; exact lines_nodup 639 (by norm_num)
      · rw [ht2]; exact List.nodup_nil)
    (by
      intro type
      cases type
      · rw [ht1, List.length_map, List.length_range]
      · rw [ht2]; exact Nat.zero_le _)
  obtain ⟨hm, hf⟩ := hlay .instruction
  have hl : (touches .instruction (fetchLines 639)).length = 639 := by
    rw [ht1, List.length_map, List.length_range]
  rw [hl] at hf
  have hres : ToLineAddr (32 * 638) ∈ t.state.cache .instruction := by
    rw [hst, show fetchLines 639 = fetchLines 638 ++ [.fetch (32 * 638)] from fetchLines_succ 638]
    exact CachedMem.resident_last mem (fetchLines 638) (.fetch (32 * 638)) .instruction _
      (by simp [Access.tag?])
  refine ⟨t, hrun, hres, ?_, hf, hm, ?_⟩
  · exact (CachedMem.cacheController_hit_state { t.state with _requestedIp := 32 * 638 }
      .instruction hres).1
  · have hret := CachedMem.Laid.hit_returns
      { t with state := { t.state with _requestedIp := 32 * 638 } } .instruction hres
    have hre : DequeLayout.reallocates t.layoutInstructions
        t.state._commonlyUsedInstructions.length = true := reallocation _ _ hm hf
    have hre2 : (CachedMem.Laid.layout
        { t with state := { t.state with _requestedIp := 32 * 638 } } .instruction).reallocates
        (({ t.state with _requestedIp := 32 * 638 } : CachedMem).commonlyUsed
          .instruction).length = true := hre
    rw [hre2] at hret
    exact Option.not_isSome_iff_eq_none.mp (by
      show ¬ (CachedMem.Laid.cacheController
        { t with state := { t.state with _requestedIp := 32 * 638 } } .instruction).isSome = true
      rw [hret]; simp)

theorem UncachedMem.load_result (u : UncachedMem) (addr : Word) :
    (u.operand (loadAt addr)).1 = true ∧
      (u.operand (loadAt addr)).2.1._data = u._mem.Read addr := by
  obtain ⟨u1, u2, _⟩ := UncachedMem.uncached_operand_result u (loadAt addr) (Or.inl rfl)
  refine ⟨u1, ?_⟩
  rw [(u2 rfl).1]
  rfl

/-- C20. The loads of the claim on which the two models part. After loads in 639 lines, each
polled to completion, over any backing store: the program with `CachedMem` has run to here,
the line of the last load is resident in the operand-path cache, and the recency deque ends at
the last slot of the node at the last entry of its map; all the addresses are in range. A
further load in that line is a hit: in the compiled program `Request(instr)` does not return (`push_back` reallocates
the map, and `erase(lineToDelete)` goes through the iterator taken before it), so the load
places no value; through `UncachedMem` after the same loads it is polled to completion and
places the word of the backing store. -/
theorem CachedMem.operand_crashes (mem : MemoryStorage) :
    ∃ t, (CachedMem.Laid.init mem).run (loadLines 639) = some t ∧
      ToLineAddr (32 * 638) ∈ t.state._cacheCalculations ∧
      t.layoutCalculations.start + t.state._commonlyUsedCalculations.length = 7 * 128 + 127 ∧
      t.layoutCalculations.mapSize = 8 ∧
      (∀ k : Nat, k < 639 → InRange (loadAt (32 * k))._addr) ∧
      t.RequestInstr (loadAt (32 * 638)) = none ∧
      (((UncachedMem.init mem).run (loadLines 639)).operand (loadAt (32 * 638))).1 = true ∧
      (((UncachedMem.init mem).run (loadLines 639)).operand (loadAt (32 * 638))).2.1._data =
        ((UncachedMem.init mem).run (loadLines 639))._mem.Read (32 * 638) := by
  obtain ⟨ht1, ht2⟩ := touches_loadLines 639
  obtain ⟨t, hrun, hst, hlay⟩ := CachedMem.Laid.run_fresh mem (loadLines 639)
    (by
      intro type
      cases type
      · rw [ht2]; exact List.nodup_nil
      · rw [ht1]; exact lines_nodup 639 (by norm_num))
    (by
      intro type
      cases type
      · rw [ht2]; exact Nat.zero_le _
      · rw [ht1, List.length_map, List.length_range])
  obtain ⟨hm, hf⟩ := hlay .calculation
  have hl : (touches .calculation (loadLines 639)).length = 639 := by
    rw [ht1, List.length_map, List.length_range]
  rw [hl] at hf
  have hres : ToLineAddr (32 * 638) ∈ t.state.cache .calculation := by
    rw [hst, show loadLines 639 = loadLines 638 ++ [.operand (loadAt (32 * 638))] from
      loadLines_succ 638]
    exact CachedMem.resident_last mem (loadLines 638) (.operand (loadAt (32 * 638)))
      .calculation _ (by simp [Access.tag?, loadAt])
  obtain ⟨u1, u2⟩ := UncachedMem.load_result
    ((UncachedMem.init mem).run (loadLines 639)) (32 * 638)
  have hin : ∀ k : Nat, k < 639 → InRange (loadAt (32 * k))._addr := by
    intro k hk
    have h : (32 * k / 2 ^ 2 : Nat) < 1024 * 1024 := by omega
    show InRange (32 * k)
    unfold InRange ToWordAddr memSize
    rw [Nat.shiftRight_eq_div_pow]
    exact h
  refine ⟨t, hrun, hres, hf, hm, hin, ?_, u1, u2⟩
  · have hret := CachedMem.Laid.hit_returns
      { t with state := { t.state with _requestedIp := 32 * 638 } } .calculation hres
    have hre : DequeLayout.reallocates t.layoutCalculations
        t.state._commonlyUsedCalculations.length = true := reallocation _ _ hm hf
    have hre2 : (CachedMem.Laid.layout
        { t with state := { t.state with _requestedIp := 32 * 638 } } .calculation).reallocates
        (({ t.state with _requestedIp := 32 * 638 } : CachedMem).commonlyUsed
          .calculation).length = true := hre
    rw [hre2] at hret
    have hnone : CachedMem.Laid.cacheController
        { t with state := { t.state with _requestedIp := 32 * 638 } } .calculation = none :=
      Option.not_isSome_iff_eq_none.mp (by rw [hret]; simp)
    show t.RequestInstr (loadAt (32 * 638)) = none
    unfold CachedMem.Laid.RequestInstr
    rw [if_neg (by decide)]
    exact hnone

/-! ## Throughput -/

theorem Cpu.Clock_some {M R C : Type} (env : Collaborators R C) (mem : IMem M)
    (c c2 : Cpu M R C) (h : Cpu.Clock env mem c = some c2) :
    ∃ log, Cpu.ClockLog env mem c = some (c2, log) := by
  unfold Cpu.Clock at h
  obtain ⟨x, hx, hx2⟩ := Option.map_eq_some'.mp h
  exact ⟨x.2, by rw [hx, ← hx2]⟩

theorem Cpu.loaded_tick {M R C : Type} (env : Collaborators R C) (mem : IMem M)
    (c c2 : Cpu M R C) (log : List (MemCall M))
    (h : Cpu.ClockLog env mem c = some (c2, log)) : c2.Loaded := by
  obtain ⟨_, hsh⟩ := Cpu.tick_shapes env mem c c2 log h
  unfold Cpu.Loaded
  rcases hsh with ⟨_, _, _, hrd, _⟩ | ⟨_, w, instr, _, _, _, _, _, hcur, _⟩ |
      ⟨_, _, instr, _, _, hb, _⟩ | ⟨_, _, instr, _, _, _, _, _, _, hcur, _⟩
  · intro _ e; rw [hrd] at e; exact Bool.noConfusion e
  · exact fun _ _ => ⟨_, hcur⟩
  · intro e; rw [hb] at e; exact Bool.noConfusion e
  · exact fun _ _ => ⟨_, hcur⟩

theorem Cpu.paced_tick {M R C : Type} (env : Collaborators R C) (mem : IMem M)
    (n : Nat) (hn : n ≤ 4294967290) (c c2 : Cpu M R C) (log : List (MemCall M))
    (hp : c.Paced n) (h : Cpu.ClockLog env mem c = some (c2, log)) : c2.Paced (n + 1) := by
  obtain ⟨hclk, hsh⟩ := Cpu.tick_shapes env mem c c2 log h
  obtain ⟨hpc, h0, hw, hf⟩ := hp
  have hclk2 : c2.processedClocks = wrapInt ((n + 1 : Nat) : Int) := by
    rw [hclk, hpc]
    unfold wrapInt
    push_cast
    omega
  unfold Cpu.Paced
  rcases hsh with ⟨hfr, _, hb, hrd, hex, _⟩ | ⟨hfr, w, instr, _, hb, hrd, hex, _⟩ |
      ⟨hcb, hcr, instr, _, _, hb, hrd, hex, _⟩ |
      ⟨hcb, hcr, instr, _, _, hb, hrd, hex, _⟩
  · have := hf hfr
    rw [hb, hrd, hex]
    refine ⟨hclk2, h0, fun e => Bool.noConfusion e.2, fun _ => by push_cast; omega⟩
  · have := hf hfr
    have hex2 : c2.executedInstructions = c.executedInstructions + 1 := by
      rw [hex]
      exact wrapInt_of_range _ (by unfold intMin; omega) (by unfold intMax; omega)
    rw [hb, hrd, hex2]
    refine ⟨hclk2, by omega, fun _ => by push_cast; omega, ?_⟩
    rintro (e | e) <;> exact Bool.noConfusion e
  · have := hw ⟨hcb, hcr⟩
    rw [hb, hrd, hex]
    refine ⟨hclk2, h0, fun e => Bool.noConfusion e.1, fun _ => by push_cast; omega⟩
  · have := hw ⟨hcb, hcr⟩
    rw [hb, hrd, hex]
    refine ⟨hclk2, h0, fun _ => by push_cast; omega, ?_⟩
    rintro (e | e) <;> exact Bool.noConfusion e

theorem Cpu.loaded_returns {M R C : Type} (env : Collaborators R C) (mem : IMem M)
    (hret : ∀ w rf csrf, Executor.Returns (env.csrfRead csrf (env.rfRead rf (env.Decode w))))
    (c : Cpu M R C) (hl : c.Loaded) : ∃ c2, Cpu.Clock env mem c = some c2 := by
  obtain ⟨r1, r2, r3⟩ := Cpu.ClockLog_returns env mem c
  have key : ∃ c2 log, Cpu.ClockLog env mem c = some (c2, log) := by
    by_cases hfr : c.isBusy = false ∨ c.isReading = true
    · cases hr : (mem.Response (c.fetchMem mem)).1 with
      | none => exact r1 hfr hr
      | some w =>
        obtain ⟨instr, he⟩ := Executor.Execute_returns _ c._ip
          (hret w c._rf (env.csrfClock c._csrf))
        exact r2 w instr hfr hr he
    · have hb : c.isBusy = true := by
        cases h : c.isBusy
        · exact absurd (Or.inl h) hfr
        · rfl
      have hrd : c.isReading = false := by
        cases h : c.isReading
        · rfl
        · exact absurd (Or.inr h) hfr
      obtain ⟨i, hi⟩ := hl hb hrd
      exact r3 i hb hrd hi
  obtain ⟨c2, log, h⟩ := key
  exact ⟨c2, by unfold Cpu.Clock; rw [h]; rfl⟩

theorem Cpu.ticks_succ {M R C : Type} (env : Collaborators R C) (mem : IMem M)
    (adv : Nat → M → M) (c0 : Cpu M R C) (n : Nat) (c : Cpu M R C)
    (h : Cpu.ticks env mem adv c0 (n + 1) = some c) :
    ∃ x y log, Cpu.ticks env mem adv c0 n = some x ∧ Cpu.ClockLog env mem x = some (y, log) ∧
      c.processedClocks = y.processedClocks ∧ c.executedInstructions = y.executedInstructions ∧
      c.isBusy = y.isBusy ∧ c.isReading = y.isReading ∧
      c.currentInstruction = y.currentInstruction := by
  unfold Cpu.ticks at h
  obtain ⟨x, hx, hx2⟩ := Option.bind_eq_some.mp h
  obtain ⟨y, hy, hy2⟩ := Option.map_eq_some'.mp hx2
  obtain ⟨log, hlog⟩ := Cpu.Clock_some env mem x y hy
  refine ⟨x, y, log, hx, hlog, ?_⟩
  rw [← hy2]
  exact ⟨rfl, rfl, rfl, rfl, rfl⟩

theorem Cpu.ticks_paced {M R C : Type} (env : Collaborators R C) (mem : IMem M)
    (adv : Nat → M → M) (c0 : Cpu M R C) (h0 : c0.Paced 0)
    (n : Nat) (hn : n ≤ 4294967291) (c : Cpu M R C)
    (h : Cpu.ticks env mem adv c0 n = some c) : c.Paced n := by
  induction n generalizing c with
  | zero =>
    have e : c0 = c := Option.some.inj h
    rw [← e]
    exact h0
  | succ n ih =>
    obtain ⟨x, y, log, hx, hlog, e1, e2, e3, e4, _⟩ := Cpu.ticks_succ env mem adv c0 n c h
    have hpy := Cpu.paced_tick env mem n (by omega) x y log (ih (by omega) x hx) hlog
    unfold Cpu.Paced at hpy ⊢
    rw [e1, e2, e3, e4]
    exact hpy

theorem Cpu.ticks_loaded {M R C : Type} (env : Collaborators R C) (mem : IMem M)
    (adv : Nat → M → M) (c0 : Cpu M R C) (h0 : c0.Loaded)
    (n : Nat) (c : Cpu M R C) (h : Cpu.ticks env mem adv c0 n = some c) : c.Loaded := by
  cases n with
  | zero =>
    have e : c0 = c := Option.some.inj h
    rw [← e]
    exact h0
  | succ n =>
    obtain ⟨x, y, log, hx, hlog, _, _, e3, e4, e5⟩ := Cpu.ticks_succ env mem adv c0 n c h
    have := Cpu.loaded_tick env mem x y log hlog
    unfold Cpu.Loaded at this ⊢
    rw [e3, e4, e5]
    exact this

theorem Cpu.paced_init {M R C : Type} (ip : Word) (rf : R) (csrf : C) (m0 : M) :
    (Cpu.init ip rf csrf m0 : Cpu M R C).Paced 0 :=
  ⟨rfl, le_refl _, fun e => Bool.noConfusion e.1, fun _ => le_refl _⟩

theorem Cpu.loaded_init {M R C : Type} (ip : Word) (rf : R) (csrf : C) (m0 : M) :
    (Cpu.init ip rf csrf m0 : Cpu M R C).Loaded :=
  fun e => Bool.noConfusion e

theorem Cpu.paced_cases {M R C : Type} (n : Nat) (c : Cpu M R C) (h : c.Paced n) :
    c.processedClocks = wrapInt n ∧ 0 ≤ c.executedInstructions ∧
      2 * c.executedInstructions ≤ (n : Int) + 1 := by
  obtain ⟨hp, h0, hw, hf⟩ := h
  refine ⟨hp, h0, ?_⟩
  by_cases hfr : c.isBusy = false ∨ c.isReading = true
  · have := hf hfr; omega
  · have hb : c.isBusy = true := by
      cases h : c.isBusy
      · exact absurd (Or.inl h) hfr
      · rfl
    have hrd : c.isReading = false := by
      cases h : c.isReading
      · rfl
      · exact absurd (Or.inr h) hfr
    exact hw ⟨hb, hrd⟩

theorem mainLoop_eq_ticks {M R C : Type} (env : Collaborators R C) (mem : IMem M)
    (c : Cpu M R C) (n : Nat) :
    mainLoop env mem c n = Cpu.ticks env mem (fun _ => mem.Clock) c n := by
  induction n with
  | zero => rfl
  | succ n ih =>
    unfold mainLoop Cpu.ticks
    rw [ih]
    congr 1
    funext x
    unfold mainStep Cpu.Clock
    rw [Option.map_map, Option.map_map]
    rfl

theorem Cpu.ticks_return {M R C : Type} (env : Collaborators R C) (mem : IMem M)
    (adv : Nat → M → M) (c0 : Cpu M R C) (h0 : c0.Loaded)
    (hret : ∀ w rf csrf, Executor.Returns (env.csrfRead csrf (env.rfRead rf (env.Decode w))))
    (n : Nat) : ∃ c, Cpu.ticks env mem adv c0 n = some c := by
  induction n with
  | zero => exact ⟨c0, rfl⟩
  | succ n ih =>
    obtain ⟨x, hx⟩ := ih
    obtain ⟨y, hy⟩ := Cpu.loaded_returns env mem hret x
      (Cpu.ticks_loaded env mem adv c0 h0 n x hx)
    exact ⟨_, by unfold Cpu.ticks; rw [hx]; simp only [Option.some_bind, hy]; rfl⟩

theorem Cpu.bound_of_paced {M R C : Type} (n : Nat) (hn : (n : Int) ≤ intMax) (c : Cpu M R C)
    (h : c.Paced n) :
    c.processedClocks = n ∧ 0 ≤ c.executedInstructions ∧
      2 * c.executedInstructions ≤ c.processedClocks + 1 := by
  obtain ⟨hp, h0, hb⟩ := Cpu.paced_cases n c h
  have hpn : c.processedClocks = n := by
    rw [hp]
    exact wrapInt_of_range _ (by unfold intMin; omega) hn
  exact ⟨hpn, h0, by rw [hpn]; exact hb⟩

theorem Cpu.wrapped_of_paced {M R C : Type} (c : Cpu M R C) (h : c.Paced 2147483648) :
    c.processedClocks = intMin ∧ 0 ≤ c.executedInstructions ∧
      ¬ (2 * c.executedInstructions ≤ c.processedClocks + 1) := by
  obtain ⟨hp, h0, _⟩ := Cpu.paced_cases _ c h
  have hpn : c.processedClocks = intMin := by
    rw [hp]
    decide
  refine ⟨hpn, h0, ?_⟩
  rw [hpn]
  unfold intMin
  omega

/-- C21, counterexample. The loop of `main` over an `UncachedMem` holding zeros, with every
word decoding to an addition: the first `2 ^ 31` iterations return, and after them
`processedClocks` has wrapped to `intMin` while `executedInstructions` is not negative, so
`2 * executedInstructions <= processedClocks + 1` does not hold. -/
theorem Cpu.throughput_bound_fails :
    ∃ c, mainLoop plainEnv UncachedMem.asIMem
        (Cpu.init 0x200 () () (UncachedMem.init zeroMem)) 2147483648 = some c ∧
      c.processedClocks = -2147483648 ∧ 0 ≤ c.executedInstructions ∧
      ¬ (2 * c.executedInstructions ≤ c.processedClocks + 1) := by
  obtain ⟨c, hc⟩ := Cpu.ticks_return plainEnv UncachedMem.asIMem (fun _ => UncachedMem.Clock)
    (Cpu.init 0x200 () () (UncachedMem.init zeroMem)) (Cpu.loaded_init _ _ _ _)
    (fun _ _ _ => (by decide : Executor.Returns (aluRR .Add 0 0))) 2147483648
  have hp := Cpu.ticks_paced plainEnv UncachedMem.asIMem (fun _ => UncachedMem.Clock)
    (Cpu.init 0x200 () () (UncachedMem.init zeroMem)) (Cpu.paced_init _ _ _ _) 2147483648
    (by omega) c hc
  refine ⟨c, ?_, Cpu.wrapped_of_paced c hp⟩
  rw [mainLoop_eq_ticks]
  exact hc

/-- C21, as the code has it. Throughput bound of the pipeline. For every memory model, every
change of its state between the calls and every behaviour of decoder, register file and CSR
file: after `n` calls of `Cpu::Clock` from the initial state, for `n` up to `intMax`,
`processedClocks = n` and `2 * executedInstructions <= processedClocks + 1` (so also in the
loop of `main`); a tick whose fetch poll returned a word counts the instruction, polls no
operand and leaves the `Cpu` busy, so write-back takes a later tick. The calls return for
every `n` when `Execute` returns on every decoded record. The counters are `int` and wrap:
after `2 ^ 31` calls `processedClocks` is `intMin` and the bound does not hold. -/
theorem Cpu.throughput_bound {M R C : Type} (env : Collaborators R C) (mem : IMem M)
    (adv : Nat → M → M) (ip : Word) (rf : R) (csrf : C) (m0 : M) :
    (∀ (n : Nat) c, (n : Int) ≤ intMax →
      Cpu.ticks env mem adv (Cpu.init ip rf csrf m0) n = some c →
      c.processedClocks = n ∧ 0 ≤ c.executedInstructions ∧
      2 * c.executedInstructions ≤ c.processedClocks + 1) ∧
    (∀ (n : Nat) c, (n : Int) ≤ intMax → mainLoop env mem (Cpu.init ip rf csrf m0) n = some c →
      2 * c.executedInstructions ≤ c.processedClocks + 1) ∧
    (∀ c c2 log w, Cpu.ClockLog env mem c = some (c2, log) → MemCall.pollFetch (some w) ∈ log →
      c2.executedInstructions = wrapInt (c.executedInstructions + 1) ∧ c2.isBusy = true ∧
      ∀ r, MemCall.pollOperand r ∉ log) ∧
    ((∀ w rf csrf, Executor.Returns (env.csrfRead csrf (env.rfRead rf (env.Decode w)))) →
      ∀ n : Nat, ∃ c, Cpu.ticks env mem adv (Cpu.init ip rf csrf m0) n = some c) ∧
    (∀ c, Cpu.ticks env mem adv (Cpu.init ip rf csrf m0) 2147483648 = some c →
      c.processedClocks = intMin ∧ 0 ≤ c.executedInstructions ∧
      ¬ (2 * c.executedInstructions ≤ c.processedClocks + 1)) := by
  refine ⟨?_, ?_, ?_, ?_, ?_⟩
  · intro n c hn h
    exact Cpu.bound_of_paced n hn c
      (Cpu.ticks_paced env mem adv _ (Cpu.paced_init ip rf csrf m0) n
        (by unfold intMax at hn; omega) c h)
  · intro n c hn h
    rw [mainLoop_eq_ticks] at h
    exact (Cpu.bound_of_paced n hn c
      (Cpu.ticks_paced env mem _ _ (Cpu.paced_init ip rf csrf m0) n
        (by unfold intMax at hn; omega) c h)).2.2
  · intro c c2 log w h hm
    obtain ⟨_, hsh⟩ := Cpu.tick_shapes env mem c c2 log h
    rcases hsh with ⟨_, _, _, _, _, _, _, hlog⟩ | ⟨_, w2, instr, _, hb, _, hex, _, _, hlog⟩ |
        ⟨_, _, instr, _, _, _, _, _, _, hlog⟩ | ⟨_, _, instr, _, _, _, _, _, _, _, hlog⟩
    · rw [hlog, List.mem_append, Cpu.mem_fetchCalls] at hm
      simp at hm
    · refine ⟨hex, hb, ?_⟩
      intro r hr
      rw [hlog, List.mem_append, Cpu.mem_fetchCalls] at hr
      simp at hr
    · rw [hlog] at hm
      simp at hm
    · rw [hlog] at hm
      simp at hm
  · intro hret n
    exact Cpu.ticks_return env mem adv _ (Cpu.loaded_init ip rf csrf m0) hret n
  · intro c h
    exact Cpu.wrapped_of_paced c
      (Cpu.ticks_paced env mem adv _ (Cpu.paced_init ip rf csrf m0) 2147483648 (by omega) c h)

set_option maxRecDepth 100000 in
/-- Witness for C21 as the code has it: the first call over a `CachedMem` holding zeros counts
an instruction, so the bound is met with equality (`2 * 1 <= 1 + 1`); after the second call,
the write-back, `2 * 1 <= 2 + 1`. -/
theorem Cpu.throughput_bound_witness :
    ∃ c1 c2,
      Cpu.ticks plainEnv CachedMem.asIMem (fun _ => CachedMem.Clock)
        (Cpu.init 0x200 () () (CachedMem.init zeroMem)) 1 = some c1 ∧
      Cpu.ticks plainEnv CachedMem.asIMem (fun _ => CachedMem.Clock)
        (Cpu.init 0x200 () () (CachedMem.init zeroMem)) 2 = some c2 ∧
      c1.executedInstructions = 1 ∧ c1.processedClocks = 1 ∧
      c2.executedInstructions = 1 ∧ c2.processedClocks = 2 ∧
      2 * c2.executedInstructions ≤ c2.processedClocks + 1 :=
  ⟨_, _, rfl, rfl, rfl, rfl, rfl, rfl,
    ((Cpu.throughput_bound plainEnv CachedMem.asIMem (fun _ => CachedMem.Clock) 0x200 () ()
      (CachedMem.init zeroMem)).1 2 _ (by decide) rfl).2.2⟩

end RiscvSim
